import Mathlib

/-!
# Sparse-derivative evaluation and reduction engine (PLUMED)

A shallow embedding of the weighted virtual-atom average
(`src/vatom/WeightedAtomAverage.cpp`) and of the spherical-harmonic symmetry
function (`src/symfunc/SphericalHarmonic.cpp`), with the properties that the
specification states about them.

Conventions of the embedding.

* A `double` is an element of a field `K` (exact arithmetic); the definitions
  run over `ℚ`, the theorems that need `sqrt` and `pi` are stated over `ℝ`.
* A `std::vector<double>` that is only indexed is a total map `Nat → K`; where
  the source loops over `size()` the vector is a `List K`.
* `x[p] += v` is `addTo x p v`; a `for` loop is a left fold over `List.range`.
* A thrown error is `Except.error`.
-/

namespace PLMD

/-! ## Definitions -/

/-- The error conditions raised by the embedded code. -/
inductive Fault where
  /-- `error(...)` of `prepareForTasks`: a mass is not known. -/
  | massesNotKnown
  /-- `error(...)` of `prepareForTasks`: charges were not set. -/
  | chargesNotKnown
  /-- `plumed_merror(...)` of `performTask`: charges are unset. -/
  | chargesUnset
  /-- `error(...)` of the `SphericalHarmonic` constructor. -/
  | unsupportedOrder
  deriving DecidableEq

/-- The statement `x[p] += v` on a vector held as a total map. -/
def addTo {K : Type} [Add K] (x : Nat → K) (p : Nat) (v : K) : Nat → K :=
  Function.update x p (x p + v)

/-- A three-component `Vector` of the tools library. -/
@[ext]
structure Vector (K : Type) where
  x : K
  y : K
  z : K

namespace Vector

variable {K : Type} [Field K]

/-- The null vector, the value of a default-constructed `Vector`. -/
def zero : Vector K := ⟨0, 0, 0⟩

/-- Component-wise sum, `a + b`. -/
def add (a b : Vector K) : Vector K := ⟨a.x + b.x, a.y + b.y, a.z + b.z⟩

/-- Product with a scalar on the left, `s * a`. -/
def smul (s : K) (a : Vector K) : Vector K := ⟨s * a.x, s * a.y, s * a.z⟩

/-- Squared length, `modulo2()`. -/
def modulo2 (a : Vector K) : K := a.x * a.x + a.y * a.y + a.z * a.z

/-- Component-wise difference, `a - b`. -/
def sub (a b : Vector K) : Vector K := ⟨a.x - b.x, a.y - b.y, a.z - b.z⟩

/-- Scalar product of two vectors. -/
def dot (a b : Vector K) : K := a.x * b.x + a.y * b.y + a.z * b.z

end Vector

/-- Modelled from the spec: the task tape `MultiValue`, a class whose source is
not among the files at hand. Following the spec's Quantity (section 3 and 4.1),
every stash index holds a value, a map from derivative index to partial
derivative and the list of active derivative indices in insertion order. -/
structure MultiValue (K : Type) where
  /-- The value held at each stash index. -/
  values : Nat → K
  /-- The derivative of each stash index with respect to each global index. -/
  derivatives : Nat → Nat → K
  /-- The active derivative indices of each stash index, in insertion order. -/
  active : Nat → List Nat

namespace MultiValue

variable {K : Type} [Field K]

/-- Value of the quantity at stash index `ival`. -/
def get (m : MultiValue K) (ival : Nat) : K := m.values ival

/-- Number of active derivative indices of `ival`. -/
def getNumberActive (m : MultiValue K) (ival : Nat) : Nat := (m.active ival).length

/-- The `k`-th active derivative index of `ival`. -/
def getActiveIndex (m : MultiValue K) (ival k : Nat) : Nat := (m.active ival).getD k 0

/-- Derivative of `ival` with respect to the global index `jder`. -/
def getDerivative (m : MultiValue K) (ival jder : Nat) : K := m.derivatives ival jder

/-- Accumulate `v` into the value of `ival`. -/
def addValue (m : MultiValue K) (ival : Nat) (v : K) : MultiValue K :=
  { m with values := addTo m.values ival v }

/-- Accumulate `der` into the derivative of `ival` with respect to `jder`. -/
def addDerivative (m : MultiValue K) (ival jder : Nat) (der : K) : MultiValue K :=
  { m with derivatives := Function.update m.derivatives ival (addTo (m.derivatives ival) jder der) }

/-- Record `jder` in the active list of `ival`, once. -/
def updateIndex (m : MultiValue K) (ival jder : Nat) : MultiValue K :=
  if jder ∈ m.active ival then m
  else { m with active := Function.update m.active ival (m.active ival ++ [jder]) }

end MultiValue

/-- Modelled from the spec: what the module reads from its base classes and from
the host (`ActionWithVirtualAtom`, `ActionWithValue`, `Atoms`), none of which is
among the files at hand. An unknown mass is a NaN in the source; in exact
arithmetic `isnanMass i` is the outcome of `std::isnan(getMass(i))`. -/
structure Host (K : Type) where
  /-- Number of atoms the action requested. -/
  getNumberOfAtoms : Nat
  /-- Position of each requested atom. -/
  getPosition : Nat → Vector K
  /-- Mass of each requested atom. -/
  getMass : Nat → K
  /-- Whether the mass of an atom is NaN. -/
  isnanMass : Nat → Bool
  /-- Charge of each requested atom. -/
  getCharge : Nat → K
  /-- Whether the host supplied charges. -/
  chargesWereSet : Bool
  /-- Number of quantities the derived class stores (three for a centre). -/
  getNumberOfStoredQuantities : Nat
  /-- Number of derivatives of the action. -/
  getNumberOfDerivatives : Nat
  /-- Whether derivatives are switched off for the current step. -/
  doNotCalculateDerivatives : Bool
  /-- Whether the action is evaluated inside a chain. -/
  actionInChain : Bool

/-- The upstream value `val_weights` points to, as far as the module reads it. -/
structure WeightValue (K : Type) where
  /-- The stash index `getPositionInStream()` of the upstream value. -/
  getPositionInStream : Nat
  /-- The stored upstream vector, read by `get(task_index)`. -/
  get : Nat → K

/-- The data members of `WeightedAtomAverage`. -/
structure WeightedAtomAverage (K : Type) where
  myx : Nat
  myw : Nat
  nspace : Nat
  bufstart : Nat
  weight_mass : Bool
  weight_charge : Bool
  first : Bool
  /-- The pointer `val_weights`; `none` is `NULL`. -/
  val_weights : Option (WeightValue K)
  weights : Nat → K
  final_vals : Nat → K
  weight_deriv : Nat → K
  final_deriv : Nat → Nat → K
  val_deriv : List (List K)
  val_forces : List K

namespace WeightedAtomAverage

variable {K : Type} [Field K]

/-- `WeightedAtomAverage::setStashIndices`: returns the module with its stash
indices set, and the advanced counter `nquants`. -/
def setStashIndices (a : WeightedAtomAverage K) (h : Host K) (nquants : Nat) :
    WeightedAtomAverage K × Nat :=
  ({ a with myx := nquants, myw := nquants + h.getNumberOfStoredQuantities },
    nquants + (h.getNumberOfStoredQuantities + 1))

/-- `WeightedAtomAverage::gatherForVirtualAtom`: the first loop adds the
`ntmp_vals` values to the first slot of their blocks, the second one adds the
active derivatives behind them; `bstart` is carried along as in the source. -/
def gatherForVirtualAtom (a : WeightedAtomAverage K) (h : Host K)
    (myvals : MultiValue K) (buffer : Nat → K) : Nat → K :=
  let ntmp_vals := h.getNumberOfStoredQuantities + 1
  let s1 := (List.range ntmp_vals).foldl
    (fun (st : (Nat → K) × Nat) i =>
      (addTo st.1 st.2 (myvals.get (a.myx + i)), st.2 + a.nspace))
    (buffer, a.bufstart)
  if h.doNotCalculateDerivatives then s1.1
  else
    ((List.range ntmp_vals).foldl
      (fun (st : (Nat → K) × Nat) i =>
        ((List.range (myvals.getNumberActive (a.myx + i))).foldl
          (fun b k =>
            let kindex := myvals.getActiveIndex (a.myx + i) k
            addTo b (st.2 + 1 + kindex) (myvals.getDerivative (a.myx + i) kindex))
          st.1,
         st.2 + a.nspace))
      (s1.1, a.bufstart)).1

/-- `WeightedAtomAverage::transformFinalValueAndDerivatives`. The source has no
statement that throws; the hooks `finalizeValue` and `finalizeDerivatives` of
the derived class receive `final_vals`, `final_deriv`, `weight_deriv` and
`val_deriv` as they stand in the returned module. -/
def transformFinalValueAndDerivatives (a : WeightedAtomAverage K) (h : Host K)
    (buffer : Nat → K) : Except Fault (WeightedAtomAverage K) :=
  let ntmp_vals := h.getNumberOfStoredQuantities
  let ww := buffer (a.bufstart + ntmp_vals * a.nspace)
  let final_vals := (List.range ntmp_vals).foldl
    (fun fv i => Function.update fv i (buffer (a.bufstart + i * a.nspace) / ww)) a.final_vals
  if h.doNotCalculateDerivatives then
    Except.ok { a with final_vals := final_vals }
  else
    let st := (List.range h.getNumberOfDerivatives).foldl
      (fun (st : (Nat → Nat → K) × (Nat → K)) i =>
        ((List.range ntmp_vals).foldl
          (fun fd j =>
            Function.update fd j
              (Function.update (fd j) i (buffer (a.bufstart + j * a.nspace + 1 + i) / ww)))
          st.1,
         Function.update st.2 i (buffer (a.bufstart + ntmp_vals * a.nspace + 1 + i) / ww)))
      (a.final_deriv, a.weight_deriv)
    Except.ok { a with final_vals := final_vals, final_deriv := st.1, weight_deriv := st.2 }

/-- `WeightedAtomAverage::prepareForTasks`. `error(...)` throws, so the loop
over the atoms ends at the first mass that is NaN; `setupEntity()` belongs to
the base class and touches none of the data members held here. -/
def prepareForTasks (a : WeightedAtomAverage K) (h : Host K) :
    Except Fault (WeightedAtomAverage K) :=
  if a.first then do
    if a.weight_mass then
      (List.range h.getNumberOfAtoms).forM
        (fun i => if h.isnanMass i then Except.error Fault.massesNotKnown else pure ())
    else if a.weight_charge && !h.chargesWereSet then
      Except.error Fault.chargesNotKnown
    pure { a with first := false }
  else pure a

/-- Modelled from the spec: `WeightedAtomAverage::addDerivative`, declared in the
header, which is not among the files at hand: the amount is accumulated on the
numerator tape `myx + ival` at the global index `jder`, and the index is
recorded as active. -/
def addDerivative (a : WeightedAtomAverage K) (ival jder : Nat) (der : K)
    (myvals : MultiValue K) : MultiValue K :=
  (myvals.addDerivative (a.myx + ival) jder der).updateIndex (a.myx + ival) jder

/-- `WeightedAtomAverage::applyForcesToValue`, up to the hand-over of
`val_forces` to the upstream action, which happens outside the module. -/
def applyForcesToValue (a : WeightedAtomAverage K) (fff : List K) : WeightedAtomAverage K :=
  let zeroed := List.replicate a.val_forces.length (0 : K)
  { a with
    val_forces := (List.range fff.length).foldl
      (fun vf j =>
        (List.range (a.val_deriv.getD j []).length).foldl
          (fun vf k => vf.set k (vf.getD k 0 + fff.getD j 0 * (a.val_deriv.getD j []).getD k 0))
          vf)
      zeroed }

end WeightedAtomAverage

/-- `WeightedAtomAverage::performTask`. The per-task `compute` of the derived
class and the constant `epsilon` of the tools library are parameters. The
stash of the upstream value differs from the stashes `myx .. myw` of the
module, so the bound `getNumberActive(istrn)` of the loop is read once. -/
def WeightedAtomAverage.performTask {K : Type} [LinearOrderedField K]
    (a : WeightedAtomAverage K) (h : Host K) (epsilon : K)
    (compute : Nat → K → Vector K → MultiValue K → MultiValue K)
    (task_index : Nat) (myvals : MultiValue K) : Except Fault (MultiValue K) := do
  let pos := h.getPosition task_index
  let w ←
    if a.weight_mass then pure (h.getMass task_index)
    else if a.weight_charge then
      if !h.chargesWereSet then Except.error Fault.chargesUnset
      else pure (h.getCharge task_index)
    else match a.val_weights with
      | some vw =>
        if h.actionInChain then pure (myvals.get vw.getPositionInStream)
        else pure (vw.get task_index)
      | none => pure (a.weights task_index)
  let ntmp_vals := h.getNumberOfStoredQuantities
  let myvals := compute task_index w pos (myvals.addValue a.myw w)
  match a.val_weights with
  | none => pure myvals
  | some vw =>
    if !h.doNotCalculateDerivatives && decide (epsilon < |w|) then
      let invw := 1 / w
      let base := 3 * h.getNumberOfAtoms
      let istrn := vw.getPositionInStream
      pure ((List.range (myvals.getNumberActive istrn)).foldl
        (fun mv k =>
          let kindex := mv.getActiveIndex istrn k
          let der := mv.getDerivative istrn kindex
          let mv := (List.range ntmp_vals).foldl
            (fun mv j => a.addDerivative j (base + kindex) (der * invw * mv.get (a.myx + j)) mv)
            mv
          (mv.addDerivative a.myw (base + kindex) der).updateIndex a.myw (base + kindex))
        myvals)
    else pure myvals

/-! ### The spherical-harmonic symmetry function -/

/-- A `std::complex<double>`. -/
structure complex (K : Type) where
  re : K
  im : K

namespace complex

variable {K : Type} [Field K]

/-- Product of two complex numbers. -/
def mul (a b : complex K) : complex K := ⟨a.re * b.re - a.im * b.im, a.re * b.im + a.im * b.re⟩

/-- Product `s * a` of a real and a complex number. -/
def smul (s : K) (a : complex K) : complex K := ⟨s * a.re, s * a.im⟩

/-- Product `a * s` of a complex and a real number. -/
def mulReal (a : complex K) (s : K) : complex K := ⟨a.re * s, a.im * s⟩

/-- Quotient `a / s` of a complex by a real number. -/
def divReal (a : complex K) (s : K) : complex K := ⟨a.re / s, a.im / s⟩

/-- Difference of two complex numbers. -/
def sub (a b : complex K) : complex K := ⟨a.re - b.re, a.im - b.im⟩

/-- Difference `s - a` of a real and a complex number. -/
def realSub (s : K) (a : complex K) : complex K := ⟨s - a.re, -a.im⟩

/-- Difference `a - s` of a complex and a real number. -/
def subReal (a : complex K) (s : K) : complex K := ⟨a.re - s, a.im⟩

end complex

/-- Modelled from the spec: an output component of a symmetry function, a
Quantity that carries its value, its three positional derivatives and its
derivative with respect to the input weight (spec section 4.5, Output). -/
@[ext]
structure Quantity (K : Type) where
  /-- The value of the component. -/
  value : K
  /-- The derivatives with respect to the three components of the direction. -/
  deriv : Vector K
  /-- The derivative with respect to the input weight. -/
  wderiv : K

namespace Quantity

variable {K : Type} [Field K]

/-- The Quantity of a fresh tape: value and derivatives zero. -/
def zero : Quantity K := ⟨0, Vector.zero, 0⟩

/-- Part-wise sum of two Quantities. -/
def add (a b : Quantity K) : Quantity K :=
  ⟨a.value + b.value, a.deriv.add b.deriv, a.wderiv + b.wderiv⟩

/-- Part-wise difference of two Quantities: what was deposited between two
states of a component. -/
def sub (a b : Quantity K) : Quantity K :=
  ⟨a.value - b.value, a.deriv.sub b.deriv, a.wderiv - b.wderiv⟩

/-- The Quantity with value, every derivative and weight derivative multiplied
by `s`. -/
def scale (s : K) (a : Quantity K) : Quantity K :=
  ⟨s * a.value, Vector.smul s a.deriv, s * a.wderiv⟩

instance : Zero (Quantity K) := ⟨zero⟩

instance : Add (Quantity K) := ⟨add⟩

instance : AddCommMonoid (Quantity K) where
  add_assoc := fun a b c => by
    ext <;> simp only [HAdd.hAdd, Add.add, add, Vector.add] <;> exact add_assoc _ _ _
  zero_add := fun a => by
    ext <;> simp only [HAdd.hAdd, Add.add, OfNat.ofNat, Zero.zero, add, zero, Vector.add,
      Vector.zero] <;> exact zero_add _
  add_zero := fun a => by
    ext <;> simp only [HAdd.hAdd, Add.add, OfNat.ofNat, Zero.zero, add, zero, Vector.add,
      Vector.zero] <;> exact add_zero _
  add_comm := fun a b => by
    ext <;> simp only [HAdd.hAdd, Add.add, add, Vector.add] <;> exact add_comm _ _
  nsmul := nsmulRec

end Quantity

/-- Modelled from the spec: the three accumulation routines of
`SymmetryFunctionBase`, whose source is not among the files at hand, on a tape
of type `σ`. -/
structure SymmetryFunctionBase (K σ : Type) where
  /-- Accumulate into the value of component `ival`. -/
  addToValue : Nat → K → σ → σ
  /-- Accumulate into the positional derivatives of component `ival`. -/
  addVectorDerivatives : Nat → Vector K → σ → σ
  /-- Accumulate into the weight derivative of component `ival`. -/
  addWeightDerivative : Nat → K → σ → σ

/-- Modelled from the spec: the accumulation routines on a tape that holds one
Quantity for every output component; each routine adds to one part of one
component. -/
def SymmetryFunctionBase.accumulate {K : Type} [Field K] :
    SymmetryFunctionBase K (Nat → Quantity K) where
  addToValue := fun ival v t => Function.update t ival { t ival with value := (t ival).value + v }
  addVectorDerivatives := fun ival v t =>
    Function.update t ival { t ival with deriv := (t ival).deriv.add v }
  addWeightDerivative := fun ival v t =>
    Function.update t ival { t ival with wderiv := (t ival).wderiv + v }

/-- `SphericalHarmonic::factorial`, on `unsigned`: the product wraps at `2^32`. -/
def factorial : Nat → Nat
  | 0 => 1
  | 1 => 1
  | n + 2 => (factorial (n + 1) * (n + 2)) % 2 ^ 32

/-- The data members of `SphericalHarmonic`. The order `tmom` is an `int` in the
source; negative orders are left out of the embedding. -/
structure SphericalHarmonic (K : Type) where
  tmom : Nat
  coeff_poly : List K
  normaliz : List K

namespace SphericalHarmonic

variable {K : Type} [Field K]

/-- The constructor `SphericalHarmonic::SphericalHarmonic` from the line that
fills `normaliz` on; `sqrt` and `pi` are those of the mathematical library.
The product `(2*tmom+1)*factorial(tmom-i)` is an `unsigned`. -/
def construct (sqrt : K → K) (pi : K) (tmom : Nat) : Except Fault (SphericalHarmonic K) :=
  let normaliz : List K := (List.range (tmom + 1)).map (fun i =>
    let v := sqrt ((((2 * tmom + 1) * factorial (tmom - i)) % 2 ^ 32 : Nat)
      / (4 * pi * (factorial (tmom + i) : Nat)))
    if i % 2 = 1 then v * (-1) else v)
  if tmom = 1 then
    Except.ok ⟨tmom, [0, 1.0], normaliz⟩
  else if tmom = 2 then
    Except.ok ⟨tmom, [-0.5, 0.0, 1.5], normaliz⟩
  else if tmom = 3 then
    Except.ok ⟨tmom, [0.0, -1.5, 0.0, 2.5], normaliz⟩
  else if tmom = 4 then
    Except.ok ⟨tmom, [0.375, 0.0, -3.75, 0.0, 4.375], normaliz⟩
  else if tmom = 5 then
    Except.ok ⟨tmom, [0.0, 1.875, 0.0, -8.75, 0.0, 7.875], normaliz⟩
  else if tmom = 6 then
    Except.ok ⟨tmom, [-0.3125, 0.0, 6.5625, 0.0, -19.6875, 0.0, 14.4375], normaliz⟩
  else
    Except.error Fault.unsupportedOrder

/-- The two loops of `deriv_poly`: the pair `(res, df)` before the
normalization; the fold carries `res`, `df`, `pow`, `xi` and `dxi`. -/
def polyLoop (sh : SphericalHarmonic K) (m : Nat) (val : K) : K × K :=
  let fact := (List.range' 1 m).foldl (fun fact j => fact * (j : K)) (1 : K)
  let res := sh.coeff_poly.getD m 0 * fact
  let st := (List.range' (m + 1) (sh.tmom - m)).foldl
    (fun (st : K × K × K × K × K) i =>
      let (res, df, pow, xi, dxi) := st
      let fact := (List.range' (i - m + 1) m).foldl (fun fact j => fact * (j : K)) (1 : K)
      (res + sh.coeff_poly.getD i 0 * fact * xi,
       df + pow * sh.coeff_poly.getD i 0 * fact * dxi,
       pow + 1, xi * val, dxi * val))
    (res, 0, 1, val, 1)
  (st.1, st.2.1)

/-- `SphericalHarmonic::deriv_poly`: the returned value and the derivative `df`. -/
def deriv_poly (sh : SphericalHarmonic K) (m : Nat) (val : K) : K × K :=
  let st := sh.polyLoop m val
  (sh.normaliz.getD m 0 * st.1, st.2 * sh.normaliz.getD m 0)

/-- One round, for the given `m`, of the loop of `compute`; the state is the
tape and `powered`. -/
def computeStep {σ : Type} (base : SymmetryFunctionBase K σ) (sh : SphericalHarmonic K)
    (val : K) (distance : Vector K) (dlen dlen3 : K) (dz : Vector K) (com1 : complex K)
    (st : σ × complex K) (m : Nat) : σ × complex K :=
  let myvals := st.1
  let powered := st.2
  let ii : complex K := ⟨0, 1⟩
  let p := sh.deriv_poly m (distance.z / dlen)
  let poly_ass := p.1
  let dpoly_ass := p.2
  let real_z := (com1.mul powered).re
  let imag_z := (com1.mul powered).im
  let tq6 := poly_ass * real_z
  let itq6 := poly_ass * imag_z
  let md : K := (m : K)
  let dp_x := ((complex.smul md powered)).mul
    (complex.realSub (1 / dlen - distance.x * distance.x / dlen3)
      ((ii.mulReal (distance.x * distance.y)).divReal dlen3))
  let dp_y := ((complex.smul md powered)).mul
    (((ii.mulReal (1 / dlen)).subReal (distance.x * distance.y / dlen3)).sub
      ((ii.mulReal (distance.y * distance.y)).divReal dlen3))
  let dp_z := ((complex.smul md powered)).mul
    (complex.realSub (-(distance.x * distance.z) / dlen3)
      ((ii.mulReal (distance.y * distance.z)).divReal dlen3))
  let real_dz : Vector K := ⟨dp_x.re, dp_y.re, dp_z.re⟩
  let imag_dz : Vector K := ⟨dp_x.im, dp_y.im, dp_z.im⟩
  let myrealvec := (Vector.smul (val * dpoly_ass * real_z) dz).add
    (Vector.smul (val * poly_ass) real_dz)
  let myimagvec := (Vector.smul (val * dpoly_ass * imag_z) dz).add
    (Vector.smul (val * poly_ass) imag_dz)
  let myvals := base.addToValue (sh.tmom + m) (val * tq6) myvals
  let myvals := base.addVectorDerivatives (sh.tmom + m) myrealvec myvals
  let myvals := base.addWeightDerivative (sh.tmom + m) tq6 myvals
  let myvals := base.addToValue (3 * sh.tmom + 1 + m) (val * itq6) myvals
  let myvals := base.addVectorDerivatives (3 * sh.tmom + 1 + m) myimagvec myvals
  let myvals := base.addWeightDerivative (3 * sh.tmom + 1 + m) itq6 myvals
  let pref : K := (-1) ^ m
  let myvals := base.addToValue (sh.tmom - m) (pref * val * tq6) myvals
  let myvals := base.addVectorDerivatives (sh.tmom - m) (Vector.smul pref myrealvec) myvals
  let myvals := base.addWeightDerivative (sh.tmom - m) (pref * tq6) myvals
  let myvals := base.addToValue (3 * sh.tmom + 1 - m) (-pref * val * itq6) myvals
  let myvals := base.addVectorDerivatives (3 * sh.tmom + 1 - m) (Vector.smul (-pref) myimagvec)
    myvals
  let myvals := base.addWeightDerivative (3 * sh.tmom + 1 - m) (-pref * itq6) myvals
  (myvals, powered.mul com1)

/-- `SphericalHarmonic::compute`: the deposit for `m = 0`, then the loop over
`m = 1 .. tmom`. -/
def compute {σ : Type} (base : SymmetryFunctionBase K σ) (sqrt : K → K)
    (sh : SphericalHarmonic K) (val : K) (distance : Vector K) (myvals : σ) : σ :=
  let dlen2 := distance.modulo2
  let dlen := sqrt dlen2
  let dlen3 := dlen2 * dlen
  let p := sh.deriv_poly 0 (distance.z / dlen)
  let poly_ass := p.1
  let dpoly_ass := p.2
  let dz0 := Vector.smul (-(distance.z / dlen3)) distance
  let dz : Vector K := { dz0 with z := dz0.z + 1 / dlen }
  let myvals := base.addToValue sh.tmom (val * poly_ass) myvals
  let myvals := base.addVectorDerivatives sh.tmom (Vector.smul (val * dpoly_ass) dz) myvals
  let myvals := base.addWeightDerivative sh.tmom poly_ass myvals
  let com1 : complex K := ⟨distance.x / dlen, distance.y / dlen⟩
  ((List.range' 1 sh.tmom).foldl (computeStep base sh val distance dlen dlen3 dz com1)
    (myvals, ⟨1, 0⟩)).1

/-- The value of `powered` after `n` rounds of the loop of `compute`. -/
def poweredAfter (com1 : complex K) : Nat → complex K
  | 0 => ⟨1, 0⟩
  | n + 1 => (poweredAfter com1 n).mul com1

/-- What `compute` deposits at index `tmom` for `m = 0`, as one Quantity. -/
def zeroDeposit (sqrt : K → K) (sh : SphericalHarmonic K) (val : K) (distance : Vector K) :
    Quantity K :=
  let dlen2 := distance.modulo2
  let dlen := sqrt dlen2
  let dlen3 := dlen2 * dlen
  let p := sh.deriv_poly 0 (distance.z / dlen)
  let dz0 := Vector.smul (-(distance.z / dlen3)) distance
  let dz : Vector K := { dz0 with z := dz0.z + 1 / dlen }
  ⟨val * p.1, Vector.smul (val * p.2) dz, p.1⟩

/-- What round `m` of the loop deposits at index `tmom + m`, the real part for
`+m`, as one Quantity. -/
def realDeposit (sh : SphericalHarmonic K) (val : K) (distance : Vector K) (dlen dlen3 : K)
    (dz : Vector K) (com1 powered : complex K) (m : Nat) : Quantity K :=
  let ii : complex K := ⟨0, 1⟩
  let p := sh.deriv_poly m (distance.z / dlen)
  let real_z := (com1.mul powered).re
  let md : K := (m : K)
  let dp_x := ((complex.smul md powered)).mul
    (complex.realSub (1 / dlen - distance.x * distance.x / dlen3)
      ((ii.mulReal (distance.x * distance.y)).divReal dlen3))
  let dp_y := ((complex.smul md powered)).mul
    (((ii.mulReal (1 / dlen)).subReal (distance.x * distance.y / dlen3)).sub
      ((ii.mulReal (distance.y * distance.y)).divReal dlen3))
  let dp_z := ((complex.smul md powered)).mul
    (complex.realSub (-(distance.x * distance.z) / dlen3)
      ((ii.mulReal (distance.y * distance.z)).divReal dlen3))
  ⟨val * (p.1 * real_z),
   (Vector.smul (val * p.2 * real_z) dz).add (Vector.smul (val * p.1) ⟨dp_x.re, dp_y.re, dp_z.re⟩),
   p.1 * real_z⟩

/-- What round `m` of the loop deposits at index `3 * tmom + 1 + m`, the
imaginary part for `+m`, as one Quantity. -/
def imagDeposit (sh : SphericalHarmonic K) (val : K) (distance : Vector K) (dlen dlen3 : K)
    (dz : Vector K) (com1 powered : complex K) (m : Nat) : Quantity K :=
  let ii : complex K := ⟨0, 1⟩
  let p := sh.deriv_poly m (distance.z / dlen)
  let imag_z := (com1.mul powered).im
  let md : K := (m : K)
  let dp_x := ((complex.smul md powered)).mul
    (complex.realSub (1 / dlen - distance.x * distance.x / dlen3)
      ((ii.mulReal (distance.x * distance.y)).divReal dlen3))
  let dp_y := ((complex.smul md powered)).mul
    (((ii.mulReal (1 / dlen)).subReal (distance.x * distance.y / dlen3)).sub
      ((ii.mulReal (distance.y * distance.y)).divReal dlen3))
  let dp_z := ((complex.smul md powered)).mul
    (complex.realSub (-(distance.x * distance.z) / dlen3)
      ((ii.mulReal (distance.y * distance.z)).divReal dlen3))
  ⟨val * (p.1 * imag_z),
   (Vector.smul (val * p.2 * imag_z) dz).add (Vector.smul (val * p.1) ⟨dp_x.im, dp_y.im, dp_z.im⟩),
   p.1 * imag_z⟩

/-- Everything round `m` of the loop deposits at index `i`: the two Quantities
for `+m` and their multiples for `-m`. -/
def roundDeposit (sh : SphericalHarmonic K) (val : K) (distance : Vector K) (dlen dlen3 : K)
    (dz : Vector K) (com1 powered : complex K) (m i : Nat) : Quantity K :=
  (if i = sh.tmom + m then realDeposit sh val distance dlen dlen3 dz com1 powered m else 0)
  + (if i = 3 * sh.tmom + 1 + m
      then imagDeposit sh val distance dlen dlen3 dz com1 powered m else 0)
  + (if i = sh.tmom - m
      then Quantity.scale ((-1) ^ m) (realDeposit sh val distance dlen dlen3 dz com1 powered m)
      else 0)
  + (if i = 3 * sh.tmom + 1 - m
      then Quantity.scale (-(-1) ^ m) (imagDeposit sh val distance dlen dlen3 dz com1 powered m)
      else 0)

/-- The vector `dz` of `compute`, the derivatives of `z/r`. -/
def gradZ (sqrt : K → K) (distance : Vector K) : Vector K :=
  let dlen2 := distance.modulo2
  let dlen := sqrt dlen2
  let dlen3 := dlen2 * dlen
  let dz0 := Vector.smul (-(distance.z / dlen3)) distance
  { dz0 with z := dz0.z + 1 / dlen }

/-- The complex number `com1` of `compute`. -/
def unitXY (sqrt : K → K) (distance : Vector K) : complex K :=
  ⟨distance.x / sqrt distance.modulo2, distance.y / sqrt distance.modulo2⟩

/-- The real-part Quantity that a call of `compute` deposits for `+m`, with the
`powered` of round `m`. -/
def realOf (sqrt : K → K) (sh : SphericalHarmonic K) (val : K) (distance : Vector K)
    (m : Nat) : Quantity K :=
  realDeposit sh val distance (sqrt distance.modulo2)
    (distance.modulo2 * sqrt distance.modulo2) (gradZ sqrt distance) (unitXY sqrt distance)
    (poweredAfter (unitXY sqrt distance) (m - 1)) m

/-- The imaginary-part Quantity that a call of `compute` deposits for `+m`, with
the `powered` of round `m`. -/
def imagOf (sqrt : K → K) (sh : SphericalHarmonic K) (val : K) (distance : Vector K)
    (m : Nat) : Quantity K :=
  imagDeposit sh val distance (sqrt distance.modulo2)
    (distance.modulo2 * sqrt distance.modulo2) (gradZ sqrt distance) (unitXY sqrt distance)
    (poweredAfter (unitXY sqrt distance) (m - 1)) m

end SphericalHarmonic

/-! ### A worked configuration

Three atoms at `(0,0,0)`, `(1,0,0)`, `(0,1,0)` with masses `1`, `2`, `1`,
averaged by mass, with derivatives switched on: three stored quantities, nine
derivatives, blocks of width ten. -/

namespace Sample

/-- The host of the worked configuration. -/
def host : Host ℚ where
  getNumberOfAtoms := 3
  getPosition := fun i => if i = 1 then ⟨1, 0, 0⟩ else if i = 2 then ⟨0, 1, 0⟩ else ⟨0, 0, 0⟩
  getMass := fun i => if i = 1 then 2 else 1
  isnanMass := fun _ => false
  getCharge := fun _ => 0
  chargesWereSet := false
  getNumberOfStoredQuantities := 3
  getNumberOfDerivatives := 9
  doNotCalculateDerivatives := false
  actionInChain := false

/-- The module of the worked configuration, before any buffer is finalized. -/
def average : WeightedAtomAverage ℚ where
  myx := 0
  myw := 3
  nspace := 10
  bufstart := 0
  weight_mass := true
  weight_charge := false
  first := true
  val_weights := none
  weights := fun _ => 0
  final_vals := fun _ => 0
  weight_deriv := fun _ => 0
  final_deriv := fun _ _ => 0
  val_deriv := []
  val_forces := []

/-- The tape of the task of atom `i` with mass `m` at `pos`: stash `0..2` hold
`m * pos` with derivative `m` with respect to the matching coordinate of the
atom, stash `3` holds `m`. -/
def tape (i : Nat) (m : ℚ) (pos : Vector ℚ) : MultiValue ℚ where
  values := fun s => if s = 0 then m * pos.x else if s = 1 then m * pos.y
    else if s = 2 then m * pos.z else if s = 3 then m else 0
  derivatives := fun s d => if s < 3 ∧ d = 3 * i + s then m else 0
  active := fun s => if s < 3 then [3 * i + s] else []

/-- The tapes of the three tasks. -/
def tapes : List (MultiValue ℚ) :=
  [tape 0 1 ⟨0, 0, 0⟩, tape 1 2 ⟨1, 0, 0⟩, tape 2 1 ⟨0, 1, 0⟩]

/-- The buffer after the three tapes are gathered into an empty buffer. -/
def gathered : Nat → ℚ :=
  tapes.foldl (fun b t => WeightedAtomAverage.gatherForVirtualAtom average host t b) (fun _ => 0)

/-- The same module weighted by charge. -/
def chargeAverage : WeightedAtomAverage ℚ :=
  { average with weight_mass := false, weight_charge := true }

/-- The same module with an upstream weight of two derivatives: three rows of
derivatives with respect to the weight and forces left over from an earlier
call. -/
def chained : WeightedAtomAverage ℚ :=
  { average with
    weight_mass := false
    val_weights := some ⟨4, fun _ => 1⟩
    val_deriv := [[1, 2], [3, 4], [5, 6]]
    val_forces := [7, 8] }

/-- A square root on the rationals, exact on the squares of rationals. -/
def sqrt (q : ℚ) : ℚ := (Nat.sqrt q.num.toNat : ℚ) / (Nat.sqrt q.den : ℚ)

/-- A module of order two over the rationals; the normalization constants, which
are irrational in the source, are replaced by their signs. -/
def harmonic : SphericalHarmonic ℚ := ⟨2, [-0.5, 0.0, 1.5], [1, -1, 1]⟩

end Sample

/-! ### Buffer sizing and the per-task compute of a centre -/

/-- The call `v.resize(n, x)` on a vector held as a list. -/
def resize {α : Type} (l : List α) (n : Nat) (x : α) : List α :=
  l.take n ++ List.replicate (n - l.length) x

/-- The tape of a task before anything is deposited on it. -/
def MultiValue.empty {K : Type} [Field K] : MultiValue K where
  values := fun _ => 0
  derivatives := fun _ _ => 0
  active := fun _ => []

namespace WeightedAtomAverage

variable {K : Type} [Field K]

/-- The member initialisers of the constructor `WeightedAtomAverage::WeightedAtomAverage`
(`myx(0), myw(0), nspace(1), bufstart(0), weight_mass(false), weight_charge(false),
first(true), val_weights(NULL)`); every vector starts empty. The body of the
constructor parses the keywords and sets `weight_mass`, `weight_charge`,
`weights` and `val_weights` only. -/
def initial : WeightedAtomAverage K where
  myx := 0
  myw := 0
  nspace := 1
  bufstart := 0
  weight_mass := false
  weight_charge := false
  first := true
  val_weights := none
  weights := fun _ => 0
  final_vals := fun _ => 0
  weight_deriv := fun _ => 0
  final_deriv := fun _ _ => 0
  val_deriv := []
  val_forces := []

/-- `WeightedAtomAverage::getSizeOfBuffer`: returns the module and the advanced
`bufsize`. `upstream` is the number of derivatives of the action behind
`val_weights`, `final_vals_size` is `final_vals.size()` and `base` is
`ActionWithValue::getSizeOfBuffer`, which belongs to the base class. The
vectors `final_vals`, `weight_deriv` and `final_deriv` are total maps here, so
their `resize` shows only in `final_vals.size()`, which is `ntmp_vals` after
the call. -/
def getSizeOfBuffer (a : WeightedAtomAverage K) (h : Host K) (upstream final_vals_size : Nat)
    (base : Nat → Nat) (bufsize : Nat) : WeightedAtomAverage K × Nat :=
  let a1 : WeightedAtomAverage K := { a with bufstart := bufsize }
  let a2 : WeightedAtomAverage K :=
    if h.doNotCalculateDerivatives then a1
    else { a1 with nspace := 1 + h.getNumberOfDerivatives }
  let ntmp_vals := h.getNumberOfStoredQuantities
  let bufsize2 := bufsize + (ntmp_vals + 1) * a2.nspace
  let a3 : WeightedAtomAverage K :=
    if final_vals_size ≠ ntmp_vals then
      match a2.val_weights with
      | some _ =>
        { a2 with
          val_deriv := (resize a2.val_deriv 3 []).map (fun row => resize row upstream 0)
          val_forces := resize a2.val_forces upstream 0 }
      | none => a2
    else a2
  (a3, base bufsize2)

/-- Modelled from the spec: the per-task `compute` of a centre, a derived class
whose source is not among the files at hand. For the atom of the task it
deposits `w * x` into each of the three numerators (spec section 4.3), with
derivative `w` with respect to the matching coordinate of the atom. -/
def centerCompute (a : WeightedAtomAverage K) (task_index : Nat) (w : K) (pos : Vector K)
    (myvals : MultiValue K) : MultiValue K :=
  let m0 := a.addDerivative 0 (3 * task_index + 0) w (myvals.addValue (a.myx + 0) (w * pos.x))
  let m1 := a.addDerivative 1 (3 * task_index + 1) w (m0.addValue (a.myx + 1) (w * pos.y))
  a.addDerivative 2 (3 * task_index + 2) w (m1.addValue (a.myx + 2) (w * pos.z))

end WeightedAtomAverage

namespace Sample

/-- The host of the worked configuration on a step without derivatives. -/
def quietHost : Host ℚ := { host with doNotCalculateDerivatives := true }

/-- The tape `performTask` leaves for atom `i` of the worked configuration. -/
def taskTape (i : Nat) : MultiValue ℚ :=
  WeightedAtomAverage.centerCompute average i (host.getMass i) (host.getPosition i)
    (MultiValue.empty.addValue average.myw (host.getMass i))

/-- The buffer after the tapes of the three tasks are gathered. -/
def performed : Nat → ℚ :=
  [taskTape 0, taskTape 1, taskTape 2].foldl
    (fun b t => WeightedAtomAverage.gatherForVirtualAtom average host t b) (fun _ => 0)

end Sample

/-! ### Registration and counting of the output components -/

/-- The labels that the constructor of `SphericalHarmonic` registers with
`addComponentWithDerivatives`: the real parts for `i = -tmom .. tmom`, then the
imaginary parts. -/
def SphericalHarmonic.componentNames (tmom : Nat) : List String :=
  (List.range (2 * tmom + 1)).map
      (fun (k : Nat) => "rm-[" ++ toString ((k : Int) - (tmom : Int)) ++ "]")
  ++ (List.range (2 * tmom + 1)).map
      (fun (k : Nat) => "im-[" ++ toString ((k : Int) - (tmom : Int)) ++ "]")

/-- The accumulation routines on a tape of counters: for every component the
number of calls of `addToValue`, of `addVectorDerivatives` and of
`addWeightDerivative`. -/
def SymmetryFunctionBase.count {K : Type} : SymmetryFunctionBase K (Nat → Nat × Nat × Nat) where
  addToValue := fun ival _ t => addTo t ival (1, 0, 0)
  addVectorDerivatives := fun ival _ t => addTo t ival (0, 1, 0)
  addWeightDerivative := fun ival _ t => addTo t ival (0, 0, 1)

/-- The calls that round `m` of the loop of `compute` makes on component `i`. -/
def SphericalHarmonic.roundCount (tmom m i : Nat) : Nat × Nat × Nat :=
  (if i = tmom + m then (1, 1, 1) else 0)
  + (if i = 3 * tmom + 1 + m then (1, 1, 1) else 0)
  + (if i = tmom - m then (1, 1, 1) else 0)
  + (if i = 3 * tmom + 1 - m then (1, 1, 1) else 0)

/-! ### The adaptive metric (`src/core/FlexibleBin.cpp`) -/

/-- Modelled from the spec: what `FlexibleBin` asks of the action it serves
(`ActionWithArguments`, whose source is not among the files at hand): the number
of tracked arguments, their current values, the periodic-aware difference, the
fold back into the periodic domain and the projection of two gradients. -/
structure ActionWithArguments (K : Type) where
  /-- Number of tracked arguments, `ncv`. -/
  getNumberOfArguments : Nat
  /-- Current value of argument `i`. -/
  getArgument : Nat → K
  /-- `difference(i, a, b)`: the periodic-aware difference `b - a` of argument `i`. -/
  difference : Nat → K → K → K
  /-- `bringBackInPbc(i, x)`: `x` folded back into the domain of argument `i`. -/
  bringBackInPbc : Nat → K → K
  /-- `getProjection(i, j)`: the scalar product of the gradients of two arguments. -/
  getProjection : Nat → Nat → K

/-- The member `type` of `FlexibleBin`; the enumeration is declared in the header,
which is not among the files at hand. `other` stands for every value that is
neither `diffusion` nor `geometry`. -/
inductive AdaptiveHillsType where
  | diffusion
  | geometry
  | other
  deriving DecidableEq

/-- The ways a call into `FlexibleBin` ends without a result. -/
inductive FlexibleBinFault where
  /-- The `default` branch of `update`, which ends the run with `exit(1)`. -/
  | notRecognized
  /-- `plumed_merror` of `getInverseMatrix`: `diagMat` did not return zero. -/
  | diagonalizationFailed
  deriving DecidableEq

/-- The data members of `FlexibleBin`. -/
structure FlexibleBin (K : Type) where
  type : AdaptiveHillsType
  sigma : K
  sigmamin : List K
  sigmamax : List K
  limitmin : List Bool
  limitmax : List Bool
  average : List K
  variance : List K

/-- The row-major position of the entry `(i, j)`, `i ≤ j`, in the upper triangle
of a matrix of `ncv` rows: the `ncv - r` entries of every row `r` above, then
the `j - i` entries of row `i` before it. -/
def upperIndex (ncv i j : Nat) : Nat :=
  ((List.range i).map (fun r => ncv - r)).sum + (j - i)

/-- The pairs `(i, j)` that the loops `for i < m`, `for j = i .. ncv - 1` visit,
in the order of the visits. -/
def pairRows (ncv : Nat) : Nat → List (Nat × Nat)
  | 0 => []
  | m + 1 => pairRows ncv m ++ (List.range' m (ncv - m)).map (fun j => (m, j))

/-- `copysign(a, x)` in exact arithmetic: the magnitude of `a` with the sign of
`x`; a zero `x` counts as positive (no signed zero). -/
def copysign {K : Type} [LinearOrderedField K] (a x : K) : K :=
  if x < 0 then -|a| else |a|

namespace FlexibleBin

/-- The first half of the `diffusion` branch of `update`, headed "THE AVERAGE
VALUE": the new running mean and the local vector `delta`. The local vectors
`cv` and `delta` are total maps; `delta.resize(ncv)` leaves zeros. -/
def diffusionAverage {K : Type} [Field K] (fb : FlexibleBin K)
    (paction : ActionWithArguments K) : List K × (Nat → K) :=
  let ncv := paction.getNumberOfArguments
  let decay : K := 1 / fb.sigma
  let delta0 : Nat → K := fun _ => 0
  let cv : Nat → K := fun i => paction.getArgument i
  if fb.average.length = 0 then
    ((List.range ncv).foldl (fun av i => av.set i (cv i)) (resize fb.average ncv 0), delta0)
  else
    (List.range ncv).foldl
      (fun (st : List K × (Nat → K)) i =>
        let delta := Function.update st.2 i (paction.difference i (st.1.getD i 0) (cv i))
        let av1 := st.1.set i (st.1.getD i 0 + decay * delta i)
        let av2 := av1.set i (paction.bringBackInPbc i (av1.getD i 0))
        (av2, delta))
      (fb.average, delta0)

/-- The second half of the `diffusion` branch of `update`, headed "THE
VARIANCE": the new covariance entries, for the deviations `delta`. -/
def diffusionVariance {K : Type} [Field K] (fb : FlexibleBin K)
    (paction : ActionWithArguments K) (delta : Nat → K) : List K :=
  let ncv := paction.getNumberOfArguments
  let dimension := ncv * (ncv + 1) / 2
  let decay : K := 1 / fb.sigma
  if fb.variance.length = 0 then resize fb.variance dimension 0
  else
    ((List.range ncv).foldl
      (fun (sv : List K × Nat) i =>
        (List.range' i (ncv - i)).foldl
          (fun (sv : List K × Nat) j =>
            (sv.1.set sv.2 (sv.1.getD sv.2 0 + decay * (delta i * delta j - sv.1.getD sv.2 0)),
             sv.2 + 1))
          sv)
      (fb.variance, 0)).1

/-- `FlexibleBin::update`. The `default` branch ends the run. -/
def update {K : Type} [Field K] (fb : FlexibleBin K) (paction : ActionWithArguments K)
    (nowAddAHill : Bool) : Except FlexibleBinFault (FlexibleBin K) :=
  let ncv := paction.getNumberOfArguments
  let dimension := ncv * (ncv + 1) / 2
  match fb.type with
  | AdaptiveHillsType.diffusion =>
    let st := diffusionAverage fb paction
    Except.ok { fb with average := st.1, variance := diffusionVariance fb paction st.2 }
  | AdaptiveHillsType.geometry =>
    let variance0 := resize fb.variance dimension 0
    let variance :=
      if nowAddAHill then
        ((List.range ncv).foldl
          (fun (sv : List K × Nat) i =>
            (List.range' i (ncv - i)).foldl
              (fun (sv : List K × Nat) j =>
                (sv.1.set sv.2 (fb.sigma * fb.sigma * paction.getProjection i j), sv.2 + 1))
              sv)
          (variance0, 0)).1
      else variance0
    Except.ok { fb with variance := variance }
  | AdaptiveHillsType.other => Except.error FlexibleBinFault.notRecognized

variable {K : Type} [LinearOrderedField K]

/-- The body of the loop of the constructor for the argument `i`: a positive
bound switches its limit on and is stored squared. -/
def limitStep (fb : FlexibleBin K) (i : Nat) : FlexibleBin K :=
  let fb1 : FlexibleBin K :=
    if fb.sigmamin.getD i 0 > 0 then
      { fb with
        limitmin := fb.limitmin ++ [true]
        sigmamin := fb.sigmamin.set i (fb.sigmamin.getD i 0 * fb.sigmamin.getD i 0) }
    else { fb with limitmin := fb.limitmin ++ [false] }
  if fb1.sigmamax.getD i 0 > 0 then
    { fb1 with
      limitmax := fb1.limitmax ++ [true]
      sigmamax := fb1.sigmamax.set i (fb1.sigmamax.getD i 0 * fb1.sigmamax.getD i 0) }
  else { fb1 with limitmax := fb1.limitmax ++ [false] }

/-- The constructor `FlexibleBin::FlexibleBin`; `ncv` is the number of arguments
of the action. The vectors `average` and `variance` of the `diffusion` branch
are locals of the constructor, so the members start empty. -/
def construct (type : AdaptiveHillsType) (ncv : Nat) (d : K) (smin smax : List K) :
    FlexibleBin K :=
  (List.range ncv).foldl limitStep
    { type := type, sigma := d, sigmamin := smin, sigmamax := smax, limitmin := [],
      limitmax := [], average := [], variance := [] }

/-- The maximum-bound pass of `getInverseMatrix` for the dimension `i`: every
eigenvalue whose squared projection on `i` exceeds the squared bound is
replaced. -/
def clampMaximumStep (fb : FlexibleBin K) (sqrt : K → K) (ncv : Nat)
    (eigenvecs : Nat → Nat → K) (eigenvals : Nat → K) (i : Nat) : Nat → K :=
  if fb.limitmax.getD i false then
    (List.range ncv).foldl
      (fun ev j =>
        if (ev j * eigenvecs j i) ^ 2 > (fb.sigmamax.getD i 0) ^ 2 then
          Function.update ev j
            (sqrt ((fb.sigmamax.getD i 0 / eigenvecs j i) ^ 2) * copysign 1 (ev j))
        else ev)
      eigenvals
  else eigenvals

/-- The search of the minimum-bound pass for the dimension `i`: the pair
`(imax, fmax)` after the loop over the eigenvectors. -/
def largestProjection (ncv : Nat) (eigenvecs : Nat → Nat → K) (eigenvals : Nat → K)
    (i : Nat) : Nat × K :=
  (List.range ncv).foldl
    (fun (st : Nat × K) j =>
      let fact := (eigenvals j * eigenvecs j i) ^ 2
      if fact > st.2 then (j, fact) else st)
    (0, -1e10)

/-- The minimum-bound pass of `getInverseMatrix` for the dimension `i`: the
eigenvalue of the largest projection is replaced when that projection is below
the bound. -/
def clampMinimumStep (fb : FlexibleBin K) (sqrt : K → K) (ncv : Nat)
    (eigenvecs : Nat → Nat → K) (eigenvals : Nat → K) (i : Nat) : Nat → K :=
  if fb.limitmin.getD i false then
    let st := largestProjection ncv eigenvecs eigenvals i
    let imax := st.1
    let fmax := st.2
    if fmax < (fb.sigmamin.getD i 0) ^ 2 then
      Function.update eigenvals imax
        (sqrt ((fb.sigmamin.getD i 0 / eigenvecs imax i) ^ 2) * copysign 1 (eigenvals imax))
    else eigenvals
  else eigenvals

/-- The maximum-bound pass of `getInverseMatrix`: the loop over the dimensions. -/
def clampMaximum (fb : FlexibleBin K) (sqrt : K → K) (ncv : Nat)
    (eigenvecs : Nat → Nat → K) (eigenvals : Nat → K) : Nat → K :=
  (List.range ncv).foldl (fun ev i => clampMaximumStep fb sqrt ncv eigenvecs ev i) eigenvals

/-- The minimum-bound pass of `getInverseMatrix`: the loop over the dimensions. -/
def clampMinimum (fb : FlexibleBin K) (sqrt : K → K) (ncv : Nat)
    (eigenvecs : Nat → Nat → K) (eigenvals : Nat → K) : Nat → K :=
  (List.range ncv).foldl (fun ev i => clampMinimumStep fb sqrt ncv eigenvecs ev i) eigenvals

/-- The statement `matrix(j,i)=matrix(i,j)=variance[k]; k++` of the first loop
of `getInverseMatrix`, on the pair of the matrix and the running `k`. -/
def placeEntry (variance : List K) (mk : (Nat → Nat → K) × Nat) (i j : Nat) :
    (Nat → Nat → K) × Nat :=
  let m1 := Function.update mk.1 i (Function.update (mk.1 i) j (variance.getD mk.2 0))
  let m2 := Function.update m1 j (Function.update (m1 j) i (m1 i j))
  (m2, mk.2 + 1)

/-- The first loop of `getInverseMatrix`: the full symmetric matrix placed from
the stored upper triangle. -/
def fullMatrix (variance : List K) (ncv : Nat) : Nat → Nat → K :=
  ((List.range ncv).foldl
    (fun (mk : (Nat → Nat → K) × Nat) i =>
      (List.range' i (ncv - i)).foldl (fun (mk : (Nat → Nat → K) × Nat) j =>
        placeEntry variance mk i j) mk)
    (fun _ _ => 0, 0)).1

/-- The last two loops of `getInverseMatrix`: the eigenvectors divided by their
eigenvalues, then the upper triangle of the product, row by row. -/
def inverseFromEigen (ncv : Nat) (eigenvecs : Nat → Nat → K) (eigenvals : Nat → K) : List K :=
  let newinvmatrix : Nat → Nat → K :=
    (List.range ncv).foldl
      (fun nm i => (List.range ncv).foldl
        (fun nm j => Function.update nm j (Function.update (nm j) i (eigenvecs j i / eigenvals j)))
        nm)
      (fun _ _ => 0)
  ((List.range ncv).foldl
    (fun (uk : List K × Nat) i =>
      (List.range' i (ncv - i)).foldl
        (fun (uk : List K × Nat) j =>
          let scal := (List.range ncv).foldl
            (fun scal l => scal + eigenvecs l i * newinvmatrix l j) (0 : K)
          (uk.1.set uk.2 scal, uk.2 + 1))
        uk)
    (List.replicate (ncv * (ncv + 1) / 2) (0 : K), 0)).1

/-- `FlexibleBin::getInverseMatrix` (the `NEWFLEX` variant, which is the one
compiled). `diagMat` belongs to the tools library: for the size and the matrix
it returns its status, the eigenvalues and the eigenvectors, eigenvector `l`
in row `l`; `sqrt` is the one of the mathematical library. -/
def getInverseMatrix (fb : FlexibleBin K) (paction : ActionWithArguments K)
    (diagMat : Nat → (Nat → Nat → K) → Int × (Nat → K) × (Nat → Nat → K))
    (sqrt : K → K) : Except FlexibleBinFault (List K) :=
  let ncv := paction.getNumberOfArguments
  let matrix := fullMatrix fb.variance ncv
  let diag := diagMat ncv matrix
  if diag.1 ≠ 0 then Except.error FlexibleBinFault.diagonalizationFailed
  else
    let eigenvecs := diag.2.2
    let eigenvals1 := clampMaximum fb sqrt ncv eigenvecs diag.2.1
    let eigenvals := clampMinimum fb sqrt ncv eigenvecs eigenvals1
    Except.ok (inverseFromEigen ncv eigenvecs eigenvals)

end FlexibleBin

namespace Sample

/-- An action of two arguments without periodicity, currently at `(3, 5)`. -/
def action : ActionWithArguments ℚ where
  getNumberOfArguments := 2
  getArgument := fun i => if i = 0 then 3 else 5
  difference := fun _ a b => b - a
  bringBackInPbc := fun _ x => x
  getProjection := fun _ _ => 0

/-- A diffusion-mode metric of two arguments after earlier calls: decay time 2,
mean `(1, 1)`, covariance entries `(0, 0, 0)`. -/
def metric : FlexibleBin ℚ where
  type := AdaptiveHillsType.diffusion
  sigma := 2
  sigmamin := [0, 0]
  sigmamax := [0, 0]
  limitmin := [false, false]
  limitmax := [false, false]
  average := [1, 1]
  variance := [0, 0, 0]

/-- A metric whose covariance matrix has the eigenvalues 1 and 2 along the
orthonormal directions `(3/5, 4/5)` and `(-4/5, 3/5)`. -/
def tilted : FlexibleBin ℚ :=
  { metric with variance := [41/25, -12/25, 34/25] }

/-- The exact eigen-decomposition of the matrix of `tilted`, as `diagMat`
returns it. -/
def tiltedDiag (_ : Nat) (_ : Nat → Nat → ℚ) : Int × (Nat → ℚ) × (Nat → Nat → ℚ) :=
  (0, fun l => if l = 0 then 1 else 2,
    fun l i => if l = 0 then (if i = 0 then 3/5 else 4/5) else (if i = 0 then -4/5 else 3/5))

end Sample

namespace Sample

/-- The host of the worked configuration when the action runs inside a chain. -/
def chainHost : Host ℚ := { host with actionInChain := true }

/-- The constant `epsilon` of the tools library, the machine epsilon of a
`double`. -/
def epsilon : ℚ := 1 / 2 ^ 52

/-- A tape on which the upstream action left the weight `w` at stash `4`, with
the derivative `5` with respect to its index `0`. -/
def upstreamTape (w : ℚ) : MultiValue ℚ where
  values := fun s => if s = 4 then w else 0
  derivatives := fun s d => if s = 4 ∧ d = 0 then 5 else 0
  active := fun s => if s = 4 then [0] else []

end Sample

/-! ## Lemmas on loops and accumulation -/

section Loops

variable {K : Type}

theorem addTo_apply [Add K] (x : Nat → K) (p q : Nat) (v : K) :
    addTo x p v q = if q = p then x p + v else x q := by
  unfold addTo
  by_cases hq : q = p
  · subst hq; simp
  · simp [Function.update_noteq hq, hq]

theorem addTo_apply_add [AddMonoid K] (x : Nat → K) (p q : Nat) (v : K) :
    addTo x p v q = x q + (if q = p then v else 0) := by
  rw [addTo_apply]
  by_cases hq : q = p
  · subst hq; simp
  · simp [hq]

/-- A loop whose body adds, slot by slot, an amount that does not depend on the
buffer adds the sum of the amounts. -/
theorem foldl_additive [AddCommMonoid K] {ι : Type} (g : ι → (Nat → K) → (Nat → K))
    (c : ι → Nat → K) (hg : ∀ i b p, g i b p = b p + c i p) (l : List ι) (b : Nat → K)
    (p : Nat) :
    (l.foldl (fun b i => g i b) b) p = b p + (l.map (fun i => c i p)).sum := by
  induction l generalizing b with
  | nil => simp
  | cons i l ih =>
    simp only [List.foldl_cons, List.map_cons, List.sum_cons]
    rw [ih, hg, add_assoc]

/-- A loop that carries a running offset next to its state visits the offsets
`s`, `s + step`, `s + 2 * step` and so on. -/
theorem foldl_offset {σ : Type} (f : Nat → Nat → σ → σ) (step : Nat) (n : Nat) (b : σ)
    (s : Nat) :
    (List.range n).foldl (fun (st : σ × Nat) i => (f i st.2 st.1, st.2 + step)) (b, s)
      = ((List.range n).foldl (fun b i => f i (s + i * step) b) b, s + n * step) := by
  induction n with
  | zero => simp
  | succ n ih =>
    rw [List.range_succ, List.foldl_append, List.foldl_append, ih]
    simp [Nat.succ_mul, Nat.add_assoc]

/-- Walking the positions of a list and reading each entry is walking the list. -/
theorem foldl_range_getD {σ : Type} (f : σ → Nat → σ) (l : List Nat) (b : σ) :
    (List.range l.length).foldl (fun b k => f b (l.getD k 0)) b = l.foldl f b := by
  induction l using List.reverseRecOn generalizing b with
  | nil => simp
  | append_singleton l x ih =>
    rw [List.length_append, List.length_singleton, List.range_succ, List.foldl_append,
      List.foldl_append]
    have h1 : (List.range l.length).foldl (fun b k => f b ((l ++ [x]).getD k 0)) b
        = (List.range l.length).foldl (fun b k => f b (l.getD k 0)) b := by
      apply List.foldl_ext
      intro b k hk
      rw [List.mem_range] at hk
      simp [List.getD_eq_getElem?_getD, List.getElem?_append_left hk]
    rw [h1, ih]
    simp [List.getD_eq_getElem?_getD]

/-- A loop that assigns entry `i` in its `i`-th round leaves `g q` in every entry
`q` below the bound and keeps the others. -/
theorem foldl_assign {β : Type} (g : Nat → β) (n : Nat) (f : Nat → β) (q : Nat) :
    ((List.range n).foldl (fun fv i => Function.update fv i (g i)) f) q
      = if q < n then g q else f q := by
  induction n with
  | zero => simp
  | succ n ih =>
    rw [List.range_succ, List.foldl_append]
    simp only [List.foldl_cons, List.foldl_nil]
    by_cases hq : q = n
    · subst hq; simp
    · rw [Function.update_noteq hq, ih]
      by_cases hlt : q < n
      · simp [hlt, Nat.lt_succ_of_lt hlt]
      · have : ¬ q < n + 1 := by omega
        simp [hlt, this]

/-- A loop over a pair whose two halves do not read each other is a pair of loops. -/
theorem foldl_pair {α β ι : Type} (F : ι → α → α) (G : ι → β → β) (l : List ι) (x : α)
    (y : β) :
    l.foldl (fun (st : α × β) i => (F i st.1, G i st.2)) (x, y)
      = (l.foldl (fun x i => F i x) x, l.foldl (fun y i => G i y) y) := by
  induction l generalizing x y with
  | nil => rfl
  | cons i l ih => simp only [List.foldl_cons, ih]

/-- The inner loop of the derivative pass: column `i` of the rows below `n` is
assigned. -/
theorem foldl_assign_column {β : Type} (v : Nat → β) (i n : Nat) (fd : Nat → Nat → β)
    (j k : Nat) :
    ((List.range n).foldl
        (fun fd j => Function.update fd j (Function.update (fd j) i (v j))) fd) j k
      = if j < n ∧ k = i then v j else fd j k := by
  induction n with
  | zero => simp
  | succ n ih =>
    rw [List.range_succ, List.foldl_append]
    simp only [List.foldl_cons, List.foldl_nil]
    by_cases hj : j = n
    · subst hj
      rw [Function.update_same]
      by_cases hk : k = i
      · subst hk; simp
      · rw [Function.update_noteq hk, ih]; simp [hk]
    · rw [Function.update_noteq hj, ih]
      by_cases hlt : j < n
      · simp [hlt, Nat.lt_succ_of_lt hlt]
      · have : ¬ j < n + 1 := by omega
        simp [hlt, this]

/-- The derivative pass as a whole: the entries with row below `n` and column
below `d` are assigned. -/
theorem foldl_assign_block {β : Type} (v : Nat → Nat → β) (d n : Nat) (fd : Nat → Nat → β)
    (j k : Nat) :
    ((List.range d).foldl
        (fun fd i => (List.range n).foldl
          (fun fd j => Function.update fd j (Function.update (fd j) i (v j i))) fd) fd) j k
      = if j < n ∧ k < d then v j k else fd j k := by
  induction d with
  | zero => simp
  | succ d ih =>
    rw [List.range_succ, List.foldl_append]
    simp only [List.foldl_cons, List.foldl_nil]
    rw [foldl_assign_column (fun j => v j d), ih]
    by_cases hj : j < n
    · by_cases hk : k = d
      · subst hk; simp [hj]
      · by_cases hlt : k < d
        · simp [hj, hk, hlt, Nat.lt_succ_of_lt hlt]
        · have : ¬ k < d + 1 := by omega
          simp [hk, hlt, this]
    · simp [hj]

/-- A checking loop that throws at the first offending entry fails exactly when
some entry offends. -/
theorem forM_check (l : List Nat) (P : Nat → Bool) (e : Fault) :
    l.forM (fun i => if P i then Except.error e else (pure () : Except Fault PUnit))
      = if l.any P then Except.error e else Except.ok () := by
  induction l with
  | nil => rfl
  | cons i l ih =>
    rw [List.forM, ih]
    cases hP : P i <;> simp [hP, bind, Except.bind, pure, Except.pure]

theorem set_getD [Zero K] (l : List K) (k q : Nat) (v : K) (hk : k < l.length) :
    (l.set k v).getD q 0 = if q = k then v else l.getD q 0 := by
  rw [List.getD_eq_getElem?_getD, List.getD_eq_getElem?_getD, List.getElem?_set]
  by_cases hq : q = k
  · subst hq; simp [hk]
  · have : ¬ k = q := fun h => hq h.symm
    simp [hq, this]

/-- The loop `for k < m: vf[k] += f k` on a vector of at least `m` entries. -/
theorem list_addTo_loop [AddMonoid K] (f : Nat → K) (m : Nat) (l : List K)
    (hm : m ≤ l.length) :
    ((List.range m).foldl (fun vf k => vf.set k (vf.getD k 0 + f k)) l).length = l.length
    ∧ ∀ q, ((List.range m).foldl (fun vf k => vf.set k (vf.getD k 0 + f k)) l).getD q 0
        = l.getD q 0 + if q < m then f q else 0 := by
  induction m with
  | zero => simp
  | succ m ih =>
    obtain ⟨hl, hq⟩ := ih (by omega)
    rw [List.range_succ, List.foldl_append]
    simp only [List.foldl_cons, List.foldl_nil]
    refine ⟨by rw [List.length_set, hl], ?_⟩
    intro q
    rw [set_getD _ _ _ _ (by rw [hl]; omega)]
    by_cases hqm : q = m
    · subst hqm
      rw [if_pos rfl, hq q]
      simp
    · rw [if_neg hqm, hq q]
      by_cases hlt : q < m
      · simp [hlt, Nat.lt_succ_of_lt hlt]
      · have : ¬ q < m + 1 := by omega
        simp [hlt, this]

/-- The double loop `for j < J: for k < rowlen j: vf[k] += c j k` when every row
is as long as the vector. -/
theorem list_addTo_rows [AddCommMonoid K] (c : Nat → Nat → K) (rowlen : Nat → Nat) (J : Nat)
    (l : List K) (hrow : ∀ j, j < J → rowlen j = l.length) :
    ((List.range J).foldl (fun vf j =>
        (List.range (rowlen j)).foldl (fun vf k => vf.set k (vf.getD k 0 + c j k)) vf) l).length
      = l.length
    ∧ ∀ q, q < l.length →
        ((List.range J).foldl (fun vf j =>
          (List.range (rowlen j)).foldl (fun vf k => vf.set k (vf.getD k 0 + c j k)) vf) l).getD q 0
        = l.getD q 0 + ∑ j in Finset.range J, c j q := by
  induction J with
  | zero => simp
  | succ J ih =>
    obtain ⟨hl, hq⟩ := ih (fun j hj => hrow j (by omega))
    rw [List.range_succ, List.foldl_append]
    simp only [List.foldl_cons, List.foldl_nil]
    have hJ : rowlen J = l.length := hrow J (by omega)
    obtain ⟨hl2, hq2⟩ := list_addTo_loop (c J) (rowlen J)
      ((List.range J).foldl (fun vf j =>
        (List.range (rowlen j)).foldl (fun vf k => vf.set k (vf.getD k 0 + c j k)) vf) l)
      (by rw [hl, hJ])
    refine ⟨by rw [hl2, hl], ?_⟩
    intro q hql
    rw [hq2 q, hq q hql, if_pos (by omega), Finset.sum_range_succ, add_assoc]

theorem sum_map_range [AddCommMonoid K] (f : Nat → K) (n : Nat) :
    ((List.range n).map f).sum = ∑ i in Finset.range n, f i := by
  induction n with
  | zero => simp
  | succ n ih => simp [List.range_succ, Finset.sum_range_succ, ih]

end Loops

/-! ## Lemmas on the reduction buffer -/

namespace WeightedAtomAverage

variable {K : Type} [Field K]

/-- What `gatherForVirtualAtom` adds to the slot `p` of the buffer: the values
that land on `p`, and with derivatives switched on the derivatives that land on
`p`, every entry of an active list counted as often as it occurs. -/
theorem gatherForVirtualAtom_apply (a : WeightedAtomAverage K) (h : Host K)
    (myvals : MultiValue K) (buffer : Nat → K) (p : Nat) :
    gatherForVirtualAtom a h myvals buffer p
      = buffer p
        + ((List.range (h.getNumberOfStoredQuantities + 1)).map (fun i =>
            if p = a.bufstart + i * a.nspace then myvals.get (a.myx + i) else 0)).sum
        + (if h.doNotCalculateDerivatives then 0
           else ((List.range (h.getNumberOfStoredQuantities + 1)).map (fun i =>
              ((myvals.active (a.myx + i)).map (fun d =>
                if p = a.bufstart + i * a.nspace + 1 + d
                then myvals.getDerivative (a.myx + i) d else 0)).sum)).sum) := by
  unfold gatherForVirtualAtom
  simp only [MultiValue.getNumberActive, MultiValue.getActiveIndex]
  rw [foldl_offset (fun i s b => addTo b s (myvals.get (a.myx + i)))]
  have hval : ∀ q, (List.foldl (fun b i => addTo b (a.bufstart + i * a.nspace)
        (myvals.get (a.myx + i))) buffer (List.range (h.getNumberOfStoredQuantities + 1))) q
      = buffer q + ((List.range (h.getNumberOfStoredQuantities + 1)).map (fun i =>
            if q = a.bufstart + i * a.nspace then myvals.get (a.myx + i) else 0)).sum := by
    intro q
    exact foldl_additive
      (fun i b => addTo b (a.bufstart + i * a.nspace) (myvals.get (a.myx + i)))
      (fun i q => if q = a.bufstart + i * a.nspace then myvals.get (a.myx + i) else 0)
      (fun i b q => addTo_apply_add b _ q _) _ buffer q
  by_cases hd : h.doNotCalculateDerivatives = true
  · simp only [hd, if_true, add_zero]
    exact hval p
  · have hd2 : h.doNotCalculateDerivatives = false := by simpa using hd
    simp only [hd2, Bool.false_eq_true, if_false]
    rw [foldl_offset (fun i s b => (List.range (myvals.active (a.myx + i)).length).foldl
        (fun b k => addTo b (s + 1 + (myvals.active (a.myx + i)).getD k 0)
          (myvals.getDerivative (a.myx + i) ((myvals.active (a.myx + i)).getD k 0))) b)]
    simp only []
    have hinner : ∀ i (b : Nat → K) (q : Nat),
        ((List.range (myvals.active (a.myx + i)).length).foldl
          (fun b k => addTo b (a.bufstart + i * a.nspace + 1 + (myvals.active (a.myx + i)).getD k 0)
            (myvals.getDerivative (a.myx + i) ((myvals.active (a.myx + i)).getD k 0))) b) q
        = b q + ((myvals.active (a.myx + i)).map (fun d =>
                if q = a.bufstart + i * a.nspace + 1 + d
                then myvals.getDerivative (a.myx + i) d else 0)).sum := by
      intro i b q
      rw [foldl_range_getD (fun b d => addTo b (a.bufstart + i * a.nspace + 1 + d)
        (myvals.getDerivative (a.myx + i) d))]
      exact foldl_additive
        (fun d b => addTo b (a.bufstart + i * a.nspace + 1 + d) (myvals.getDerivative (a.myx + i) d))
        (fun d q => if q = a.bufstart + i * a.nspace + 1 + d
          then myvals.getDerivative (a.myx + i) d else 0)
        (fun d b q => addTo_apply_add b _ q _) _ b q
    rw [foldl_additive _ _ hinner, hval]

/-- Whatever the flags, `transformFinalValueAndDerivatives` returns
normally; each entry below the loop bounds is the buffer entry divided by the
total weight, every other entry keeps its value. -/
theorem transformFinalValueAndDerivatives_eq (a : WeightedAtomAverage K) (h : Host K)
    (buffer : Nat → K) :
    ∃ a2, transformFinalValueAndDerivatives a h buffer = Except.ok a2
      ∧ (∀ i, a2.final_vals i
          = if i < h.getNumberOfStoredQuantities
            then buffer (a.bufstart + i * a.nspace)
              / buffer (a.bufstart + h.getNumberOfStoredQuantities * a.nspace)
            else a.final_vals i)
      ∧ (h.doNotCalculateDerivatives = false →
          (∀ j k, a2.final_deriv j k
            = if j < h.getNumberOfStoredQuantities ∧ k < h.getNumberOfDerivatives
              then buffer (a.bufstart + j * a.nspace + 1 + k)
                / buffer (a.bufstart + h.getNumberOfStoredQuantities * a.nspace)
              else a.final_deriv j k)
          ∧ (∀ k, a2.weight_deriv k
            = if k < h.getNumberOfDerivatives
              then buffer (a.bufstart + h.getNumberOfStoredQuantities * a.nspace + 1 + k)
                / buffer (a.bufstart + h.getNumberOfStoredQuantities * a.nspace)
              else a.weight_deriv k))
      ∧ (h.doNotCalculateDerivatives = true →
          a2.final_deriv = a.final_deriv ∧ a2.weight_deriv = a.weight_deriv) := by
  unfold transformFinalValueAndDerivatives
  cases hd : h.doNotCalculateDerivatives
  · simp only [Bool.false_eq_true, if_false]
    refine ⟨_, rfl, ?_, ?_, ?_⟩
    · intro i
      exact foldl_assign (fun i => buffer (a.bufstart + i * a.nspace)
        / buffer (a.bufstart + h.getNumberOfStoredQuantities * a.nspace)) _ _ i
    · intro _
      simp only []
      rw [foldl_pair
        (fun i fd => (List.range h.getNumberOfStoredQuantities).foldl
          (fun fd j => Function.update fd j (Function.update (fd j) i
            (buffer (a.bufstart + j * a.nspace + 1 + i)
              / buffer (a.bufstart + h.getNumberOfStoredQuantities * a.nspace)))) fd)
        (fun i wd => Function.update wd i
          (buffer (a.bufstart + h.getNumberOfStoredQuantities * a.nspace + 1 + i)
            / buffer (a.bufstart + h.getNumberOfStoredQuantities * a.nspace)))]
      refine ⟨?_, ?_⟩
      · intro j k
        exact foldl_assign_block (fun j i => buffer (a.bufstart + j * a.nspace + 1 + i)
          / buffer (a.bufstart + h.getNumberOfStoredQuantities * a.nspace)) _ _ _ j k
      · intro k
        exact foldl_assign (fun i =>
          buffer (a.bufstart + h.getNumberOfStoredQuantities * a.nspace + 1 + i)
            / buffer (a.bufstart + h.getNumberOfStoredQuantities * a.nspace)) _ _ k
    · intro hc; cases hc
  · simp only [if_true]
    refine ⟨_, rfl, ?_, ?_, ?_⟩
    · intro i
      exact foldl_assign (fun i => buffer (a.bufstart + i * a.nspace)
        / buffer (a.bufstart + h.getNumberOfStoredQuantities * a.nspace)) _ _ i
    · intro hc; cases hc
    · intro _; exact ⟨rfl, rfl⟩

omit [Field K] in
/-- On its first call, a mass-weighted average checks the masses and nothing
else. -/
theorem prepareForTasks_first_mass (a : WeightedAtomAverage K) (h : Host K)
    (hfirst : a.first = true) (hmass : a.weight_mass = true) :
    prepareForTasks a h
      = if (List.range h.getNumberOfAtoms).any h.isnanMass
        then Except.error Fault.massesNotKnown
        else Except.ok { a with first := false } := by
  unfold prepareForTasks
  simp only [hfirst, hmass, if_true]
  have := forM_check (List.range h.getNumberOfAtoms) h.isnanMass Fault.massesNotKnown
  simp only [bind, Except.bind, pure, Except.pure] at this ⊢
  rw [this]
  cases (List.range h.getNumberOfAtoms).any h.isnanMass <;> simp

/-- Two value slots of a buffer with blocks of positive width coincide only for
the same block. -/
theorem value_slot_inj {bufstart nspace i j : Nat} (hs : 1 ≤ nspace) :
    bufstart + i * nspace = bufstart + j * nspace ↔ j = i := by
  constructor
  · intro he
    have he2 : i * nspace = j * nspace := by omega
    exact (Nat.eq_of_mul_eq_mul_right (by omega) he2).symm
  · intro he; rw [he]

/-- A derivative slot with in-range index is no value slot. -/
theorem value_slot_ne_derivative_slot {bufstart nspace i j d : Nat} (hd : d + 1 < nspace) :
    bufstart + i * nspace ≠ bufstart + j * nspace + 1 + d := by
  intro he
  rcases Nat.lt_or_ge j i with hlt | hge
  · have h1 : (j + 1) * nspace ≤ i * nspace := Nat.mul_le_mul_right nspace hlt
    rw [Nat.succ_mul] at h1
    omega
  · have h1 : i * nspace ≤ j * nspace := Nat.mul_le_mul_right nspace hge
    omega

/-- On the value slot of block `i` a well-formed tape deposits its value of
stash `myx + i` and nothing else. -/
theorem gatherForVirtualAtom_value_slot (a : WeightedAtomAverage K) (h : Host K)
    (t : MultiValue K) (buffer : Nat → K) (i : Nat)
    (hs : 1 ≤ a.nspace) (hi : i ≤ h.getNumberOfStoredQuantities)
    (hidx : h.doNotCalculateDerivatives = false →
      ∀ j, j ≤ h.getNumberOfStoredQuantities → ∀ d ∈ t.active (a.myx + j), d + 1 < a.nspace) :
    gatherForVirtualAtom a h t buffer (a.bufstart + i * a.nspace)
      = buffer (a.bufstart + i * a.nspace) + t.get (a.myx + i) := by
  rw [gatherForVirtualAtom_apply]
  have h1 : ((List.range (h.getNumberOfStoredQuantities + 1)).map (fun j =>
      if a.bufstart + i * a.nspace = a.bufstart + j * a.nspace
      then t.get (a.myx + j) else 0)).sum = t.get (a.myx + i) := by
    rw [sum_map_range]
    simp only [value_slot_inj hs]
    rw [Finset.sum_ite_eq']
    simp [Nat.lt_succ_of_le hi]
  have h2 : (if h.doNotCalculateDerivatives then (0 : K)
      else ((List.range (h.getNumberOfStoredQuantities + 1)).map (fun j =>
        ((t.active (a.myx + j)).map (fun d =>
          if a.bufstart + i * a.nspace = a.bufstart + j * a.nspace + 1 + d
          then t.getDerivative (a.myx + j) d else 0)).sum)).sum) = 0 := by
    cases hd : h.doNotCalculateDerivatives
    · simp only [Bool.false_eq_true, if_false]
      apply List.sum_eq_zero
      intro x hx
      rw [List.mem_map] at hx
      obtain ⟨j, hj, rfl⟩ := hx
      rw [List.mem_range] at hj
      apply List.sum_eq_zero
      intro y hy
      rw [List.mem_map] at hy
      obtain ⟨d, hdm, rfl⟩ := hy
      rw [if_neg (value_slot_ne_derivative_slot (hidx hd j (by omega) d hdm))]
    · simp
  rw [h1, h2, add_zero]

/-- After the tapes of a task list are gathered, the value slot of block `i`
holds what it held before plus the sum of the tapes' values of stash `myx + i`. -/
theorem gather_all_value_slot (a : WeightedAtomAverage K) (h : Host K)
    (tapes : List (MultiValue K)) (buffer : Nat → K) (i : Nat)
    (hs : 1 ≤ a.nspace) (hi : i ≤ h.getNumberOfStoredQuantities)
    (hidx : h.doNotCalculateDerivatives = false →
      ∀ t ∈ tapes, ∀ j, j ≤ h.getNumberOfStoredQuantities →
        ∀ d ∈ t.active (a.myx + j), d + 1 < a.nspace) :
    (tapes.foldl (fun b t => gatherForVirtualAtom a h t b) buffer) (a.bufstart + i * a.nspace)
      = buffer (a.bufstart + i * a.nspace) + (tapes.map (fun t => t.get (a.myx + i))).sum := by
  induction tapes generalizing buffer with
  | nil => simp
  | cons t ts ih =>
    simp only [List.foldl_cons, List.map_cons, List.sum_cons]
    rw [ih _ (fun hd u hu => hidx hd u (List.mem_cons_of_mem _ hu)),
      gatherForVirtualAtom_value_slot a h t buffer i hs hi
        (fun hd => hidx hd t (List.mem_cons_self _ _)), add_assoc]

/-- The accumulated weight of the worked configuration is the total mass. -/
theorem sample_gathered_weight : Sample.gathered 30 = 4 := by
  have h := gather_all_value_slot Sample.average Sample.host Sample.tapes (fun _ => 0) 3
    (by decide) (by decide) (by decide)
  simp only [Sample.average] at h
  rw [Sample.gathered]
  simp only [Sample.average]
  rw [h]
  simp [Sample.tapes, Sample.tape, MultiValue.get]
  norm_num

/-- The accumulated `x` numerator of the worked configuration. -/
theorem sample_gathered_x : Sample.gathered 0 = 2 := by
  simp [Sample.gathered, Sample.tapes, Sample.tape, Sample.average, Sample.host,
    gatherForVirtualAtom, List.range_succ, MultiValue.get, addTo, Function.update,
    MultiValue.getNumberActive, MultiValue.getActiveIndex, MultiValue.getDerivative]

/-- The accumulated derivative of the `x` numerator with respect to the `x`
coordinate of the second atom. -/
theorem sample_gathered_dx : Sample.gathered 4 = 2 := by
  simp [Sample.gathered, Sample.tapes, Sample.tape, Sample.average, Sample.host,
    gatherForVirtualAtom, List.range_succ, MultiValue.get, addTo, Function.update,
    MultiValue.getNumberActive, MultiValue.getActiveIndex, MultiValue.getDerivative]

/-- The accumulated derivative of the weight with respect to the same
coordinate. -/
theorem sample_gathered_dw : Sample.gathered 34 = 0 := by
  simp [Sample.gathered, Sample.tapes, Sample.tape, Sample.average, Sample.host,
    gatherForVirtualAtom, List.range_succ, MultiValue.get, addTo, Function.update,
    MultiValue.getNumberActive, MultiValue.getActiveIndex, MultiValue.getDerivative]

end WeightedAtomAverage

/-! ## Lemmas on the spherical harmonic -/

namespace Quantity

variable {K : Type} [Field K]

@[simp] theorem add_value (a b : Quantity K) : (a + b).value = a.value + b.value := rfl

@[simp] theorem add_deriv (a b : Quantity K) : (a + b).deriv = a.deriv.add b.deriv := rfl

@[simp] theorem add_wderiv (a b : Quantity K) : (a + b).wderiv = a.wderiv + b.wderiv := rfl

@[simp] theorem zero_value : (0 : Quantity K).value = 0 := rfl

@[simp] theorem zero_deriv : (0 : Quantity K).deriv = Vector.zero := rfl

@[simp] theorem zero_wderiv : (0 : Quantity K).wderiv = 0 := rfl

theorem scale_eq (s val a w : K) (v : Vector K) :
    (⟨s * val * a, Vector.smul s v, s * w⟩ : Quantity K) = scale s ⟨val * a, v, w⟩ := by
  simp [scale, mul_assoc]

end Quantity

namespace SphericalHarmonic

variable {K : Type} [Field K]

/-- The three accumulation routines, called in a row on one component, add one
Quantity to it. -/
theorem accumulate_three (i : Nat) (v w : K) (vec : Vector K) (t : Nat → Quantity K) :
    SymmetryFunctionBase.accumulate.addWeightDerivative i w
      (SymmetryFunctionBase.accumulate.addVectorDerivatives i vec
        (SymmetryFunctionBase.accumulate.addToValue i v t))
      = addTo t i ⟨v, vec, w⟩ := by
  unfold addTo SymmetryFunctionBase.accumulate
  simp only [Function.update_same, Function.update_idem]
  congr 1

/-- One round of the loop adds its deposits to the tape and multiplies
`powered` by `com1`. -/
theorem computeStep_apply (sh : SphericalHarmonic K) (val : K) (distance : Vector K)
    (dlen dlen3 : K) (dz : Vector K) (com1 powered : complex K) (t : Nat → Quantity K)
    (m i : Nat) :
    (computeStep SymmetryFunctionBase.accumulate sh val distance dlen dlen3 dz com1
        (t, powered) m).1 i
      = t i + roundDeposit sh val distance dlen dlen3 dz com1 powered m i := by
  unfold computeStep
  simp only [accumulate_three, addTo_apply_add, Quantity.scale_eq]
  unfold roundDeposit realDeposit imagDeposit
  simp only [add_assoc]


/-- After `n` rounds the loop has added the deposits of the rounds `1 .. n` and
`powered` is the `n`-th power of `com1`. -/
theorem compute_loop (sh : SphericalHarmonic K) (val : K) (distance : Vector K)
    (dlen dlen3 : K) (dz : Vector K) (com1 : complex K) (t0 : Nat → Quantity K) (n : Nat) :
    ((List.range' 1 n).foldl
        (computeStep SymmetryFunctionBase.accumulate sh val distance dlen dlen3 dz com1)
        (t0, ⟨1, 0⟩)).2 = poweredAfter com1 n
    ∧ ∀ i, ((List.range' 1 n).foldl
        (computeStep SymmetryFunctionBase.accumulate sh val distance dlen dlen3 dz com1)
        (t0, ⟨1, 0⟩)).1 i
      = t0 i + ∑ j in Finset.range n,
          roundDeposit sh val distance dlen dlen3 dz com1 (poweredAfter com1 j) (j + 1) i := by
  induction n with
  | zero => simp [poweredAfter]
  | succ n ih =>
    obtain ⟨hp, ht⟩ := ih
    rw [List.range'_concat, List.foldl_append]
    simp only [List.foldl_cons, List.foldl_nil]
    generalize (List.range' 1 n).foldl
      (computeStep SymmetryFunctionBase.accumulate sh val distance dlen dlen3 dz com1)
      (t0, ⟨1, 0⟩) = st at hp ht
    obtain ⟨t, p⟩ := st
    simp only at hp ht
    subst hp
    refine ⟨rfl, ?_⟩
    intro i
    rw [computeStep_apply, ht i, Finset.sum_range_succ, add_assoc]
    simp [Nat.add_comm]


/-- What `compute` leaves in component `i`: what the tape held, the deposit for
`m = 0` when `i = tmom`, and the deposits of the rounds of the loop. -/
theorem compute_apply (sqrt : K → K) (sh : SphericalHarmonic K) (val : K)
    (distance : Vector K) (t0 : Nat → Quantity K) (i : Nat) :
    compute SymmetryFunctionBase.accumulate sqrt sh val distance t0 i
      = t0 i + (if i = sh.tmom then zeroDeposit sqrt sh val distance else 0)
        + ∑ j in Finset.range sh.tmom,
            roundDeposit sh val distance (sqrt distance.modulo2)
              (distance.modulo2 * sqrt distance.modulo2) (gradZ sqrt distance)
              (unitXY sqrt distance) (poweredAfter (unitXY sqrt distance) j) (j + 1) i := by
  unfold compute
  simp only [accumulate_three]
  rw [(compute_loop sh val distance _ _ _ _ _ sh.tmom).2 i, addTo_apply_add]
  rfl

/-- A round other than round `m` deposits nothing at the four indices of `m`. -/
theorem roundDeposit_other (sh : SphericalHarmonic K) (val : K) (distance : Vector K)
    (dlen dlen3 : K) (dz : Vector K) (com1 powered : complex K) (m j i : Nat)
    (hm1 : 1 ≤ m) (hm2 : m ≤ sh.tmom) (hj : j < sh.tmom) (hne : j ≠ m - 1)
    (hi : i = sh.tmom + m ∨ i = sh.tmom - m ∨ i = 3 * sh.tmom + 1 + m
      ∨ i = 3 * sh.tmom + 1 - m) :
    roundDeposit sh val distance dlen dlen3 dz com1 powered (j + 1) i = 0 := by
  unfold roundDeposit
  rw [if_neg (by omega), if_neg (by omega), if_neg (by omega), if_neg (by omega)]
  simp

/-- At the index of the real part of `+m` the call adds the real-part Quantity. -/
theorem compute_real_plus (sqrt : K → K) (sh : SphericalHarmonic K) (val : K)
    (distance : Vector K) (t0 : Nat → Quantity K) (m : Nat) (hm1 : 1 ≤ m)
    (hm2 : m ≤ sh.tmom) :
    compute SymmetryFunctionBase.accumulate sqrt sh val distance t0 (sh.tmom + m)
      = t0 (sh.tmom + m) + realOf sqrt sh val distance m := by
  rw [compute_apply, if_neg (by omega), add_zero,
    Finset.sum_eq_single (m - 1)
      (fun j hj hne => roundDeposit_other sh val distance _ _ _ _ _ m j _ hm1 hm2
        (Finset.mem_range.mp hj) hne (Or.inl rfl))
      (fun hn => absurd (Finset.mem_range.mpr (by omega)) hn)]
  unfold roundDeposit realOf
  rw [Nat.sub_add_cancel hm1, if_pos rfl, if_neg (by omega), if_neg (by omega),
    if_neg (by omega)]
  simp

/-- At the index of the real part of `-m` the call adds `(-1)^m` times the
real-part Quantity. -/
theorem compute_real_minus (sqrt : K → K) (sh : SphericalHarmonic K) (val : K)
    (distance : Vector K) (t0 : Nat → Quantity K) (m : Nat) (hm1 : 1 ≤ m)
    (hm2 : m ≤ sh.tmom) :
    compute SymmetryFunctionBase.accumulate sqrt sh val distance t0 (sh.tmom - m)
      = t0 (sh.tmom - m) + Quantity.scale ((-1) ^ m) (realOf sqrt sh val distance m) := by
  rw [compute_apply, if_neg (by omega), add_zero,
    Finset.sum_eq_single (m - 1)
      (fun j hj hne => roundDeposit_other sh val distance _ _ _ _ _ m j _ hm1 hm2
        (Finset.mem_range.mp hj) hne (Or.inr (Or.inl rfl)))
      (fun hn => absurd (Finset.mem_range.mpr (by omega)) hn)]
  unfold roundDeposit realOf
  rw [Nat.sub_add_cancel hm1, if_neg (by omega), if_neg (by omega), if_pos rfl,
    if_neg (by omega)]
  simp

/-- At the index of the imaginary part of `+m` the call adds the imaginary-part
Quantity. -/
theorem compute_imag_plus (sqrt : K → K) (sh : SphericalHarmonic K) (val : K)
    (distance : Vector K) (t0 : Nat → Quantity K) (m : Nat) (hm1 : 1 ≤ m)
    (hm2 : m ≤ sh.tmom) :
    compute SymmetryFunctionBase.accumulate sqrt sh val distance t0 (3 * sh.tmom + 1 + m)
      = t0 (3 * sh.tmom + 1 + m) + imagOf sqrt sh val distance m := by
  rw [compute_apply, if_neg (by omega), add_zero,
    Finset.sum_eq_single (m - 1)
      (fun j hj hne => roundDeposit_other sh val distance _ _ _ _ _ m j _ hm1 hm2
        (Finset.mem_range.mp hj) hne (Or.inr (Or.inr (Or.inl rfl))))
      (fun hn => absurd (Finset.mem_range.mpr (by omega)) hn)]
  unfold roundDeposit imagOf
  rw [Nat.sub_add_cancel hm1, if_neg (by omega), if_pos rfl, if_neg (by omega),
    if_neg (by omega)]
  simp

/-- At the index of the imaginary part of `-m` the call adds `-(-1)^m` times the
imaginary-part Quantity. -/
theorem compute_imag_minus (sqrt : K → K) (sh : SphericalHarmonic K) (val : K)
    (distance : Vector K) (t0 : Nat → Quantity K) (m : Nat) (hm1 : 1 ≤ m)
    (hm2 : m ≤ sh.tmom) :
    compute SymmetryFunctionBase.accumulate sqrt sh val distance t0 (3 * sh.tmom + 1 - m)
      = t0 (3 * sh.tmom + 1 - m)
        + Quantity.scale (-(-1) ^ m) (imagOf sqrt sh val distance m) := by
  rw [compute_apply, if_neg (by omega), add_zero,
    Finset.sum_eq_single (m - 1)
      (fun j hj hne => roundDeposit_other sh val distance _ _ _ _ _ m j _ hm1 hm2
        (Finset.mem_range.mp hj) hne (Or.inr (Or.inr (Or.inr rfl))))
      (fun hn => absurd (Finset.mem_range.mpr (by omega)) hn)]
  unfold roundDeposit imagOf
  rw [Nat.sub_add_cancel hm1, if_neg (by omega), if_neg (by omega), if_neg (by omega),
    if_pos rfl]
  simp

/-- A round of the loop deposits nothing at the two indices of `m = 0`. -/
theorem roundDeposit_zero_index (sh : SphericalHarmonic K) (val : K) (distance : Vector K)
    (dlen dlen3 : K) (dz : Vector K) (com1 powered : complex K) (j i : Nat)
    (hj : j < sh.tmom) (hi : i = sh.tmom ∨ i = 3 * sh.tmom + 1) :
    roundDeposit sh val distance dlen dlen3 dz com1 powered (j + 1) i = 0 := by
  unfold roundDeposit
  rw [if_neg (by omega), if_neg (by omega), if_neg (by omega), if_neg (by omega)]
  simp

/-- At the index of the real part of `m = 0` the call adds the deposit for
`m = 0`. -/
theorem compute_real_zero (sqrt : K → K) (sh : SphericalHarmonic K) (val : K)
    (distance : Vector K) (t0 : Nat → Quantity K) :
    compute SymmetryFunctionBase.accumulate sqrt sh val distance t0 sh.tmom
      = t0 sh.tmom + zeroDeposit sqrt sh val distance := by
  rw [compute_apply, if_pos rfl, Finset.sum_eq_zero
    (fun j hj => roundDeposit_zero_index sh val distance _ _ _ _ _ j _
      (Finset.mem_range.mp hj) (Or.inl rfl)), add_zero]

/-- The index of the imaginary part of `m = 0` is never written. -/
theorem compute_imag_zero (sqrt : K → K) (sh : SphericalHarmonic K) (val : K)
    (distance : Vector K) (t0 : Nat → Quantity K) :
    compute SymmetryFunctionBase.accumulate sqrt sh val distance t0 (3 * sh.tmom + 1)
      = t0 (3 * sh.tmom + 1) := by
  rw [compute_apply, if_neg (by omega), Finset.sum_eq_zero
    (fun j hj => roundDeposit_zero_index sh val distance _ _ _ _ _ j _
      (Finset.mem_range.mp hj) (Or.inr rfl)), add_zero, add_zero]

end SphericalHarmonic

namespace Quantity

variable {K : Type} [Field K]

/-- What is left of a component when its earlier content is taken off is what
was added to it. -/
theorem add_sub_self (a q : Quantity K) : (a + q).sub a = q := by
  apply Quantity.ext
  · simp [sub]
  · apply Vector.ext <;> simp [sub, Vector.sub, Vector.add]
  · simp [sub]

end Quantity

/-- A sum over `0 .. 2L` split into the middle term and the pairs at equal
distance from the middle. -/
theorem sum_range_symm {M : Type} [AddCommMonoid M] (F : Nat → M) (L : Nat) :
    ∑ k in Finset.range (2 * L + 1), F k
      = F L + ∑ j in Finset.range L, (F (L - 1 - j) + F (L + (j + 1))) := by
  rw [show 2 * L + 1 = L + (L + 1) by omega, Finset.sum_range_add, Finset.sum_range_succ',
    ← Finset.sum_range_reflect, Finset.sum_add_distrib]
  simp only [add_zero]
  abel

namespace SphericalHarmonic

variable {K : Type} [Field K]

/-- The squared modulus of `powered` after `n` rounds is the `n`-th power of the
squared modulus of `com1`. -/
theorem poweredAfter_norm (c : complex K) (n : Nat) :
    (poweredAfter c n).re ^ 2 + (poweredAfter c n).im ^ 2 = (c.re ^ 2 + c.im ^ 2) ^ n := by
  induction n with
  | zero => simp [poweredAfter]
  | succ n ih =>
    rw [pow_succ (c.re ^ 2 + c.im ^ 2) n, ← ih]
    simp only [poweredAfter, complex.mul]
    ring

/-- The squared modulus of `com1 * powered` in round `n + 1`. -/
theorem mul_poweredAfter_norm (c : complex K) (n : Nat) :
    (c.mul (poweredAfter c n)).re ^ 2 + (c.mul (poweredAfter c n)).im ^ 2
      = (c.re ^ 2 + c.im ^ 2) ^ (n + 1) := by
  rw [pow_succ (c.re ^ 2 + c.im ^ 2) n, ← poweredAfter_norm]
  simp only [complex.mul]
  ring

/-- The squared values of the real and imaginary part for `+m` add up to the
squared Legendre factor times a power of the squared modulus of `com1`. -/
theorem plus_power (sqrt : K → K) (sh : SphericalHarmonic K) (val : K) (distance : Vector K)
    (j : Nat) :
    (realOf sqrt sh val distance (j + 1)).value ^ 2
        + (imagOf sqrt sh val distance (j + 1)).value ^ 2
      = val ^ 2 * ((sh.deriv_poly (j + 1) (distance.z / sqrt distance.modulo2)).1 ^ 2
          * ((unitXY sqrt distance).re ^ 2 + (unitXY sqrt distance).im ^ 2) ^ (j + 1)) := by
  rw [← mul_poweredAfter_norm]
  simp only [realOf, imagOf, realDeposit, imagDeposit, Nat.add_sub_cancel]
  ring

/-- The total power of a call on a fresh tape: the square of the value for
`m = 0` and twice the squares for `m = 1 .. tmom`. -/
theorem power_sum_eq (sqrt : K → K) (sh : SphericalHarmonic K) (val : K)
    (distance : Vector K) :
    ∑ k in Finset.range (2 * sh.tmom + 1),
        ((compute SymmetryFunctionBase.accumulate sqrt sh val distance (fun _ => 0) k).value ^ 2
          + (compute SymmetryFunctionBase.accumulate sqrt sh val distance (fun _ => 0)
              (2 * sh.tmom + 1 + k)).value ^ 2)
      = val ^ 2 * ((sh.deriv_poly 0 (distance.z / sqrt distance.modulo2)).1 ^ 2
          + ∑ j in Finset.range sh.tmom,
              2 * ((sh.deriv_poly (j + 1) (distance.z / sqrt distance.modulo2)).1 ^ 2
                * ((unitXY sqrt distance).re ^ 2 + (unitXY sqrt distance).im ^ 2) ^ (j + 1))) := by
  have h0 : (compute SymmetryFunctionBase.accumulate sqrt sh val distance (fun _ => 0)
        sh.tmom).value ^ 2
      + (compute SymmetryFunctionBase.accumulate sqrt sh val distance (fun _ => 0)
          (2 * sh.tmom + 1 + sh.tmom)).value ^ 2
      = val ^ 2 * (sh.deriv_poly 0 (distance.z / sqrt distance.modulo2)).1 ^ 2 := by
    rw [show 2 * sh.tmom + 1 + sh.tmom = 3 * sh.tmom + 1 by omega, compute_real_zero,
      compute_imag_zero]
    simp only [Quantity.add_value, Quantity.zero_value, zeroDeposit]
    ring
  have hp : ∀ j, j < sh.tmom →
      (compute SymmetryFunctionBase.accumulate sqrt sh val distance (fun _ => 0)
        (sh.tmom + (j + 1))).value ^ 2
      + (compute SymmetryFunctionBase.accumulate sqrt sh val distance (fun _ => 0)
          (2 * sh.tmom + 1 + (sh.tmom + (j + 1)))).value ^ 2
      = val ^ 2 * ((sh.deriv_poly (j + 1) (distance.z / sqrt distance.modulo2)).1 ^ 2
          * ((unitXY sqrt distance).re ^ 2 + (unitXY sqrt distance).im ^ 2) ^ (j + 1)) := by
    intro j hj
    rw [show 2 * sh.tmom + 1 + (sh.tmom + (j + 1)) = 3 * sh.tmom + 1 + (j + 1) by omega,
      compute_real_plus sqrt sh val distance _ (j + 1) (by omega) (by omega),
      compute_imag_plus sqrt sh val distance _ (j + 1) (by omega) (by omega)]
    simp only [Quantity.add_value, Quantity.zero_value, zero_add]
    exact plus_power sqrt sh val distance j
  have hm : ∀ j, j < sh.tmom →
      (compute SymmetryFunctionBase.accumulate sqrt sh val distance (fun _ => 0)
        (sh.tmom - 1 - j)).value ^ 2
      + (compute SymmetryFunctionBase.accumulate sqrt sh val distance (fun _ => 0)
          (2 * sh.tmom + 1 + (sh.tmom - 1 - j))).value ^ 2
      = val ^ 2 * ((sh.deriv_poly (j + 1) (distance.z / sqrt distance.modulo2)).1 ^ 2
          * ((unitXY sqrt distance).re ^ 2 + (unitXY sqrt distance).im ^ 2) ^ (j + 1)) := by
    intro j hj
    rw [show 2 * sh.tmom + 1 + (sh.tmom - 1 - j) = 3 * sh.tmom + 1 - (j + 1) by omega,
      show sh.tmom - 1 - j = sh.tmom - (j + 1) by omega,
      compute_real_minus sqrt sh val distance _ (j + 1) (by omega) (by omega),
      compute_imag_minus sqrt sh val distance _ (j + 1) (by omega) (by omega)]
    simp only [Quantity.add_value, Quantity.zero_value, zero_add, Quantity.scale]
    rw [← plus_power sqrt sh val distance j]
    have hs : ((-1 : K) ^ (j + 1)) ^ 2 = 1 := by
      rw [← pow_mul, mul_comm, pow_mul]
      simp
    linear_combination
      ((realOf sqrt sh val distance (j + 1)).value ^ 2
        + (imagOf sqrt sh val distance (j + 1)).value ^ 2) * hs
  rw [sum_range_symm, h0, Finset.sum_congr rfl (fun j hj => by
    rw [hm j (Finset.mem_range.mp hj), hp j (Finset.mem_range.mp hj)]), mul_add,
    Finset.mul_sum]
  congr 1
  apply Finset.sum_congr rfl
  intro j _
  ring

end SphericalHarmonic

/-- On the arguments the supported orders need, the wrapping factorial is the
factorial. -/
theorem factorial_eq_factorial : ∀ n, n ≤ 12 → factorial n = n.factorial := by
  decide

/-- For the supported orders the numerator of the normalization constant does
not wrap. -/
theorem normaliz_numerator : ∀ L, L ≤ 6 → ∀ m, m ≤ L →
    ((2 * L + 1) * factorial (L - m)) % 2 ^ 32 = (2 * L + 1) * (L - m).factorial := by
  decide

namespace SphericalHarmonic

/-- What a successful construction installs. -/
theorem construct_fields {K : Type} [Field K] (sqrt : K → K) (pi : K) (L : Nat)
    (sh : SphericalHarmonic K) (hsh : construct sqrt pi L = Except.ok sh) :
    sh.tmom = L ∧ 1 ≤ L ∧ L ≤ 6
    ∧ sh.normaliz = (List.range (L + 1)).map (fun i =>
        if i % 2 = 1
        then sqrt ((((2 * L + 1) * factorial (L - i)) % 2 ^ 32 : Nat)
          / (4 * pi * (factorial (L + i) : Nat))) * (-1)
        else sqrt ((((2 * L + 1) * factorial (L - i)) % 2 ^ 32 : Nat)
          / (4 * pi * (factorial (L + i) : Nat))))
    ∧ (L = 1 → sh.coeff_poly = [0, 1.0])
    ∧ (L = 2 → sh.coeff_poly = [-0.5, 0.0, 1.5])
    ∧ (L = 3 → sh.coeff_poly = [0.0, -1.5, 0.0, 2.5])
    ∧ (L = 4 → sh.coeff_poly = [0.375, 0.0, -3.75, 0.0, 4.375])
    ∧ (L = 5 → sh.coeff_poly = [0.0, 1.875, 0.0, -8.75, 0.0, 7.875])
    ∧ (L = 6 → sh.coeff_poly = [-0.3125, 0.0, 6.5625, 0.0, -19.6875, 0.0, 14.4375]) := by
  unfold construct at hsh
  simp only [] at hsh
  split_ifs at hsh with h1 h2 h3 h4 h5 h6 <;>
    (injection hsh with hsh
     subst hsh
     refine ⟨rfl, by omega, by omega, rfl, ?_, ?_, ?_, ?_, ?_, ?_⟩ <;>
       intro h <;> first | rfl | (exfalso; omega))

/-- The square of the normalization constant of a constructed module. -/
theorem construct_normaliz_sq (L : Nat) (sh : SphericalHarmonic ℝ)
    (hsh : construct Real.sqrt Real.pi L = Except.ok sh) (m : Nat) (hm : m ≤ L) :
    (sh.normaliz.getD m 0) ^ 2
      = (((2 * L + 1) * (L - m).factorial : Nat) : ℝ)
        / (4 * Real.pi * ((L + m).factorial : Nat)) := by
  obtain ⟨-, -, hL6, hn, -⟩ := construct_fields Real.sqrt Real.pi L sh hsh
  rw [hn, List.getD_eq_getElem?_getD, List.getElem?_map,
    List.getElem?_range (by omega : m < L + 1)]
  simp only [Option.map_some', Option.getD_some]
  rw [normaliz_numerator L hL6 m hm, factorial_eq_factorial (L + m) (by omega)]
  have hnn : (0 : ℝ) ≤ (((2 * L + 1) * (L - m).factorial : Nat) : ℝ)
      / (4 * Real.pi * ((L + m).factorial : Nat)) := by
    have := Real.pi_pos
    positivity
  split_ifs
  · rw [mul_pow, Real.sq_sqrt hnn]
    norm_num
  · rw [Real.sq_sqrt hnn]

/-- The total power of a module of order one on a unit vector. -/
theorem power_order_one (sh : SphericalHarmonic ℝ) (d : Vector ℝ)
    (hd : d.modulo2 = 1) (htm : sh.tmom = 1)
    (hco : sh.coeff_poly = [0, 1.0])
    (hno : ∀ m, m ≤ sh.tmom → (sh.normaliz.getD m 0) ^ 2
      = (((2 * sh.tmom + 1) * (sh.tmom - m).factorial : Nat) : ℝ)
        / (4 * Real.pi * ((sh.tmom + m).factorial : Nat))) :
    ∑ k in Finset.range (2 * sh.tmom + 1),
        ((compute SymmetryFunctionBase.accumulate Real.sqrt sh 1 d (fun _ => 0) k).value ^ 2
          + (compute SymmetryFunctionBase.accumulate Real.sqrt sh 1 d (fun _ => 0)
              (2 * sh.tmom + 1 + k)).value ^ 2)
      = (2 * (sh.tmom : ℝ) + 1) / (4 * Real.pi) := by
  have hxy : d.x ^ 2 + d.y ^ 2 = 1 - d.z ^ 2 := by
    unfold Vector.modulo2 at hd
    linear_combination hd
  have h0 := hno 0 (by omega)
  have h1 := hno 1 (by omega)
  simp only [htm] at h0 h1
  rw [power_sum_eq]
  simp only [hd, Real.sqrt_one, div_one, deriv_poly, polyLoop, unitXY, htm, hco, mul_pow,
    Finset.sum_range_succ, Finset.sum_range_zero, hxy]
  simp only [h0, h1]
  simp [List.range', Nat.factorial]
  have hpi : Real.pi ≠ 0 := Real.pi_ne_zero
  field_simp
  ring

/-- The total power of a module of order two on a unit vector. -/
theorem power_order_two (sh : SphericalHarmonic ℝ) (d : Vector ℝ)
    (hd : d.modulo2 = 1) (htm : sh.tmom = 2)
    (hco : sh.coeff_poly = [-0.5, 0.0, 1.5])
    (hno : ∀ m, m ≤ sh.tmom → (sh.normaliz.getD m 0) ^ 2
      = (((2 * sh.tmom + 1) * (sh.tmom - m).factorial : Nat) : ℝ)
        / (4 * Real.pi * ((sh.tmom + m).factorial : Nat))) :
    ∑ k in Finset.range (2 * sh.tmom + 1),
        ((compute SymmetryFunctionBase.accumulate Real.sqrt sh 1 d (fun _ => 0) k).value ^ 2
          + (compute SymmetryFunctionBase.accumulate Real.sqrt sh 1 d (fun _ => 0)
              (2 * sh.tmom + 1 + k)).value ^ 2)
      = (2 * (sh.tmom : ℝ) + 1) / (4 * Real.pi) := by
  have hxy : d.x ^ 2 + d.y ^ 2 = 1 - d.z ^ 2 := by
    unfold Vector.modulo2 at hd
    linear_combination hd
  have h0 := hno 0 (by omega)
  have h1 := hno 1 (by omega)
  have h2 := hno 2 (by omega)
  simp only [htm] at h0 h1 h2
  rw [power_sum_eq]
  simp only [hd, Real.sqrt_one, div_one, deriv_poly, polyLoop, unitXY, htm, hco, mul_pow,
    Finset.sum_range_succ, Finset.sum_range_zero, hxy]
  simp only [h0, h1, h2]
  simp [List.range', Nat.factorial]
  have hpi : Real.pi ≠ 0 := Real.pi_ne_zero
  field_simp
  ring

/-- The total power of a module of order three on a unit vector. -/
theorem power_order_three (sh : SphericalHarmonic ℝ) (d : Vector ℝ)
    (hd : d.modulo2 = 1) (htm : sh.tmom = 3)
    (hco : sh.coeff_poly = [0.0, -1.5, 0.0, 2.5])
    (hno : ∀ m, m ≤ sh.tmom → (sh.normaliz.getD m 0) ^ 2
      = (((2 * sh.tmom + 1) * (sh.tmom - m).factorial : Nat) : ℝ)
        / (4 * Real.pi * ((sh.tmom + m).factorial : Nat))) :
    ∑ k in Finset.range (2 * sh.tmom + 1),
        ((compute SymmetryFunctionBase.accumulate Real.sqrt sh 1 d (fun _ => 0) k).value ^ 2
          + (compute SymmetryFunctionBase.accumulate Real.sqrt sh 1 d (fun _ => 0)
              (2 * sh.tmom + 1 + k)).value ^ 2)
      = (2 * (sh.tmom : ℝ) + 1) / (4 * Real.pi) := by
  have hxy : d.x ^ 2 + d.y ^ 2 = 1 - d.z ^ 2 := by
    unfold Vector.modulo2 at hd
    linear_combination hd
  have h0 := hno 0 (by omega)
  have h1 := hno 1 (by omega)
  have h2 := hno 2 (by omega)
  have h3 := hno 3 (by omega)
  simp only [htm] at h0 h1 h2 h3
  rw [power_sum_eq]
  simp only [hd, Real.sqrt_one, div_one, deriv_poly, polyLoop, unitXY, htm, hco, mul_pow,
    Finset.sum_range_succ, Finset.sum_range_zero, hxy]
  simp only [h0, h1, h2, h3]
  simp [List.range', Nat.factorial]
  have hpi : Real.pi ≠ 0 := Real.pi_ne_zero
  field_simp
  ring

/-- The total power of a module of order four on a unit vector. -/
theorem power_order_four (sh : SphericalHarmonic ℝ) (d : Vector ℝ)
    (hd : d.modulo2 = 1) (htm : sh.tmom = 4)
    (hco : sh.coeff_poly = [0.375, 0.0, -3.75, 0.0, 4.375])
    (hno : ∀ m, m ≤ sh.tmom → (sh.normaliz.getD m 0) ^ 2
      = (((2 * sh.tmom + 1) * (sh.tmom - m).factorial : Nat) : ℝ)
        / (4 * Real.pi * ((sh.tmom + m).factorial : Nat))) :
    ∑ k in Finset.range (2 * sh.tmom + 1),
        ((compute SymmetryFunctionBase.accumulate Real.sqrt sh 1 d (fun _ => 0) k).value ^ 2
          + (compute SymmetryFunctionBase.accumulate Real.sqrt sh 1 d (fun _ => 0)
              (2 * sh.tmom + 1 + k)).value ^ 2)
      = (2 * (sh.tmom : ℝ) + 1) / (4 * Real.pi) := by
  have hxy : d.x ^ 2 + d.y ^ 2 = 1 - d.z ^ 2 := by
    unfold Vector.modulo2 at hd
    linear_combination hd
  have h0 := hno 0 (by omega)
  have h1 := hno 1 (by omega)
  have h2 := hno 2 (by omega)
  have h3 := hno 3 (by omega)
  have h4 := hno 4 (by omega)
  simp only [htm] at h0 h1 h2 h3 h4
  rw [power_sum_eq]
  simp only [hd, Real.sqrt_one, div_one, deriv_poly, polyLoop, unitXY, htm, hco, mul_pow,
    Finset.sum_range_succ, Finset.sum_range_zero, hxy]
  simp only [h0, h1, h2, h3, h4]
  simp [List.range', Nat.factorial]
  have hpi : Real.pi ≠ 0 := Real.pi_ne_zero
  field_simp
  ring

/-- The total power of a module of order five on a unit vector. -/
theorem power_order_five (sh : SphericalHarmonic ℝ) (d : Vector ℝ)
    (hd : d.modulo2 = 1) (htm : sh.tmom = 5)
    (hco : sh.coeff_poly = [0.0, 1.875, 0.0, -8.75, 0.0, 7.875])
    (hno : ∀ m, m ≤ sh.tmom → (sh.normaliz.getD m 0) ^ 2
      = (((2 * sh.tmom + 1) * (sh.tmom - m).factorial : Nat) : ℝ)
        / (4 * Real.pi * ((sh.tmom + m).factorial : Nat))) :
    ∑ k in Finset.range (2 * sh.tmom + 1),
        ((compute SymmetryFunctionBase.accumulate Real.sqrt sh 1 d (fun _ => 0) k).value ^ 2
          + (compute SymmetryFunctionBase.accumulate Real.sqrt sh 1 d (fun _ => 0)
              (2 * sh.tmom + 1 + k)).value ^ 2)
      = (2 * (sh.tmom : ℝ) + 1) / (4 * Real.pi) := by
  have hxy : d.x ^ 2 + d.y ^ 2 = 1 - d.z ^ 2 := by
    unfold Vector.modulo2 at hd
    linear_combination hd
  have h0 := hno 0 (by omega)
  have h1 := hno 1 (by omega)
  have h2 := hno 2 (by omega)
  have h3 := hno 3 (by omega)
  have h4 := hno 4 (by omega)
  have h5 := hno 5 (by omega)
  simp only [htm] at h0 h1 h2 h3 h4 h5
  rw [power_sum_eq]
  simp only [hd, Real.sqrt_one, div_one, deriv_poly, polyLoop, unitXY, htm, hco, mul_pow,
    Finset.sum_range_succ, Finset.sum_range_zero, hxy]
  simp only [h0, h1, h2, h3, h4, h5]
  simp [List.range', Nat.factorial]
  have hpi : Real.pi ≠ 0 := Real.pi_ne_zero
  field_simp
  ring

/-- The total power of a module of order six on a unit vector. -/
theorem power_order_six (sh : SphericalHarmonic ℝ) (d : Vector ℝ)
    (hd : d.modulo2 = 1) (htm : sh.tmom = 6)
    (hco : sh.coeff_poly = [-0.3125, 0.0, 6.5625, 0.0, -19.6875, 0.0, 14.4375])
    (hno : ∀ m, m ≤ sh.tmom → (sh.normaliz.getD m 0) ^ 2
      = (((2 * sh.tmom + 1) * (sh.tmom - m).factorial : Nat) : ℝ)
        / (4 * Real.pi * ((sh.tmom + m).factorial : Nat))) :
    ∑ k in Finset.range (2 * sh.tmom + 1),
        ((compute SymmetryFunctionBase.accumulate Real.sqrt sh 1 d (fun _ => 0) k).value ^ 2
          + (compute SymmetryFunctionBase.accumulate Real.sqrt sh 1 d (fun _ => 0)
              (2 * sh.tmom + 1 + k)).value ^ 2)
      = (2 * (sh.tmom : ℝ) + 1) / (4 * Real.pi) := by
  have hxy : d.x ^ 2 + d.y ^ 2 = 1 - d.z ^ 2 := by
    unfold Vector.modulo2 at hd
    linear_combination hd
  have h0 := hno 0 (by omega)
  have h1 := hno 1 (by omega)
  have h2 := hno 2 (by omega)
  have h3 := hno 3 (by omega)
  have h4 := hno 4 (by omega)
  have h5 := hno 5 (by omega)
  have h6 := hno 6 (by omega)
  simp only [htm] at h0 h1 h2 h3 h4 h5 h6
  rw [power_sum_eq]
  simp only [hd, Real.sqrt_one, div_one, deriv_poly, polyLoop, unitXY, htm, hco, mul_pow,
    Finset.sum_range_succ, Finset.sum_range_zero, hxy]
  simp only [h0, h1, h2, h3, h4, h5, h6]
  simp [List.range', Nat.factorial]
  have hpi : Real.pi ≠ 0 := Real.pi_ne_zero
  field_simp
  ring

end SphericalHarmonic

namespace WeightedAtomAverage

/-- For a mass-weighted average `performTask` deposits the mass as the weight and
runs the per-task compute with it. -/
theorem sample_performTask (i : Nat) :
    performTask Sample.average Sample.host (1 / 1000)
        (centerCompute Sample.average) i MultiValue.empty
      = Except.ok (Sample.taskTape i) := rfl

/-- The buffer entries of the worked configuration that the finalization of the
values and of one derivative reads. -/
theorem sample_performed_entries :
    Sample.performed 0 = 2 ∧ Sample.performed 10 = 1 ∧ Sample.performed 20 = 0
    ∧ Sample.performed 30 = 4 ∧ Sample.performed 4 = 2 ∧ Sample.performed 34 = 0 := by
  refine ⟨?_, ?_, ?_, ?_, ?_, ?_⟩
  all_goals simp [Sample.performed, Sample.taskTape, centerCompute, addDerivative,
    MultiValue.addDerivative, MultiValue.updateIndex, MultiValue.addValue, MultiValue.empty,
    Sample.average, Sample.host,
    gatherForVirtualAtom, List.range_succ, MultiValue.get, addTo, Function.update,
    MultiValue.getNumberActive, MultiValue.getActiveIndex, MultiValue.getDerivative]
  all_goals norm_num

end WeightedAtomAverage

/-- The product of the `m` integers that end at `i` is `i! / (i - m)!`. -/
theorem factorial_mul_prod_range (i m : Nat) (hm : m ≤ i) :
    (i - m).factorial * ∏ j in Finset.range m, (i - m + 1 + j) = i.factorial := by
  induction m with
  | zero => simp
  | succ m ih =>
    rw [Finset.prod_range_succ', ← mul_assoc, mul_comm ((i - (m + 1)).factorial), mul_assoc]
    have h1 : (i - (m + 1)).factorial * (i - (m + 1) + 1 + 0) = (i - m).factorial := by
      have : i - m = (i - (m + 1)) + 1 := by omega
      rw [this, Nat.factorial_succ]
      simp [Nat.mul_comm]
    have h2 : ∀ j, i - (m + 1) + 1 + (j + 1) = i - m + 1 + j := by intro j; omega
    simp only [h2]
    rw [h1, mul_comm]
    exact ih (by omega)

/-- A list of integers converted to the field, entry by entry. -/
theorem cast_list {K : Type} [Field K] (l : List Nat) :
    (do let a ← l; pure (a : K) : List K) = List.map (fun (a : Nat) => (a : K)) l := by
  induction l with
  | nil => rfl
  | cons a l ih =>
    simp [List.bind_eq_flatMap, List.pure_def, List.map_eq_flatMap]

/-- The inner loop of `deriv_poly`, `fact = fact * j` for the `m` values of `j`
from `s` on, leaves the product of these values. -/
theorem fact_loop {K : Type} [Field K] (s m : Nat) :
    (List.range' s m).foldl (fun fact j => fact * (j : K)) (1 : K)
      = ((∏ j in Finset.range m, (s + j) : Nat) : K) := by
  rw [cast_list, List.foldl_map]
  induction m with
  | zero => simp
  | succ m ih =>
    rw [List.range'_concat, List.foldl_append, ih, Finset.prod_range_succ]
    simp

/-- The inner loop of `deriv_poly` for the coefficient `i` leaves `i! / (i - m)!`. -/
theorem fact_loop_eq {K : Type} [Field K] (i m : Nat) (hm : m ≤ i) :
    (List.range' (i - m + 1) m).foldl (fun fact j => fact * (j : K)) (1 : K)
      = ((i.factorial / (i - m).factorial : Nat) : K) := by
  rw [fact_loop]
  congr 1
  rw [← factorial_mul_prod_range i m hm, Nat.mul_div_cancel_left _ (Nat.factorial_pos _)]

namespace SphericalHarmonic

variable {K : Type} [Field K]

/-- The state of the outer loop of `deriv_poly` after `t` rounds. -/
theorem polyLoop_state (sh : SphericalHarmonic K) (m : Nat) (val res0 : K) (t : Nat) :
    (List.range' (m + 1) t).foldl
      (fun (st : K × K × K × K × K) i =>
        let (res, df, pow, xi, dxi) := st
        let fact := (List.range' (i - m + 1) m).foldl (fun fact j => fact * (j : K)) (1 : K)
        (res + sh.coeff_poly.getD i 0 * fact * xi,
         df + pow * sh.coeff_poly.getD i 0 * fact * dxi,
         pow + 1, xi * val, dxi * val))
      (res0, 0, 1, val, 1)
    = (res0 + ∑ u in Finset.range t, sh.coeff_poly.getD (m + 1 + u) 0
          * (((m + 1 + u).factorial / (m + 1 + u - m).factorial : Nat) : K) * val ^ (u + 1),
       ∑ u in Finset.range t, ((u : K) + 1) * sh.coeff_poly.getD (m + 1 + u) 0
          * (((m + 1 + u).factorial / (m + 1 + u - m).factorial : Nat) : K) * val ^ u,
       (t : K) + 1, val ^ (t + 1), val ^ t) := by
  induction t with
  | zero => simp
  | succ t ih =>
    rw [List.range'_concat, List.foldl_append, ih]
    simp only [List.foldl_cons, List.foldl_nil, one_mul]
    rw [fact_loop_eq (m + 1 + t) m (by omega), Finset.sum_range_succ, Finset.sum_range_succ]
    refine Prod.ext ?_ (Prod.ext ?_ (Prod.ext ?_ (Prod.ext ?_ ?_)))
    · show _ + _ = _ + (_ + _)
      ring
    · show _ + _ = _ + _
      ring
    · show _ + _ = _ + _
      push_cast
      ring
    · show _ * _ = _
      ring
    · show _ * _ = _
      ring

/-- The pair `(res, df)` that the loops of `deriv_poly` leave, in closed form. -/
theorem polyLoop_eq (sh : SphericalHarmonic K) (m : Nat) (val : K) (hm : m ≤ sh.tmom) :
    (sh.polyLoop m val).1
      = ∑ i in Finset.Ico m (sh.tmom + 1), sh.coeff_poly.getD i 0
          * ((i.factorial / (i - m).factorial : Nat) : K) * val ^ (i - m)
    ∧ (sh.polyLoop m val).2
      = ∑ i in Finset.Ico (m + 1) (sh.tmom + 1), sh.coeff_poly.getD i 0
          * ((i.factorial / (i - m).factorial : Nat) : K) * ((i - m : Nat) : K)
          * val ^ (i - m - 1) := by
  unfold polyLoop
  simp only []
  rw [polyLoop_state]
  simp only []
  have h1 := fact_loop_eq (K := K) m m (le_refl m)
  rw [Nat.sub_self, Nat.zero_add] at h1
  rw [h1]
  constructor
  · rw [Finset.sum_eq_sum_Ico_succ_bot (by omega : m < sh.tmom + 1),
      Finset.sum_Ico_eq_sum_range]
    simp only [Nat.sub_self, pow_zero, mul_one]
    congr 1
    rw [show sh.tmom + 1 - (m + 1) = sh.tmom - m by omega]
    apply Finset.sum_congr rfl
    intro u _
    rw [show m + 1 + u - m = u + 1 by omega]
  · rw [Finset.sum_Ico_eq_sum_range, show sh.tmom + 1 - (m + 1) = sh.tmom - m by omega]
    apply Finset.sum_congr rfl
    intro u _
    rw [show m + 1 + u - m = u + 1 by omega, show u + 1 - 1 = u by omega]
    push_cast
    ring

end SphericalHarmonic

namespace SphericalHarmonic

variable {K : Type} [Field K]

omit [Field K] in
/-- The three accumulation routines, called in a row on one component, count
one call each. -/
theorem count_three (i : Nat) (v w : K) (vec : Vector K) (t : Nat → Nat × Nat × Nat)
    (q : Nat) :
    (SymmetryFunctionBase.count (K := K)).addWeightDerivative i w
      ((SymmetryFunctionBase.count (K := K)).addVectorDerivatives i vec
        ((SymmetryFunctionBase.count (K := K)).addToValue i v t)) q
      = t q + (if q = i then (1, 1, 1) else 0) := by
  simp only [SymmetryFunctionBase.count, addTo_apply_add]
  by_cases hq : q = i
  · simp [hq, add_assoc]
  · simp [hq]

/-- One round of the loop counts its calls, whatever `powered` is. -/
theorem computeStep_count (sh : SphericalHarmonic K) (val : K) (distance : Vector K)
    (dlen dlen3 : K) (dz : Vector K) (com1 powered : complex K) (t : Nat → Nat × Nat × Nat)
    (m i : Nat) :
    (computeStep SymmetryFunctionBase.count sh val distance dlen dlen3 dz com1
        (t, powered) m).1 i
      = t i + roundCount sh.tmom m i := by
  unfold computeStep
  simp only [count_three]
  unfold roundCount
  simp only [add_assoc]

/-- After `n` rounds the loop has counted the calls of the rounds `1 .. n`. -/
theorem compute_loop_count (sh : SphericalHarmonic K) (val : K) (distance : Vector K)
    (dlen dlen3 : K) (dz : Vector K) (com1 : complex K) (n : Nat) :
    ∀ (st : (Nat → Nat × Nat × Nat) × complex K) (i : Nat),
      ((List.range' 1 n).foldl
        (computeStep SymmetryFunctionBase.count sh val distance dlen dlen3 dz com1) st).1 i
      = st.1 i + ∑ j in Finset.range n, roundCount sh.tmom (j + 1) i := by
  induction n with
  | zero => simp
  | succ n ih =>
    intro st i
    rw [List.range'_concat, List.foldl_append]
    simp only [List.foldl_cons, List.foldl_nil]
    generalize hst : (List.range' 1 n).foldl
      (computeStep SymmetryFunctionBase.count sh val distance dlen dlen3 dz com1) st = st2
    have h2 := ih st i
    rw [hst] at h2
    obtain ⟨t, p⟩ := st2
    have h3 : t i = st.1 i + ∑ j in Finset.range n, roundCount sh.tmom (j + 1) i := h2
    rw [computeStep_count, h3, Finset.sum_range_succ, add_assoc]
    simp [Nat.add_comm]

/-- The calls of one `compute` on component `i`: the three for `m = 0` when
`i = tmom`, and those of the rounds. -/
theorem compute_count (sqrt : K → K) (sh : SphericalHarmonic K) (val : K)
    (distance : Vector K) (t0 : Nat → Nat × Nat × Nat) (i : Nat) :
    compute SymmetryFunctionBase.count sqrt sh val distance t0 i
      = t0 i + (if i = sh.tmom then (1, 1, 1) else 0)
        + ∑ j in Finset.range sh.tmom, roundCount sh.tmom (j + 1) i := by
  unfold compute
  rw [compute_loop_count]
  simp only [count_three]

/-- Round `j0 + 1` is the only round that writes component `i`, and it writes it
once, when `i` is one of the four indices of that round. -/
theorem roundCount_single (L i j0 : Nat) (hj0 : j0 < L)
    (hi : i = L + (j0 + 1) ∨ i = 3 * L + 1 + (j0 + 1) ∨ i = L - (j0 + 1)
      ∨ i = 3 * L + 1 - (j0 + 1)) :
    ∑ j in Finset.range L, roundCount L (j + 1) i = (1, 1, 1) := by
  rw [Finset.sum_eq_single j0]
  · unfold roundCount
    rcases hi with h | h | h | h
    · rw [if_pos h, if_neg (by omega), if_neg (by omega), if_neg (by omega)]; rfl
    · rw [if_neg (by omega), if_pos h, if_neg (by omega), if_neg (by omega)]; rfl
    · rw [if_neg (by omega), if_neg (by omega), if_pos h, if_neg (by omega)]; rfl
    · rw [if_neg (by omega), if_neg (by omega), if_neg (by omega), if_pos h]; rfl
  · intro j hj hne
    rw [Finset.mem_range] at hj
    unfold roundCount
    rw [if_neg (by omega), if_neg (by omega), if_neg (by omega), if_neg (by omega)]
    rfl
  · intro hn
    exact absurd (Finset.mem_range.mpr hj0) hn

/-- No round writes the components `tmom` and `3 * tmom + 1`, nor any component
from `2 * (2 * tmom + 1)` on. -/
theorem roundCount_none (L i : Nat) (hi : i = L ∨ i = 3 * L + 1 ∨ 2 * (2 * L + 1) ≤ i) :
    ∑ j in Finset.range L, roundCount L (j + 1) i = 0 := by
  apply Finset.sum_eq_zero
  intro j hj
  rw [Finset.mem_range] at hj
  unfold roundCount
  rw [if_neg (by omega), if_neg (by omega), if_neg (by omega), if_neg (by omega)]
  rfl

/-- The calls of one `compute` on a fresh tape of counters. -/
theorem compute_count_eq (sqrt : K → K) (sh : SphericalHarmonic K) (val : K)
    (distance : Vector K) (i : Nat) :
    compute SymmetryFunctionBase.count sqrt sh val distance (fun _ => 0) i
      = if i < 2 * (2 * sh.tmom + 1) ∧ i ≠ 3 * sh.tmom + 1 then (1, 1, 1) else (0, 0, 0) := by
  rw [compute_count]
  by_cases h0 : i = sh.tmom
  · rw [if_pos h0, roundCount_none _ _ (Or.inl h0), if_pos ⟨by omega, by omega⟩]
    rfl
  · rw [if_neg h0]
    by_cases h1 : i = 3 * sh.tmom + 1
    · rw [roundCount_none _ _ (Or.inr (Or.inl h1)), if_neg (fun h => h.2 h1)]
      rfl
    · by_cases h2 : 2 * (2 * sh.tmom + 1) ≤ i
      · rw [roundCount_none _ _ (Or.inr (Or.inr h2)), if_neg (fun h => by omega)]
        rfl
      · rw [if_pos ⟨by omega, h1⟩]
        have hone : ∑ j in Finset.range sh.tmom, roundCount sh.tmom (j + 1) i = (1, 1, 1) := by
          rcases Nat.lt_or_ge i sh.tmom with ha | ha
          · exact roundCount_single _ _ (sh.tmom - i - 1) (by omega)
              (Or.inr (Or.inr (Or.inl (by omega))))
          · rcases Nat.lt_or_ge i (2 * sh.tmom + 1) with hb | hb
            · exact roundCount_single _ _ (i - sh.tmom - 1) (by omega) (Or.inl (by omega))
            · rcases Nat.lt_or_ge i (3 * sh.tmom + 1) with hc | hc
              · exact roundCount_single _ _ (3 * sh.tmom - i) (by omega)
                  (Or.inr (Or.inr (Or.inr (by omega))))
              · exact roundCount_single _ _ (i - 3 * sh.tmom - 2) (by omega)
                  (Or.inr (Or.inl (by omega)))
        rw [hone]
        rfl

end SphericalHarmonic

/-! ## Lemmas on the upper-triangular loops -/

section Triangle

theorem nested_pairs {σ : Type} (body : Nat → Nat → σ → σ) (ncv m : Nat) (s : σ) :
    (List.range m).foldl
        (fun st i => (List.range' i (ncv - i)).foldl (fun st j => body i j st) st) s
      = (pairRows ncv m).foldl (fun st p => body p.1 p.2 st) s := by
  induction m with
  | zero => rfl
  | succ m ih =>
    rw [List.range_succ, List.foldl_append, List.foldl_cons, List.foldl_nil, ih, pairRows,
      List.foldl_append, List.foldl_map]

theorem upperIndex_succ (ncv m : Nat) :
    upperIndex ncv (m + 1) (m + 1) = upperIndex ncv m m + (ncv - m) := by
  simp [upperIndex, List.range_succ]

theorem upperIndex_row (ncv i j : Nat) : upperIndex ncv i j = upperIndex ncv i i + (j - i) := by
  simp [upperIndex]

theorem upperIndex_mono (ncv : Nat) {i m : Nat} (h : i ≤ m) :
    upperIndex ncv i i ≤ upperIndex ncv m m := by
  induction m with
  | zero =>
    have : i = 0 := by omega
    subst this; exact le_refl _
  | succ m ih =>
    rcases Nat.lt_or_ge i (m + 1) with h1 | h1
    · have := ih (by omega)
      rw [upperIndex_succ]; omega
    · have : i = m + 1 := by omega
      subst this; exact le_refl _

theorem pairRows_length (ncv m : Nat) : (pairRows ncv m).length = upperIndex ncv m m := by
  induction m with
  | zero => simp [pairRows, upperIndex]
  | succ m ih => simp [pairRows, ih, upperIndex_succ]

theorem upperIndex_lt (ncv : Nat) {i j m : Nat} (hi : i < m) (hij : i ≤ j) (hj : j < ncv) :
    upperIndex ncv i j < upperIndex ncv m m := by
  have h1 := upperIndex_mono ncv (show i + 1 ≤ m from hi)
  rw [upperIndex_succ] at h1
  rw [upperIndex_row ncv i j]
  omega

theorem pairRows_get (ncv m : Nat) {i j : Nat} (hi : i < m) (hij : i ≤ j) (hj : j < ncv) :
    (pairRows ncv m)[upperIndex ncv i j]? = some (i, j) := by
  induction m with
  | zero => omega
  | succ m ih =>
    rw [pairRows]
    rcases Nat.lt_or_ge i m with h1 | h1
    · rw [List.getElem?_append_left (by rw [pairRows_length]; exact upperIndex_lt ncv h1 hij hj)]
      exact ih h1
    · have : i = m := by omega
      subst this
      rw [List.getElem?_append_right (by rw [pairRows_length, upperIndex_row ncv i j]; omega),
        pairRows_length, upperIndex_row ncv i j, Nat.add_sub_cancel_left, List.getElem?_map,
        List.getElem?_range' _ _ (by omega)]
      simp
      omega

theorem pairRows_inv (ncv m : Nat) {idx : Nat} {p : Nat × Nat}
    (h : (pairRows ncv m)[idx]? = some p) :
    p.1 < m ∧ p.1 ≤ p.2 ∧ p.2 < ncv ∧ idx = upperIndex ncv p.1 p.2 := by
  induction m with
  | zero => simp [pairRows] at h
  | succ m ih =>
    rw [pairRows] at h
    rcases Nat.lt_or_ge idx (pairRows ncv m).length with h1 | h1
    · rw [List.getElem?_append_left h1] at h
      have := ih h
      omega
    · rw [List.getElem?_append_right h1, List.getElem?_map] at h
      rcases Nat.lt_or_ge (idx - (pairRows ncv m).length) (ncv - m) with h2 | h2
      · rw [List.getElem?_range' _ _ h2] at h
        simp at h
        rw [pairRows_length] at h1 h2 h
        subst h
        simp only
        rw [upperIndex_row ncv m (m + _)]
        omega
      · rw [List.getElem?_eq_none (by simpa using h2)] at h
        simp at h

theorem upperIndex_total (ncv m : Nat) (h : m ≤ ncv) :
    2 * upperIndex ncv m m + (ncv - m) * (ncv - m + 1) = ncv * (ncv + 1) := by
  induction m with
  | zero => simp [upperIndex]
  | succ m ih =>
    have ih1 := ih (by omega)
    rw [upperIndex_succ]
    obtain ⟨d, hd⟩ : ∃ d, ncv = m + 1 + d := ⟨ncv - (m + 1), by omega⟩
    have e1 : ncv - (m + 1) = d := by omega
    have e2 : ncv - m = d + 1 := by omega
    rw [e1]
    rw [e2] at ih1 ⊢
    rw [← ih1]
    ring

theorem upperIndex_dimension (ncv : Nat) : upperIndex ncv ncv ncv = ncv * (ncv + 1) / 2 := by
  have := upperIndex_total ncv ncv (le_refl _)
  simp at this
  omega

end Triangle
section Triangle

variable {K : Type}

/-- A loop that writes one entry after the other, with a running position. -/
theorem foldl_write_seq {α : Type} [Zero K] (w : α → K → K) :
    ∀ (l : List α) (vec : List K) (k0 : Nat), k0 + l.length ≤ vec.length →
      ((l.foldl (fun (sv : List K × Nat) p =>
          (sv.1.set sv.2 (w p (sv.1.getD sv.2 0)), sv.2 + 1)) (vec, k0)).1.length = vec.length) ∧
      (∀ q, q < k0 → (l.foldl (fun (sv : List K × Nat) p =>
          (sv.1.set sv.2 (w p (sv.1.getD sv.2 0)), sv.2 + 1)) (vec, k0)).1.getD q 0
            = vec.getD q 0) ∧
      (∀ idx p, l[idx]? = some p → (l.foldl (fun (sv : List K × Nat) p =>
          (sv.1.set sv.2 (w p (sv.1.getD sv.2 0)), sv.2 + 1)) (vec, k0)).1.getD (k0 + idx) 0
            = w p (vec.getD (k0 + idx) 0)) := by
  intro l
  induction l with
  | nil => intro vec k0 _; simp
  | cons a t ih =>
    intro vec k0 hk
    simp only [List.length_cons] at hk
    simp only [List.foldl_cons]
    obtain ⟨h1, h2, h3⟩ := ih (vec.set k0 (w a (vec.getD k0 0))) (k0 + 1)
      (by rw [List.length_set]; omega)
    refine ⟨by rw [h1, List.length_set], ?_, ?_⟩
    · intro q hq
      rw [h2 q (by omega), set_getD _ _ _ _ (by omega), if_neg (by omega)]
    · intro idx p hp
      cases idx with
      | zero =>
        simp only [List.getElem?_cons_zero, Option.some.injEq] at hp
        subst hp
        have e := h2 k0 (by omega)
        rw [set_getD _ _ _ _ (by omega), if_pos rfl] at e
        exact e
      | succ n =>
        simp only [List.getElem?_cons_succ] at hp
        have e := h3 n p hp
        rw [set_getD _ _ _ _ (by omega), if_neg (by omega),
          show k0 + 1 + n = k0 + (n + 1) by omega] at e
        exact e

end Triangle

namespace FlexibleBin

variable {K : Type} [Field K]

/-- The accumulation loop of the running mean: after `m` rounds the first `m`
deviations and means are the new ones, the others untouched. -/
theorem mean_loop (paction : ActionWithArguments K) (decay : K) (av0 : List K) (m : Nat)
    (hm : m ≤ av0.length) :
    ((List.range m).foldl
        (fun (st : List K × (Nat → K)) i =>
          (((st.1.set i (st.1.getD i 0 + decay * Function.update st.2 i
                (paction.difference i (st.1.getD i 0) (paction.getArgument i)) i)).set i
              (paction.bringBackInPbc i
                ((st.1.set i (st.1.getD i 0 + decay * Function.update st.2 i
                  (paction.difference i (st.1.getD i 0) (paction.getArgument i)) i)).getD i 0))),
            Function.update st.2 i
              (paction.difference i (st.1.getD i 0) (paction.getArgument i))))
        (av0, fun _ => 0)).1.length = av0.length ∧
    ∀ q,
      ((List.range m).foldl
        (fun (st : List K × (Nat → K)) i =>
          (((st.1.set i (st.1.getD i 0 + decay * Function.update st.2 i
                (paction.difference i (st.1.getD i 0) (paction.getArgument i)) i)).set i
              (paction.bringBackInPbc i
                ((st.1.set i (st.1.getD i 0 + decay * Function.update st.2 i
                  (paction.difference i (st.1.getD i 0) (paction.getArgument i)) i)).getD i 0))),
            Function.update st.2 i
              (paction.difference i (st.1.getD i 0) (paction.getArgument i))))
        (av0, fun _ => 0)).2 q
        = (if q < m then paction.difference q (av0.getD q 0) (paction.getArgument q) else 0) ∧
      ((List.range m).foldl
        (fun (st : List K × (Nat → K)) i =>
          (((st.1.set i (st.1.getD i 0 + decay * Function.update st.2 i
                (paction.difference i (st.1.getD i 0) (paction.getArgument i)) i)).set i
              (paction.bringBackInPbc i
                ((st.1.set i (st.1.getD i 0 + decay * Function.update st.2 i
                  (paction.difference i (st.1.getD i 0) (paction.getArgument i)) i)).getD i 0))),
            Function.update st.2 i
              (paction.difference i (st.1.getD i 0) (paction.getArgument i))))
        (av0, fun _ => 0)).1.getD q 0
        = (if q < m then
            paction.bringBackInPbc q (av0.getD q 0
              + decay * paction.difference q (av0.getD q 0) (paction.getArgument q))
          else av0.getD q 0) := by
  induction m with
  | zero => simp
  | succ m ih =>
    obtain ⟨h1, h2⟩ := ih (by omega)
    clear ih
    rw [List.range_succ, List.foldl_append]
    simp only [List.foldl_cons, List.foldl_nil]
    generalize List.foldl _ _ (List.range m) = S at h1 h2 ⊢
    have hm1 : m < S.1.length := by omega
    have ha := (h2 m).2
    rw [if_neg (by omega)] at ha
    refine ⟨by simp [h1], ?_⟩
    intro q
    simp only [Function.update_same]
    constructor
    · by_cases hq : q = m
      · subst hq
        rw [ha, if_pos (Nat.lt_succ_self _), Function.update_same]
      · rw [Function.update_noteq hq, (h2 q).1]
        by_cases hlt : q < m
        · simp [hlt, Nat.lt_succ_of_lt hlt]
        · have : ¬ q < m + 1 := by omega
          simp [hlt, this]
    · rw [set_getD _ _ _ _ (by rw [List.length_set]; exact hm1)]
      by_cases hq : q = m
      · subst hq
        rw [if_pos rfl, set_getD _ _ _ _ hm1, if_pos rfl, ha]
        simp
      · rw [if_neg hq, set_getD _ _ _ _ hm1, if_neg hq, (h2 q).2]
        by_cases hlt : q < m
        · simp [hlt, Nat.lt_succ_of_lt hlt]
        · have : ¬ q < m + 1 := by omega
          simp [hlt, this]

end FlexibleBin
namespace FlexibleBin

variable {K : Type} [Field K]

theorem foldl_set_length {α : Type} (f : Nat → α) (l : List Nat) (vec : List α) :
    (l.foldl (fun av i => av.set i (f i)) vec).length = vec.length := by
  induction l generalizing vec with
  | nil => rfl
  | cons a t ih => rw [List.foldl_cons, ih, List.length_set]

theorem resize_length {α : Type} (l : List α) (n : Nat) (x : α) : (resize l n x).length = n := by
  simp [resize]
  omega

/-- On a mean of `ncv` entries, the first half of the diffusion branch. -/
theorem diffusionAverage_eq (fb : FlexibleBin K) (paction : ActionWithArguments K)
    (hav : fb.average.length = paction.getNumberOfArguments) :
    (diffusionAverage fb paction).1.length = paction.getNumberOfArguments ∧
    ∀ q, q < paction.getNumberOfArguments →
      (diffusionAverage fb paction).2 q
        = paction.difference q (fb.average.getD q 0) (paction.getArgument q) ∧
      (diffusionAverage fb paction).1.getD q 0
        = paction.bringBackInPbc q (fb.average.getD q 0
            + 1 / fb.sigma * paction.difference q (fb.average.getD q 0) (paction.getArgument q)) := by
  by_cases h0 : fb.average.length = 0
  · refine ⟨?_, fun q hq => by omega⟩
    simp only [diffusionAverage, h0, if_true]
    rw [foldl_set_length, resize_length]
  · have h := mean_loop paction (1 / fb.sigma) fb.average paction.getNumberOfArguments
      (le_of_eq hav.symm)
    have e : diffusionAverage fb paction = _ := if_neg h0
    rw [e]
    refine ⟨h.1.trans hav, fun q hq => ?_⟩
    have h2 := h.2 q
    rw [if_pos hq, if_pos hq] at h2
    exact h2

/-- On a covariance of `ncv*(ncv+1)/2` entries, the second half of the diffusion
branch. -/
theorem diffusionVariance_eq (fb : FlexibleBin K) (paction : ActionWithArguments K)
    (delta : Nat → K)
    (hvar : fb.variance.length
      = paction.getNumberOfArguments * (paction.getNumberOfArguments + 1) / 2) :
    (diffusionVariance fb paction delta).length
      = paction.getNumberOfArguments * (paction.getNumberOfArguments + 1) / 2 ∧
    ∀ i j, i ≤ j → j < paction.getNumberOfArguments →
      (diffusionVariance fb paction delta).getD (upperIndex paction.getNumberOfArguments i j) 0
        = fb.variance.getD (upperIndex paction.getNumberOfArguments i j) 0
          + 1 / fb.sigma * (delta i * delta j
            - fb.variance.getD (upperIndex paction.getNumberOfArguments i j) 0) := by
  by_cases h0 : fb.variance.length = 0
  · have hn : paction.getNumberOfArguments = 0 := by
      have := upperIndex_total paction.getNumberOfArguments paction.getNumberOfArguments
        (le_refl _)
      rw [upperIndex_dimension, ← hvar, h0] at this
      by_contra hne
      have h1 : 1 ≤ paction.getNumberOfArguments := by omega
      have : 1 * (1 + 1) ≤ paction.getNumberOfArguments * (paction.getNumberOfArguments + 1) :=
        Nat.mul_le_mul h1 (by omega)
      omega
    refine ⟨?_, fun i j _ hj => by omega⟩
    simp only [diffusionVariance, h0, if_true]
    rw [resize_length]
  · have e : diffusionVariance fb paction delta = _ := if_neg h0
    rw [e, nested_pairs (fun i j (sv : List K × Nat) =>
      (sv.1.set sv.2 (sv.1.getD sv.2 0 + 1 / fb.sigma * (delta i * delta j - sv.1.getD sv.2 0)),
        sv.2 + 1))]
    obtain ⟨h1, -, h3⟩ := foldl_write_seq
      (fun (p : Nat × Nat) (v : K) => v + 1 / fb.sigma * (delta p.1 * delta p.2 - v))
      (pairRows paction.getNumberOfArguments paction.getNumberOfArguments) fb.variance 0
      (by rw [pairRows_length, upperIndex_dimension, hvar]; omega)
    refine ⟨h1.trans hvar, fun i j hij hj => ?_⟩
    have := h3 _ _ (pairRows_get paction.getNumberOfArguments paction.getNumberOfArguments
      (show i < paction.getNumberOfArguments by omega) hij hj)
    rw [Nat.zero_add] at this
    exact this

end FlexibleBin

/-! ## Lemmas on the clamping passes -/

namespace FlexibleBin

variable {K : Type} [LinearOrderedField K]

/-- A loop whose round `j` reads and writes entry `j` only acts entry by entry. -/
theorem foldl_entrywise {K : Type} (c : Nat → K → Prop) [∀ j x, Decidable (c j x)]
    (g : Nat → K → K)
    (n : Nat) (ev0 : Nat → K) (q : Nat) :
    (List.range n).foldl
        (fun ev j => if c j (ev j) then Function.update ev j (g j (ev j)) else ev) ev0 q
      = if q < n ∧ c q (ev0 q) then g q (ev0 q) else ev0 q := by
  induction n generalizing q with
  | zero => simp
  | succ n ih =>
    rw [List.range_succ, List.foldl_append]
    simp only [List.foldl_cons, List.foldl_nil]
    have hn := ih n
    rw [if_neg (by omega)] at hn
    rw [hn]
    by_cases hc : c n (ev0 n)
    · rw [if_pos hc]
      by_cases hq : q = n
      · subst hq
        rw [Function.update_same, if_pos ⟨by omega, hc⟩]
      · rw [Function.update_noteq hq, ih q]
        by_cases hlt : q < n
        · simp [hlt, Nat.lt_succ_of_lt hlt]
        · have : ¬ q < n + 1 := by omega
          simp [hlt, this]
    · rw [if_neg hc, ih q]
      by_cases hq : q = n
      · subst hq
        simp [hc]
      · by_cases hlt : q < n
        · simp [hlt, Nat.lt_succ_of_lt hlt]
        · have : ¬ q < n + 1 := by omega
          simp [hlt, this]

/-- The maximum-bound pass of one dimension, entry by entry. -/
theorem clampMaximumStep_apply (fb : FlexibleBin K) (sqrt : K → K) (ncv : Nat)
    (eigenvecs : Nat → Nat → K) (eigenvals : Nat → K) (i j : Nat) :
    clampMaximumStep fb sqrt ncv eigenvecs eigenvals i j
      = if fb.limitmax.getD i false = true ∧ j < ncv ∧
            (eigenvals j * eigenvecs j i) ^ 2 > (fb.sigmamax.getD i 0) ^ 2 then
          sqrt ((fb.sigmamax.getD i 0 / eigenvecs j i) ^ 2) * copysign 1 (eigenvals j)
        else eigenvals j := by
  unfold clampMaximumStep
  by_cases hl : fb.limitmax.getD i false = true
  · rw [if_pos hl]
    rw [foldl_entrywise (fun j x => (x * eigenvecs j i) ^ 2 > (fb.sigmamax.getD i 0) ^ 2)
      (fun j x => sqrt ((fb.sigmamax.getD i 0 / eigenvecs j i) ^ 2) * copysign 1 x)]
    simp only [hl, true_and]
  · rw [if_neg hl, if_neg (fun h => hl h.1)]

/-- What one replacement of the maximum-bound pass does to an eigenvalue `l`
with component `e` under the positive bound `s`. -/
theorem clamp_replacement (sqrt : K → K) (hsqrt : ∀ x : K, sqrt (x ^ 2) = |x|)
    (s e l : K) (hs : 0 < s) (hg : (l * e) ^ 2 > s ^ 2) :
    e ≠ 0 ∧
    (sqrt ((s / e) ^ 2) * copysign 1 l < 0 ↔ l < 0) ∧
    (0 < sqrt ((s / e) ^ 2) * copysign 1 l ↔ 0 < l) ∧
    |sqrt ((s / e) ^ 2) * copysign 1 l| ≤ |l| ∧
    (sqrt ((s / e) ^ 2) * copysign 1 l * e) ^ 2 = s ^ 2 := by
  have he : e ≠ 0 := by
    rintro rfl
    rw [mul_zero] at hg
    nlinarith [sq_nonneg s]
  have hl : l ≠ 0 := by
    rintro rfl
    rw [zero_mul] at hg
    nlinarith [sq_nonneg s]
  have hpos : 0 < |s / e| := abs_pos.mpr (div_ne_zero hs.ne.symm he)
  have habs : |s / e| < |l| := by
    have h1 : |s| < |l * e| := sq_lt_sq.mp hg
    rw [abs_mul] at h1
    rw [abs_div, div_lt_iff₀ (abs_pos.mpr he)]
    exact h1
  rw [hsqrt]
  refine ⟨he, ?_, ?_, ?_, ?_⟩
  · unfold copysign
    by_cases h : l < 0
    · simp only [h, if_true, abs_one, mul_neg, mul_one, iff_true]
      linarith
    · simp only [h, if_false, abs_one, mul_one, iff_false]
      linarith
  · unfold copysign
    by_cases h : l < 0
    · simp only [h, if_true, abs_one, mul_neg, mul_one]
      constructor
      · intro h2; linarith
      · intro h2; linarith
    · simp only [h, if_false, abs_one, mul_one]
      constructor
      · intro _
        exact lt_of_le_of_ne (not_lt.mp h) hl.symm
      · intro _; exact hpos
  · have : |copysign (1 : K) l| = 1 := by
      unfold copysign
      by_cases h : l < 0 <;> simp [h]
    rw [abs_mul, abs_abs, this, mul_one]
    exact habs.le
  · have : (copysign (1 : K) l) ^ 2 = 1 := by
      unfold copysign
      by_cases h : l < 0 <;> simp [h]
    rw [mul_pow, mul_pow, this, mul_one, sq_abs, div_pow, div_mul_cancel₀]
    exact pow_ne_zero 2 he

/-- One dimension of the maximum-bound pass: signs kept, magnitudes not
increased, and the bound of that dimension established. -/
theorem clampMaximumStep_spec (fb : FlexibleBin K) (sqrt : K → K)
    (hsqrt : ∀ x : K, sqrt (x ^ 2) = |x|) (ncv : Nat)
    (eigenvecs : Nat → Nat → K) (eigenvals : Nat → K) (i : Nat)
    (hpos : fb.limitmax.getD i false = true → 0 < fb.sigmamax.getD i 0) :
    (∀ j, (clampMaximumStep fb sqrt ncv eigenvecs eigenvals i j < 0 ↔ eigenvals j < 0) ∧
      (0 < clampMaximumStep fb sqrt ncv eigenvecs eigenvals i j ↔ 0 < eigenvals j) ∧
      |clampMaximumStep fb sqrt ncv eigenvecs eigenvals i j| ≤ |eigenvals j|) ∧
    (fb.limitmax.getD i false = true → ∀ j, j < ncv →
      (clampMaximumStep fb sqrt ncv eigenvecs eigenvals i j * eigenvecs j i) ^ 2
        ≤ (fb.sigmamax.getD i 0) ^ 2) := by
  constructor
  · intro j
    rw [clampMaximumStep_apply]
    by_cases hc : fb.limitmax.getD i false = true ∧ j < ncv ∧
        (eigenvals j * eigenvecs j i) ^ 2 > (fb.sigmamax.getD i 0) ^ 2
    · rw [if_pos hc]
      obtain ⟨-, h1, h2, h3, -⟩ := clamp_replacement sqrt hsqrt _ _ _ (hpos hc.1) hc.2.2
      exact ⟨h1, h2, h3⟩
    · rw [if_neg hc]
      exact ⟨Iff.rfl, Iff.rfl, le_refl _⟩
  · intro hl j hj
    rw [clampMaximumStep_apply]
    by_cases hc : fb.limitmax.getD i false = true ∧ j < ncv ∧
        (eigenvals j * eigenvecs j i) ^ 2 > (fb.sigmamax.getD i 0) ^ 2
    · rw [if_pos hc]
      obtain ⟨-, -, -, -, h4⟩ := clamp_replacement sqrt hsqrt _ _ _ (hpos hc.1) hc.2.2
      exact h4.le
    · rw [if_neg hc]
      have : ¬ (eigenvals j * eigenvecs j i) ^ 2 > (fb.sigmamax.getD i 0) ^ 2 :=
        fun h => hc ⟨hl, hj, h⟩
      exact not_lt.mp this

/-- A squared projection does not grow when the magnitude of the eigenvalue
does not. -/
theorem projection_mono (a b e : K) (h : |a| ≤ |b|) : (a * e) ^ 2 ≤ (b * e) ^ 2 := by
  rw [← sq_abs (a * e), ← sq_abs (b * e), abs_mul, abs_mul]
  exact pow_le_pow_left₀ (mul_nonneg (abs_nonneg _) (abs_nonneg _))
    (mul_le_mul_of_nonneg_right h (abs_nonneg _)) 2

/-- The maximum-bound pass over the first `m` dimensions. -/
theorem clampMaximum_prefix (fb : FlexibleBin K) (sqrt : K → K)
    (hsqrt : ∀ x : K, sqrt (x ^ 2) = |x|) (ncv : Nat)
    (eigenvecs : Nat → Nat → K) (eigenvals : Nat → K) (m : Nat)
    (hpos : ∀ i, i < m → fb.limitmax.getD i false = true → 0 < fb.sigmamax.getD i 0) :
    (∀ j,
      ((List.range m).foldl (fun ev i => clampMaximumStep fb sqrt ncv eigenvecs ev i)
          eigenvals j < 0 ↔ eigenvals j < 0) ∧
      (0 < (List.range m).foldl (fun ev i => clampMaximumStep fb sqrt ncv eigenvecs ev i)
          eigenvals j ↔ 0 < eigenvals j) ∧
      |(List.range m).foldl (fun ev i => clampMaximumStep fb sqrt ncv eigenvecs ev i)
          eigenvals j| ≤ |eigenvals j|) ∧
    (∀ i, i < m → fb.limitmax.getD i false = true → ∀ j, j < ncv →
      ((List.range m).foldl (fun ev i => clampMaximumStep fb sqrt ncv eigenvecs ev i)
          eigenvals j * eigenvecs j i) ^ 2 ≤ (fb.sigmamax.getD i 0) ^ 2) := by
  induction m with
  | zero =>
    refine ⟨fun j => ⟨Iff.rfl, Iff.rfl, le_refl _⟩, fun i hi => by omega⟩
  | succ m ih =>
    obtain ⟨h1, h2⟩ := ih (fun i hi => hpos i (by omega))
    clear ih
    rw [List.range_succ, List.foldl_append]
    simp only [List.foldl_cons, List.foldl_nil]
    generalize List.foldl _ _ (List.range m) = S at h1 h2 ⊢
    obtain ⟨s1, s2⟩ := clampMaximumStep_spec fb sqrt hsqrt ncv eigenvecs S m (hpos m (by omega))
    constructor
    · intro j
      exact ⟨(s1 j).1.trans (h1 j).1, (s1 j).2.1.trans (h1 j).2.1,
        (s1 j).2.2.trans (h1 j).2.2⟩
    · intro i hi hl j hj
      rcases Nat.lt_or_ge i m with h | h
      · exact (projection_mono _ _ _ (s1 j).2.2).trans (h2 i h hl j hj)
      · have : i = m := by omega
        subst this
        exact s2 hl j hj

/-- What the body of the loop of the constructor does to the maximum bounds. -/
theorem limitStep_max (fb : FlexibleBin K) (i : Nat) :
    (limitStep fb i).limitmax = fb.limitmax ++ [decide (fb.sigmamax.getD i 0 > 0)] ∧
    (limitStep fb i).sigmamax
      = if fb.sigmamax.getD i 0 > 0 then
          fb.sigmamax.set i (fb.sigmamax.getD i 0 * fb.sigmamax.getD i 0)
        else fb.sigmamax := by
  unfold limitStep
  simp only [List.getD_eq_getElem?_getD]
  by_cases h1 : fb.sigmamin[i]?.getD 0 > 0 <;> by_cases h2 : fb.sigmamax[i]?.getD 0 > 0 <;>
    simp [h1, h2]

/-- The loop of the constructor over the first `m` arguments. -/
theorem construct_loop (fb0 : FlexibleBin K) (h0 : fb0.limitmax = []) (m : Nat) :
    ((List.range m).foldl limitStep fb0).limitmax.length = m ∧
    ∀ i, i < m → ((List.range m).foldl limitStep fb0).limitmax.getD i false = true →
      0 < ((List.range m).foldl limitStep fb0).sigmamax.getD i 0 := by
  induction m with
  | zero => exact ⟨by simp [h0], fun i hi => by omega⟩
  | succ m ih =>
    obtain ⟨h1, h2⟩ := ih
    rw [List.range_succ, List.foldl_append]
    simp only [List.foldl_cons, List.foldl_nil]
    generalize List.foldl limitStep fb0 (List.range m) = S at h1 h2 ⊢
    obtain ⟨e1, e2⟩ := limitStep_max S m
    rw [e1, e2]
    refine ⟨by simp [h1], fun i hi hl => ?_⟩
    rcases Nat.lt_or_ge i m with h | h
    · rw [List.getD_append _ _ _ _ (by omega)] at hl
      have hp := h2 i h hl
      by_cases hc : S.sigmamax.getD m 0 > 0
      · rw [if_pos hc, List.getD_eq_getElem?_getD, List.getElem?_set_ne (by omega),
          ← List.getD_eq_getElem?_getD]
        exact hp
      · rw [if_neg hc]; exact hp
    · have : i = m := by omega
      subst this
      rw [List.getD_append_right _ _ _ _ (by omega), h1, Nat.sub_self] at hl
      simp only [List.getD_cons_zero, decide_eq_true_eq] at hl
      rw [if_pos hl]
      have hlen : i < S.sigmamax.length := by
        by_contra hlen
        rw [List.getD_eq_default _ _ (by omega)] at hl
        exact lt_irrefl _ hl
      rw [List.getD_eq_getElem?_getD, List.getElem?_set_self hlen]
      exact mul_pos hl hl

/-- The constructor switches a maximum limit on only for a positive bound, and
then stores a positive value. -/
theorem construct_limitmax (type : AdaptiveHillsType) (ncv : Nat) (d : K)
    (smin smax : List K) (i : Nat) (hi : i < ncv)
    (hl : (construct type ncv d smin smax).limitmax.getD i false = true) :
    0 < (construct type ncv d smin smax).sigmamax.getD i 0 :=
  (construct_loop _ rfl ncv).2 i hi hl

end FlexibleBin
namespace FlexibleBin

variable {K : Type} [LinearOrderedField K]

/-- The search loop over the first `n` eigenvectors: before any round the pair
is the initial one; afterwards it holds the first index of the largest squared
projection and that projection. -/
theorem largestProjection_loop (eigenvecs : Nat → Nat → K) (eigenvals : Nat → K) (i n : Nat) :
    (n = 0 → largestProjection n eigenvecs eigenvals i = (0, -1e10)) ∧
    (0 < n →
      (largestProjection n eigenvecs eigenvals i).1 < n ∧
      (largestProjection n eigenvecs eigenvals i).2
        = (eigenvals (largestProjection n eigenvecs eigenvals i).1
            * eigenvecs (largestProjection n eigenvecs eigenvals i).1 i) ^ 2 ∧
      (∀ j, j < n → (eigenvals j * eigenvecs j i) ^ 2
        ≤ (largestProjection n eigenvecs eigenvals i).2) ∧
      (∀ j, j < (largestProjection n eigenvecs eigenvals i).1 →
        (eigenvals j * eigenvecs j i) ^ 2 < (largestProjection n eigenvecs eigenvals i).2)) := by
  induction n with
  | zero => exact ⟨fun _ => rfl, fun h => by omega⟩
  | succ n ih =>
    refine ⟨fun h => by omega, fun _ => ?_⟩
    have hstep : largestProjection (n + 1) eigenvecs eigenvals i
        = if (eigenvals n * eigenvecs n i) ^ 2 > (largestProjection n eigenvecs eigenvals i).2
          then (n, (eigenvals n * eigenvecs n i) ^ 2)
          else largestProjection n eigenvecs eigenvals i := by
      unfold largestProjection
      rw [List.range_succ, List.foldl_append]
      rfl
    rw [hstep]
    rcases Nat.eq_zero_or_pos n with h0 | h0
    · subst h0
      have hneg : (-1e10 : K) < 0 := by norm_num
      rw [ih.1 rfl, if_pos (lt_of_lt_of_le hneg (sq_nonneg _))]
      refine ⟨by omega, rfl, fun j hj => ?_, fun j hj => by simp at hj⟩
      have : j = 0 := by omega
      subst this
      exact le_refl _
    · obtain ⟨a1, a2, a3, a4⟩ := ih.2 h0
      by_cases hc : (eigenvals n * eigenvecs n i) ^ 2
          > (largestProjection n eigenvecs eigenvals i).2
      · rw [if_pos hc]
        refine ⟨by simp, rfl, fun j hj => ?_, fun j hj => ?_⟩
        · rcases Nat.lt_or_ge j n with h | h
          · exact (a3 j h).trans hc.le
          · have : j = n := by omega
            subst this
            exact le_refl _
        · exact lt_of_le_of_lt (a3 j hj) hc
      · rw [if_neg hc]
        refine ⟨by omega, a2, fun j hj => ?_, a4⟩
        rcases Nat.lt_or_ge j n with h | h
        · exact a3 j h
        · have : j = n := by omega
          subst this
          exact not_lt.mp hc

end FlexibleBin

/-! ## Lemmas on the rebuilt matrix and its inverse -/

namespace FlexibleBin

variable {K : Type} [LinearOrderedField K]

theorem placeEntry_apply (variance : List K) (mk : (Nat → Nat → K) × Nat) (i j a b : Nat) :
    (placeEntry variance mk i j).1 a b
      = if (a = i ∧ b = j) ∨ (a = j ∧ b = i) then variance.getD mk.2 0 else mk.1 a b := by
  unfold placeEntry
  by_cases h1 : a = j <;> by_cases h2 : b = i <;> by_cases h3 : a = i <;> by_cases h4 : b = j <;>
    simp [Function.update_apply, *] <;> simp_all

theorem placeEntry_count (variance : List K) :
    ∀ (l : List (Nat × Nat)) (mk : (Nat → Nat → K) × Nat),
      (l.foldl (fun mk p => placeEntry variance mk p.1 p.2) mk).2 = mk.2 + l.length := by
  intro l
  induction l with
  | nil => intro mk; rfl
  | cons c t ih =>
    intro mk
    rw [List.foldl_cons, ih, List.length_cons]
    simp only [placeEntry]
    omega

theorem placeEntry_frame (variance : List K) :
    ∀ (l : List (Nat × Nat)) (mk : (Nat → Nat → K) × Nat) (a b : Nat),
      (∀ p, p ∈ l → ¬ ((a = p.1 ∧ b = p.2) ∨ (a = p.2 ∧ b = p.1))) →
      (l.foldl (fun mk p => placeEntry variance mk p.1 p.2) mk).1 a b = mk.1 a b := by
  intro l
  induction l with
  | nil => intro mk a b _; rfl
  | cons c t ih =>
    intro mk a b h
    rw [List.foldl_cons, ih _ a b (fun p hp => h p (List.mem_cons_of_mem _ hp)),
      placeEntry_apply, if_neg (h c (List.mem_cons_self _ _))]

theorem placeEntry_hit (variance : List K) :
    ∀ (l : List (Nat × Nat)) (mk : (Nat → Nat → K) × Nat) (idx a b : Nat),
      l[idx]? = some (a, b) →
      (∀ idx' p, idx < idx' → l[idx']? = some p →
        ¬ ((a = p.1 ∧ b = p.2) ∨ (a = p.2 ∧ b = p.1))) →
      (l.foldl (fun mk p => placeEntry variance mk p.1 p.2) mk).1 a b
          = variance.getD (mk.2 + idx) 0 ∧
      (l.foldl (fun mk p => placeEntry variance mk p.1 p.2) mk).1 b a
          = variance.getD (mk.2 + idx) 0 := by
  intro l
  induction l with
  | nil => intro mk idx a b h; simp at h
  | cons c t ih =>
    intro mk idx a b h hlater
    rw [List.foldl_cons]
    cases idx with
    | zero =>
      simp only [List.getElem?_cons_zero, Option.some.injEq] at h
      subst h
      have hfree : ∀ p, p ∈ t → ¬ ((a = p.1 ∧ b = p.2) ∨ (a = p.2 ∧ b = p.1)) := by
        intro p hp
        obtain ⟨n, hn⟩ := List.getElem?_of_mem hp
        exact hlater (n + 1) p (by omega) (by simpa using hn)
      have hfree2 : ∀ p, p ∈ t → ¬ ((b = p.1 ∧ a = p.2) ∨ (b = p.2 ∧ a = p.1)) := by
        intro p hp hq
        exact hfree p hp (by tauto)
      rw [placeEntry_frame variance t _ a b hfree, placeEntry_frame variance t _ b a hfree2,
        placeEntry_apply, placeEntry_apply]
      simp
    | succ n =>
      simp only [List.getElem?_cons_succ] at h
      have := ih (placeEntry variance mk c.1 c.2) n a b h
        (fun idx' p hlt hp => hlater (idx' + 1) p (by omega) (by simpa using hp))
      have e : (placeEntry variance mk c.1 c.2).2 + n = mk.2 + (n + 1) := by
        simp only [placeEntry]; omega
      rw [e] at this
      exact this

/-- The rebuilt matrix is symmetric and holds the stored upper triangle. -/
theorem fullMatrix_entry (variance : List K) (ncv : Nat) {i j : Nat} (hij : i ≤ j)
    (hj : j < ncv) :
    fullMatrix variance ncv i j = variance.getD (upperIndex ncv i j) 0 ∧
    fullMatrix variance ncv j i = variance.getD (upperIndex ncv i j) 0 := by
  unfold fullMatrix
  rw [nested_pairs (fun i j (mk : (Nat → Nat → K) × Nat) => placeEntry variance mk i j)]
  have := placeEntry_hit variance (pairRows ncv ncv) (fun _ _ => 0, 0) (upperIndex ncv i j) i j
    (pairRows_get ncv ncv (by omega) hij hj)
    (by
      intro idx' p hlt hp hhit
      obtain ⟨-, q2, -, q4⟩ := pairRows_inv ncv ncv hp
      rcases hhit with ⟨h1, h2⟩ | ⟨h1, h2⟩
      · rw [← h1, ← h2] at q4; omega
      · have e1 : i = j := by omega
        rw [← h1, ← h2, ← e1] at q4
        rw [← e1] at hlt
        omega)
  simp only [Nat.zero_add] at this
  exact this

theorem foldl_add_range (f : Nat → K) (n : Nat) :
    (List.range n).foldl (fun s l => s + f l) 0 = ∑ l in Finset.range n, f l := by
  induction n with
  | zero => simp
  | succ n ih => rw [List.range_succ, List.foldl_append, ih, Finset.sum_range_succ]; rfl

/-- The returned entries: the upper triangle of the sum over the eigenvectors. -/
theorem inverseFromEigen_entry (ncv : Nat) (eigenvecs : Nat → Nat → K) (eigenvals : Nat → K) :
    (inverseFromEigen ncv eigenvecs eigenvals).length = ncv * (ncv + 1) / 2 ∧
    ∀ i j, i ≤ j → j < ncv →
      (inverseFromEigen ncv eigenvecs eigenvals).getD (upperIndex ncv i j) 0
        = ∑ l in Finset.range ncv, eigenvecs l i * eigenvecs l j / eigenvals l := by
  have key := nested_pairs (fun i j (uk : List K × Nat) =>
    (uk.1.set uk.2 ((List.range ncv).foldl
      (fun scal l => scal + eigenvecs l i *
        (List.range ncv).foldl
          (fun nm i => (List.range ncv).foldl
            (fun nm j => Function.update nm j
              (Function.update (nm j) i (eigenvecs j i / eigenvals j))) nm)
          (fun _ _ => 0) l j) (0 : K)), uk.2 + 1)) ncv ncv
    (List.replicate (ncv * (ncv + 1) / 2) (0 : K), 0)
  have e : inverseFromEigen ncv eigenvecs eigenvals = _ := congrArg Prod.fst key
  rw [e]
  obtain ⟨h1, -, h3⟩ := foldl_write_seq
    (fun (p : Nat × Nat) (_ : K) => (List.range ncv).foldl
      (fun scal l => scal + eigenvecs l p.1 *
        (List.range ncv).foldl
          (fun nm i => (List.range ncv).foldl
            (fun nm j => Function.update nm j
              (Function.update (nm j) i (eigenvecs j i / eigenvals j))) nm)
          (fun _ _ => 0) l p.2) (0 : K))
    (pairRows ncv ncv) (List.replicate (ncv * (ncv + 1) / 2) (0 : K)) 0
    (by rw [pairRows_length, upperIndex_dimension, List.length_replicate]; omega)
  refine ⟨h1.trans (List.length_replicate _ _), fun i j hij hj => ?_⟩
  have := h3 _ _ (pairRows_get ncv ncv (Nat.lt_of_le_of_lt hij hj) hij hj)
  rw [Nat.zero_add] at this
  rw [this, foldl_add_range]
  refine Finset.sum_congr rfl (fun l hl => ?_)
  rw [foldl_assign_block (fun j i => eigenvecs j i / eigenvals j),
    if_pos ⟨Finset.mem_range.mp hl, hj⟩, mul_div_assoc]

theorem foldl_fixed {σ ι : Type} (f : σ → ι → σ) (l : List ι) (s : σ)
    (h : ∀ i, i ∈ l → ∀ s, f s i = s) : l.foldl f s = s := by
  induction l with
  | nil => rfl
  | cons a t ih =>
    rw [List.foldl_cons, h a (List.mem_cons_self _ _), ih (fun i hi => h i (List.mem_cons_of_mem _ hi))]

/-- Without bounds the two clamping passes leave the eigenvalues alone. -/
theorem clamp_without_bounds (fb : FlexibleBin K) (sqrt : K → K) (ncv : Nat)
    (eigenvecs : Nat → Nat → K) (eigenvals : Nat → K)
    (hnomin : ∀ i, i < ncv → fb.limitmin.getD i false = false)
    (hnomax : ∀ i, i < ncv → fb.limitmax.getD i false = false) :
    clampMinimum fb sqrt ncv eigenvecs (clampMaximum fb sqrt ncv eigenvecs eigenvals)
      = eigenvals := by
  have e1 : clampMaximum fb sqrt ncv eigenvecs eigenvals = eigenvals := by
    unfold clampMaximum
    apply foldl_fixed
    intro i hi s
    unfold clampMaximumStep
    rw [hnomax i (List.mem_range.mp hi)]
    rfl
  rw [e1]
  unfold clampMinimum
  apply foldl_fixed
  intro i hi s
  unfold clampMinimumStep
  rw [hnomin i (List.mem_range.mp hi)]
  rfl

/-- Orthonormal eigenvectors with non-zero eigenvalues give the inverse. -/
theorem eigen_inverse (n : Nat) (M E : Nat → Nat → K) (ev : Nat → K)
    (hortho : ∀ l l', l < n → l' < n →
      ∑ i in Finset.range n, E l i * E l' i = if l = l' then 1 else 0)
    (heig : ∀ l i, l < n → i < n → ∑ j in Finset.range n, M i j * E l j = ev l * E l i)
    (hne : ∀ l, l < n → ev l ≠ 0) :
    (Matrix.of fun (a b : Fin n) => M a b)
      * (Matrix.of fun (a b : Fin n) => ∑ l in Finset.range n, E l a * E l b / ev l) = 1 := by
  have hEE : (Matrix.of fun (l i : Fin n) => E l i) * (Matrix.of fun (i l : Fin n) => E l i)
      = 1 := by
    ext l l'
    rw [Matrix.mul_apply]
    simp only [Matrix.of_apply]
    rw [Fin.sum_univ_eq_sum_range (fun i => E l i * E l' i) n, hortho l l' l.2 l'.2,
      Matrix.one_apply]
    simp only [Fin.ext_iff]
  have hEE2 := Matrix.mul_eq_one_comm.mp hEE
  ext a b
  have hab := congrFun (congrFun hEE2 a) b
  rw [Matrix.mul_apply] at hab
  simp only [Matrix.of_apply] at hab
  rw [Fin.sum_univ_eq_sum_range (fun l => E l a * E l b) n] at hab
  rw [Matrix.mul_apply]
  simp only [Matrix.of_apply]
  rw [Fin.sum_univ_eq_sum_range
    (fun c => M a c * ∑ l in Finset.range n, E l c * E l b / ev l) n, ← hab]
  simp only [Finset.mul_sum]
  rw [Finset.sum_comm]
  refine Finset.sum_congr rfl (fun l hl => ?_)
  have hl2 := Finset.mem_range.mp hl
  have h1 : ∀ c, M a c * (E l c * E l b / ev l) = (M a c * E l c) * (E l b / ev l) := by
    intro c; ring
  simp only [h1]
  rw [← Finset.sum_mul, heig l a hl2 a.2]
  field_simp [hne l hl2]
  ring

end FlexibleBin

/-! ## Lemmas on the tagging of the weight derivatives -/

namespace WeightedAtomAverage

variable {K : Type} [Field K]

/-- One deposit of a derivative with the recording of its index: what the tape
holds afterwards. -/
theorem deposit_spec (mv : MultiValue K) (s idx : Nat) (d : K) :
    ((mv.addDerivative s idx d).updateIndex s idx).values = mv.values ∧
    (∀ t q, ((mv.addDerivative s idx d).updateIndex s idx).derivatives t q
      = mv.derivatives t q + if t = s ∧ q = idx then d else 0) ∧
    (∀ t, t ≠ s → ((mv.addDerivative s idx d).updateIndex s idx).active t = mv.active t) ∧
    idx ∈ ((mv.addDerivative s idx d).updateIndex s idx).active s ∧
    (∀ t x, x ∈ mv.active t → x ∈ ((mv.addDerivative s idx d).updateIndex s idx).active t) := by
  have hd : ∀ t q, (mv.addDerivative s idx d).derivatives t q
      = mv.derivatives t q + if t = s ∧ q = idx then d else 0 := by
    intro t q
    simp only [MultiValue.addDerivative, Function.update_apply]
    by_cases ht : t = s
    · subst ht
      rw [if_pos rfl, addTo_apply_add]
      by_cases hq : q = idx <;> simp [hq]
    · simp [ht]
  by_cases hmem : idx ∈ mv.active s
  · have e : (mv.addDerivative s idx d).updateIndex s idx = mv.addDerivative s idx d := by
      unfold MultiValue.updateIndex
      rw [if_pos (by simpa [MultiValue.addDerivative] using hmem)]
    rw [e]
    exact ⟨rfl, hd, fun t _ => rfl, hmem, fun t x hx => hx⟩
  · have e : (mv.addDerivative s idx d).updateIndex s idx
        = { mv.addDerivative s idx d with
            active := Function.update mv.active s (mv.active s ++ [idx]) } := by
      unfold MultiValue.updateIndex
      rw [if_neg (by simpa [MultiValue.addDerivative] using hmem)]
      rfl
    rw [e]
    refine ⟨rfl, hd, fun t ht => ?_, ?_, fun t x hx => ?_⟩
    · simp only [Function.update_apply, if_neg ht]
    · simp only [Function.update_same]
      exact List.mem_append_right _ (List.mem_singleton_self _)
    · simp only [Function.update_apply]
      by_cases ht : t = s
      · subst ht
        rw [if_pos rfl]
        exact List.mem_append_left _ hx
      · rw [if_neg ht]; exact hx

/-- The loop over the numerators for one active index. -/
theorem numerator_loop (a : WeightedAtomAverage K) (idx : Nat) (c : K) (n : Nat)
    (mv : MultiValue K) :
    ((List.range n).foldl
        (fun mv2 j => a.addDerivative j idx (c * mv2.get (a.myx + j)) mv2) mv).values
      = mv.values ∧
    (∀ t q, ((List.range n).foldl
        (fun mv2 j => a.addDerivative j idx (c * mv2.get (a.myx + j)) mv2) mv).derivatives t q
      = mv.derivatives t q
        + if (a.myx ≤ t ∧ t < a.myx + n) ∧ q = idx then c * mv.values t else 0) ∧
    (∀ t, ¬ (a.myx ≤ t ∧ t < a.myx + n) → ((List.range n).foldl
        (fun mv2 j => a.addDerivative j idx (c * mv2.get (a.myx + j)) mv2) mv).active t
      = mv.active t) ∧
    (∀ t, a.myx ≤ t → t < a.myx + n → idx ∈ ((List.range n).foldl
        (fun mv2 j => a.addDerivative j idx (c * mv2.get (a.myx + j)) mv2) mv).active t) ∧
    (∀ t x, x ∈ mv.active t → x ∈ ((List.range n).foldl
        (fun mv2 j => a.addDerivative j idx (c * mv2.get (a.myx + j)) mv2) mv).active t) := by
  induction n with
  | zero =>
    refine ⟨rfl, fun t q => ?_, fun t _ => rfl, fun t h1 h2 => by omega, fun t x hx => hx⟩
    rw [if_neg (by omega)]
    simp
  | succ n ih =>
    obtain ⟨i1, i2, i3, i4, i5⟩ := ih
    rw [List.range_succ, List.foldl_append]
    simp only [List.foldl_cons, List.foldl_nil]
    generalize List.foldl _ mv (List.range n) = S at i1 i2 i3 i4 i5 ⊢
    obtain ⟨d1, d2, d3, d4, d5⟩ := deposit_spec S (a.myx + n) idx (c * S.get (a.myx + n))
    unfold addDerivative
    refine ⟨d1.trans i1, fun t q => ?_, fun t ht => ?_, fun t h1 h2 => ?_,
      fun t x hx => d5 t x (i5 t x hx)⟩
    · rw [d2, i2]
      have hv : S.get (a.myx + n) = mv.values (a.myx + n) := by
        unfold MultiValue.get; rw [i1]
      rw [hv]
      by_cases ht : t = a.myx + n
      · subst ht
        by_cases hq : q = idx
        · simp [hq]
        · simp [hq]
      · by_cases hq : q = idx
        · by_cases hr : a.myx ≤ t ∧ t < a.myx + n
          · have : a.myx ≤ t ∧ t < a.myx + (n + 1) := by omega
            simp [hq, hr, this, ht]
          · have : ¬ (a.myx ≤ t ∧ t < a.myx + (n + 1)) := by omega
            simp [hq, hr, this, ht]
        · simp [hq]
    · rw [d3 t (by omega), i3 t (by omega)]
    · by_cases ht : t = a.myx + n
      · subst ht; exact d4
      · exact d5 t idx (i4 t h1 (by omega))

end WeightedAtomAverage
namespace WeightedAtomAverage

variable {K : Type} [Field K]

/-- The loop of `performTask` over the first `m` active derivatives of the
upstream weight, read at stash `istrn`: every tape gains, at the shifted index
of each of them, the derivative itself on the denominator and the scaled
numerator value on the numerators. -/
theorem tag_loop (a : WeightedAtomAverage K) (ntmp base istrn : Nat) (invw : K)
    (mv0 : MultiValue K)
    (hsx : ¬ (a.myx ≤ istrn ∧ istrn < a.myx + ntmp)) (hsw : istrn ≠ a.myw) (m : Nat) :
    ∃ S : MultiValue K,
      (List.range m).foldl
        (fun mv k =>
          ((((List.range ntmp).foldl
              (fun mv2 j => a.addDerivative j (base + mv.getActiveIndex istrn k)
                (mv.getDerivative istrn (mv.getActiveIndex istrn k) * invw
                  * mv2.get (a.myx + j)) mv2) mv).addDerivative a.myw
              (base + mv.getActiveIndex istrn k)
              (mv.getDerivative istrn (mv.getActiveIndex istrn k))).updateIndex a.myw
            (base + mv.getActiveIndex istrn k)))
        mv0 = S ∧
      S.values = mv0.values ∧ S.active istrn = mv0.active istrn ∧
      (∀ t q, S.derivatives t q = mv0.derivatives t q
        + ∑ k in Finset.range m,
            if q = base + mv0.getActiveIndex istrn k then
              (if t = a.myw then mv0.getDerivative istrn (mv0.getActiveIndex istrn k) else 0)
              + (if a.myx ≤ t ∧ t < a.myx + ntmp then
                  mv0.getDerivative istrn (mv0.getActiveIndex istrn k) * invw * mv0.values t
                else 0)
            else 0) ∧
      (∀ k, k < m → ∀ t, (t = a.myw ∨ (a.myx ≤ t ∧ t < a.myx + ntmp)) →
        base + mv0.getActiveIndex istrn k ∈ S.active t) := by
  induction m with
  | zero => exact ⟨mv0, rfl, rfl, rfl, fun t q => by simp, fun k hk => by omega⟩
  | succ m ih =>
    obtain ⟨S, hS, i1, i2, i3, i4⟩ := ih
    rw [List.range_succ, List.foldl_append, hS]
    simp only [List.foldl_cons, List.foldl_nil]
    have hidx : S.getActiveIndex istrn m = mv0.getActiveIndex istrn m := by
      unfold MultiValue.getActiveIndex; rw [i2]
    have hder : ∀ q, S.getDerivative istrn q = mv0.getDerivative istrn q := by
      intro q
      unfold MultiValue.getDerivative
      rw [i3 istrn q]
      simp [hsw, hsx]
    rw [hidx, hder]
    obtain ⟨n1, n2, n3, n4, n5⟩ := numerator_loop a (base + mv0.getActiveIndex istrn m)
      (mv0.getDerivative istrn (mv0.getActiveIndex istrn m) * invw) ntmp S
    generalize List.foldl _ S (List.range ntmp) = T at n1 n2 n3 n4 n5 ⊢
    obtain ⟨d1, d2, d3, d4, d5⟩ := deposit_spec T a.myw (base + mv0.getActiveIndex istrn m)
      (mv0.getDerivative istrn (mv0.getActiveIndex istrn m))
    refine ⟨_, rfl, d1.trans (n1.trans i1), ?_, fun t q => ?_, fun k hk t ht => ?_⟩
    · rw [d3 istrn hsw, n3 istrn hsx, i2]
    · rw [d2, n2, i3, Finset.sum_range_succ, i1]
      by_cases hq : q = base + mv0.getActiveIndex istrn m
      · simp only [hq, and_true, if_true]
        ring
      · simp only [hq, and_false, if_false]
        ring
    · rcases Nat.lt_or_ge k m with h | h
      · exact d5 t _ (n5 t _ (i4 k h t ht))
      · have : k = m := by omega
        subst this
        rcases ht with ht | ht
        · subst ht; exact d4
        · exact d5 t _ (n4 t ht.1 ht.2)

end WeightedAtomAverage

/-! ## Lemmas on the direction of the deposited gradients -/

namespace SphericalHarmonic

variable {K : Type} [Field K]

theorem dot_add (a b d : Vector K) : (a.add b).dot d = a.dot d + b.dot d := by
  simp only [Vector.dot, Vector.add]
  ring

theorem dot_smul (s : K) (a d : Vector K) : (Vector.smul s a).dot d = s * a.dot d := by
  simp only [Vector.dot, Vector.smul]
  ring

theorem dot_zero (d : Vector K) : (Vector.zero : Vector K).dot d = 0 := by
  simp [Vector.dot, Vector.zero]

/-- The Quantities whose gradient has no component along `d` are closed under
sums. -/
theorem sum_dot (d : Vector K) {ι : Type} (s : Finset ι) (f : ι → Quantity K)
    (h : ∀ j, j ∈ s → (f j).deriv.dot d = 0) : (∑ j in s, f j).deriv.dot d = 0 := by
  refine Finset.sum_induction f (fun q => q.deriv.dot d = 0) ?_ ?_ h
  · intro a b ha hb
    show (a + b).deriv.dot d = 0
    rw [Quantity.add_deriv, dot_add, ha, hb, add_zero]
  · show (0 : Quantity K).deriv.dot d = 0
    rw [Quantity.zero_deriv, dot_zero]

/-- The vector `dz`, the gradient of `z/r`, has no component along the distance. -/
theorem gradZ_dot (sqrt : K → K) (d : Vector K) (hd : d.modulo2 ≠ 0)
    (hs : sqrt d.modulo2 ≠ 0) : (gradZ sqrt d).dot d = 0 := by
  have hd2 : d.x * d.x + d.y * d.y + d.z * d.z ≠ 0 := hd
  simp only [gradZ, Vector.dot, Vector.smul, Vector.modulo2] at hs ⊢
  field_simp
  ring

/-- The gradient of the complex power, real parts: no component along the
distance. -/
theorem real_power_dot (sqrt : K → K) (d : Vector K) (hd : d.modulo2 ≠ 0)
    (hs : sqrt d.modulo2 ≠ 0) (sh : SphericalHarmonic K) (val : K) (dz : Vector K)
    (com1 powered : complex K) (m : Nat) (hz : dz.dot d = 0) :
    (realDeposit sh val d (sqrt d.modulo2) (d.modulo2 * sqrt d.modulo2) dz com1 powered
      m).deriv.dot d = 0 := by
  have hd2 : d.x * d.x + d.y * d.y + d.z * d.z ≠ 0 := hd
  simp only [realDeposit]
  rw [dot_add, dot_smul, dot_smul, hz, mul_zero, zero_add]
  simp only [Vector.modulo2] at hs
  simp only [Vector.dot, Vector.modulo2, complex.mul, complex.smul, complex.realSub,
    complex.mulReal, complex.divReal, complex.subReal, complex.sub]
  field_simp
  ring

/-- The gradient of the complex power, imaginary parts: no component along the
distance. -/
theorem imag_power_dot (sqrt : K → K) (d : Vector K) (hd : d.modulo2 ≠ 0)
    (hs : sqrt d.modulo2 ≠ 0) (sh : SphericalHarmonic K) (val : K) (dz : Vector K)
    (com1 powered : complex K) (m : Nat) (hz : dz.dot d = 0) :
    (imagDeposit sh val d (sqrt d.modulo2) (d.modulo2 * sqrt d.modulo2) dz com1 powered
      m).deriv.dot d = 0 := by
  have hd2 : d.x * d.x + d.y * d.y + d.z * d.z ≠ 0 := hd
  simp only [imagDeposit]
  rw [dot_add, dot_smul, dot_smul, hz, mul_zero, zero_add]
  simp only [Vector.modulo2] at hs
  simp only [Vector.dot, Vector.modulo2, complex.mul, complex.smul, complex.realSub,
    complex.mulReal, complex.divReal, complex.subReal, complex.sub]
  field_simp
  ring

theorem scale_dot (s : K) (q : Quantity K) (d : Vector K) (h : q.deriv.dot d = 0) :
    (Quantity.scale s q).deriv.dot d = 0 := by
  simp only [Quantity.scale]
  rw [dot_smul, h, mul_zero]

/-- Everything one round deposits at an index has a gradient without component
along the distance. -/
theorem roundDeposit_dot (sqrt : K → K) (d : Vector K) (hd : d.modulo2 ≠ 0)
    (hs : sqrt d.modulo2 ≠ 0) (sh : SphericalHarmonic K) (val : K)
    (com1 powered : complex K) (m i : Nat) :
    (roundDeposit sh val d (sqrt d.modulo2) (d.modulo2 * sqrt d.modulo2) (gradZ sqrt d)
      com1 powered m i).deriv.dot d = 0 := by
  have hz := gradZ_dot sqrt d hd hs
  have hr := real_power_dot sqrt d hd hs sh val (gradZ sqrt d) com1 powered m hz
  have hi := imag_power_dot sqrt d hd hs sh val (gradZ sqrt d) com1 powered m hz
  unfold roundDeposit
  simp only [Quantity.add_deriv, dot_add]
  have h0 : (0 : Quantity K).deriv.dot d = 0 := by rw [Quantity.zero_deriv, dot_zero]
  have e1 : (if i = sh.tmom + m then realDeposit sh val d (sqrt d.modulo2)
      (d.modulo2 * sqrt d.modulo2) (gradZ sqrt d) com1 powered m else 0).deriv.dot d = 0 := by
    split_ifs
    · exact hr
    · exact h0
  have e2 : (if i = 3 * sh.tmom + 1 + m then imagDeposit sh val d (sqrt d.modulo2)
      (d.modulo2 * sqrt d.modulo2) (gradZ sqrt d) com1 powered m else 0).deriv.dot d = 0 := by
    split_ifs
    · exact hi
    · exact h0
  have e3 : (if i = sh.tmom - m then Quantity.scale ((-1) ^ m) (realDeposit sh val d
      (sqrt d.modulo2) (d.modulo2 * sqrt d.modulo2) (gradZ sqrt d) com1 powered m)
      else 0).deriv.dot d = 0 := by
    split_ifs
    · exact scale_dot _ _ _ hr
    · exact h0
  have e4 : (if i = 3 * sh.tmom + 1 - m then Quantity.scale (-(-1) ^ m) (imagDeposit sh val d
      (sqrt d.modulo2) (d.modulo2 * sqrt d.modulo2) (gradZ sqrt d) com1 powered m)
      else 0).deriv.dot d = 0 := by
    split_ifs
    · exact scale_dot _ _ _ hi
    · exact h0
  rw [e1, e2, e3, e4]
  simp

/-- The deposit for `m = 0` has a gradient without component along the
distance. -/
theorem zeroDeposit_dot (sqrt : K → K) (d : Vector K) (hd : d.modulo2 ≠ 0)
    (hs : sqrt d.modulo2 ≠ 0) (sh : SphericalHarmonic K) (val : K) :
    (zeroDeposit sqrt sh val d).deriv.dot d = 0 := by
  have hz := gradZ_dot sqrt d hd hs
  have e : (zeroDeposit sqrt sh val d).deriv
      = Vector.smul (val * (sh.deriv_poly 0 (d.z / sqrt d.modulo2)).2) (gradZ sqrt d) := rfl
  rw [e, dot_smul, hz, mul_zero]

/-- What a call of `compute` adds to a component has a gradient without
component along the distance. -/
theorem compute_dot (sqrt : K → K) (d : Vector K) (hd : d.modulo2 ≠ 0)
    (hs : sqrt d.modulo2 ≠ 0) (sh : SphericalHarmonic K) (val : K)
    (t0 : Nat → Quantity K) (i : Nat) :
    ((compute SymmetryFunctionBase.accumulate sqrt sh val d t0 i).sub (t0 i)).deriv.dot d
      = 0 := by
  rw [compute_apply, add_assoc, Quantity.add_sub_self, Quantity.add_deriv, dot_add,
    sum_dot d _ _ (fun j _ => roundDeposit_dot sqrt d hd hs sh val _ _ _ _), add_zero]
  split_ifs
  · exact zeroDeposit_dot sqrt d hd hs sh val
  · rw [Quantity.zero_deriv, dot_zero]

end SphericalHarmonic
namespace SphericalHarmonic

section Direction

variable {K : Type} [Field K]

theorem sum_range_value (f : Nat → Quantity K) (n : Nat) :
    (∑ j in Finset.range n, f j).value = ∑ j in Finset.range n, (f j).value
    ∧ (∑ j in Finset.range n, f j).wderiv = ∑ j in Finset.range n, (f j).wderiv := by
  induction n with
  | zero => exact ⟨rfl, rfl⟩
  | succ n ih =>
    rw [Finset.sum_range_succ, Finset.sum_range_succ, Finset.sum_range_succ,
      Quantity.add_value, Quantity.add_wderiv, ih.1, ih.2]
    exact ⟨rfl, rfl⟩

/-- The value and the weight derivative one round deposits depend on the
distance through `z/r`, `com1` and `powered` only. -/
theorem roundDeposit_value_congr (sh : SphericalHarmonic K) (val : K) (D E : Vector K)
    (dlen elen dlen3 elen3 : K) (dz ez : Vector K) (com1 powered : complex K) (m i : Nat)
    (h : D.z / dlen = E.z / elen) :
    (roundDeposit sh val D dlen dlen3 dz com1 powered m i).value
      = (roundDeposit sh val E elen elen3 ez com1 powered m i).value
    ∧ (roundDeposit sh val D dlen dlen3 dz com1 powered m i).wderiv
      = (roundDeposit sh val E elen elen3 ez com1 powered m i).wderiv := by
  simp only [roundDeposit, Quantity.add_value, Quantity.add_wderiv, apply_ite Quantity.value,
    apply_ite Quantity.wderiv, Quantity.zero_value, Quantity.zero_wderiv, Quantity.scale,
    realDeposit, imagDeposit, h, and_self]

/-- The value and the weight derivative of the deposit for `m = 0` depend on the
distance through `z/r` only. -/
theorem zeroDeposit_value_congr (sqrt : K → K) (sh : SphericalHarmonic K) (val : K)
    (D E : Vector K) (h : D.z / sqrt D.modulo2 = E.z / sqrt E.modulo2) :
    (zeroDeposit sqrt sh val D).value = (zeroDeposit sqrt sh val E).value
    ∧ (zeroDeposit sqrt sh val D).wderiv = (zeroDeposit sqrt sh val E).wderiv := by
  simp only [zeroDeposit, h, and_self]

end Direction

/-- Over the reals the length of a stretched distance is the stretched length. -/
theorem sqrt_modulo2_smul (s : ℝ) (hs : 0 < s) (d : Vector ℝ) :
    Real.sqrt (Vector.smul s d).modulo2 = s * Real.sqrt d.modulo2 := by
  have e : (Vector.smul s d).modulo2 = s ^ 2 * d.modulo2 := by
    simp only [Vector.smul, Vector.modulo2]
    ring
  rw [e, Real.sqrt_mul (sq_nonneg s), Real.sqrt_sq hs.le]

/-- Over the reals what `compute` adds to the value and to the weight derivative
of a component is the same for a distance and for its positive multiples. -/
theorem compute_stretch (sh : SphericalHarmonic ℝ) (val : ℝ) (d : Vector ℝ) (s : ℝ)
    (hs : 0 < s) (t0 : Nat → Quantity ℝ) (i : Nat) :
    ((compute SymmetryFunctionBase.accumulate Real.sqrt sh val (Vector.smul s d) t0 i).sub
        (t0 i)).value
      = ((compute SymmetryFunctionBase.accumulate Real.sqrt sh val d t0 i).sub (t0 i)).value
    ∧ ((compute SymmetryFunctionBase.accumulate Real.sqrt sh val (Vector.smul s d) t0 i).sub
        (t0 i)).wderiv
      = ((compute SymmetryFunctionBase.accumulate Real.sqrt sh val d t0 i).sub
        (t0 i)).wderiv := by
  have hz : (Vector.smul s d).z / Real.sqrt (Vector.smul s d).modulo2
      = d.z / Real.sqrt d.modulo2 := by
    rw [sqrt_modulo2_smul s hs]
    exact mul_div_mul_left _ _ hs.ne.symm
  have hc : unitXY Real.sqrt (Vector.smul s d) = unitXY Real.sqrt d := by
    unfold unitXY
    rw [sqrt_modulo2_smul s hs]
    have hx : (Vector.smul s d).x / (s * Real.sqrt d.modulo2) = d.x / Real.sqrt d.modulo2 :=
      mul_div_mul_left _ _ hs.ne.symm
    have hy : (Vector.smul s d).y / (s * Real.sqrt d.modulo2) = d.y / Real.sqrt d.modulo2 :=
      mul_div_mul_left _ _ hs.ne.symm
    rw [hx, hy]
  rw [compute_apply, compute_apply, add_assoc, add_assoc, Quantity.add_sub_self,
    Quantity.add_sub_self, hc]
  simp only [Quantity.add_value, Quantity.add_wderiv, apply_ite Quantity.value,
    apply_ite Quantity.wderiv, Quantity.zero_value, Quantity.zero_wderiv]
  rw [(sum_range_value _ _).1, (sum_range_value _ _).2, (sum_range_value _ _).1,
    (sum_range_value _ _).2, (zeroDeposit_value_congr Real.sqrt sh val _ _ hz).1,
    (zeroDeposit_value_congr Real.sqrt sh val _ _ hz).2]
  constructor
  · congr 1
    exact Finset.sum_congr rfl (fun j _ => (roundDeposit_value_congr sh val _ _ _ _ _ _ _ _
      _ _ _ _ hz).1)
  · congr 1
    exact Finset.sum_congr rfl (fun j _ => (roundDeposit_value_congr sh val _ _ _ _ _ _ _ _
      _ _ _ _ hz).2)

end SphericalHarmonic

/-! ## The claims -/

namespace WeightedAtomAverage

variable {K : Type} [Field K]

/-- C1. Let the module's buffer region start at zero and let
`gatherForVirtualAtom` run once for every tape of a task list, the tapes being
well formed for the buffer layout (blocks of positive width `nspace`; with
derivatives switched on every active derivative index fits into its block).
Then `transformFinalValueAndDerivatives` returns and leaves in `final_vals[i]`,
for every `i` below the number `n` of stored quantities, the sum of the tapes'
values at stash `myx + i` divided by the sum of their weights at stash
`myx + n`, the total weight being non-zero. When every tape holds its weight
`w` at stash `myx + n` and `w * x i` at stash `myx + i`, this is the weighted
average: the sum of `w * x i` divided by the sum of `w`. -/
theorem weighted_average_value (a : WeightedAtomAverage K) (h : Host K)
    (tapes : List (MultiValue K)) (buffer : Nat → K)
    (hs : 1 ≤ a.nspace)
    (hzero : ∀ p, a.bufstart ≤ p →
      p < a.bufstart + (h.getNumberOfStoredQuantities + 1) * a.nspace → buffer p = 0)
    (hidx : h.doNotCalculateDerivatives = false →
      ∀ t ∈ tapes, ∀ j, j ≤ h.getNumberOfStoredQuantities →
        ∀ d ∈ t.active (a.myx + j), d + 1 < a.nspace)
    (_hw : (tapes.map (fun t => t.get (a.myx + h.getNumberOfStoredQuantities))).sum ≠ 0) :
    ∃ a2, transformFinalValueAndDerivatives a h
          (tapes.foldl (fun b t => gatherForVirtualAtom a h t b) buffer) = Except.ok a2
      ∧ (∀ i, i < h.getNumberOfStoredQuantities →
          a2.final_vals i
            = (tapes.map (fun t => t.get (a.myx + i))).sum
              / (tapes.map (fun t => t.get (a.myx + h.getNumberOfStoredQuantities))).sum)
      ∧ (∀ (w : MultiValue K → K) (x : MultiValue K → Nat → K),
          (∀ t ∈ tapes, t.get (a.myx + h.getNumberOfStoredQuantities) = w t
            ∧ ∀ i, i < h.getNumberOfStoredQuantities → t.get (a.myx + i) = w t * x t i) →
          ∀ i, i < h.getNumberOfStoredQuantities →
            a2.final_vals i
              = (tapes.map (fun t => w t * x t i)).sum / (tapes.map w).sum) := by
  obtain ⟨a2, hok, hv, -, -⟩ := transformFinalValueAndDerivatives_eq a h
    (tapes.foldl (fun b t => gatherForVirtualAtom a h t b) buffer)
  have hz : ∀ j, j ≤ h.getNumberOfStoredQuantities → buffer (a.bufstart + j * a.nspace) = 0 := by
    intro j hj
    apply hzero
    · omega
    · have h1 : j * a.nspace + a.nspace ≤ (h.getNumberOfStoredQuantities + 1) * a.nspace := by
        rw [← Nat.succ_mul]
        exact Nat.mul_le_mul_right _ (by omega)
      omega
  have hfin : ∀ i, i < h.getNumberOfStoredQuantities →
      a2.final_vals i
        = (tapes.map (fun t => t.get (a.myx + i))).sum
          / (tapes.map (fun t => t.get (a.myx + h.getNumberOfStoredQuantities))).sum := by
    intro i hi
    rw [hv i, if_pos hi,
      gather_all_value_slot a h tapes buffer i hs (Nat.le_of_lt hi) hidx,
      gather_all_value_slot a h tapes buffer _ hs (Nat.le_refl _) hidx,
      hz i (Nat.le_of_lt hi), hz _ (Nat.le_refl _), zero_add, zero_add]
  refine ⟨a2, hok, hfin, ?_⟩
  intro w x hwx i hi
  rw [hfin i hi,
    List.map_congr_left (fun t ht => (hwx t ht).2 i hi),
    List.map_congr_left (fun t ht => (hwx t ht).1)]

/-- C1 on the worked configuration: the three tapes gathered into an empty
buffer finalize to the centre of mass `(1/2, 1/4, 0)`. -/
theorem weighted_average_value_witness :
    ∃ a2, transformFinalValueAndDerivatives Sample.average Sample.host Sample.gathered
        = Except.ok a2
      ∧ a2.final_vals 0 = 1 / 2 ∧ a2.final_vals 1 = 1 / 4 ∧ a2.final_vals 2 = 0 := by
  obtain ⟨a2, hok, hv, -⟩ :=
    weighted_average_value Sample.average Sample.host Sample.tapes (fun _ => 0)
      (by decide) (fun _ _ _ => rfl) (by decide)
      (by simp [Sample.tapes, Sample.tape, Sample.average, Sample.host, MultiValue.get]; norm_num)
  refine ⟨a2, hok, ?_, ?_, ?_⟩
  · rw [hv 0 (by decide)]
    simp [Sample.tapes, Sample.tape, Sample.average, Sample.host, MultiValue.get]
    norm_num
  · rw [hv 1 (by decide)]
    simp [Sample.tapes, Sample.tape, Sample.average, Sample.host, MultiValue.get]
    norm_num
  · rw [hv 2 (by decide)]
    simp [Sample.tapes, Sample.tape, Sample.average, Sample.host, MultiValue.get]

/-- C2. With derivatives switched on and a non-zero accumulated weight `W`,
`transformFinalValueAndDerivatives` returns, and for every stored quantity `j`
and every derivative slot `k` below the number of derivatives what it hands to
the closing rule satisfies
`final_deriv[j][k] - final_vals[j] * weight_deriv[k] = dN/W - N * dW / W^2`,
where `N`, `dN`, `W`, `dW` are the buffer entries of the value and of slot `k`
of block `j` and of the weight block. -/
theorem quotient_rule_derivative (a : WeightedAtomAverage K) (h : Host K)
    (buffer : Nat → K) (j k : Nat)
    (hd : h.doNotCalculateDerivatives = false)
    (hj : j < h.getNumberOfStoredQuantities) (hk : k < h.getNumberOfDerivatives)
    (hw : buffer (a.bufstart + h.getNumberOfStoredQuantities * a.nspace) ≠ 0) :
    ∃ a2, transformFinalValueAndDerivatives a h buffer = Except.ok a2
      ∧ a2.final_deriv j k - a2.final_vals j * a2.weight_deriv k
          = buffer (a.bufstart + j * a.nspace + 1 + k)
              / buffer (a.bufstart + h.getNumberOfStoredQuantities * a.nspace)
            - buffer (a.bufstart + j * a.nspace)
              * buffer (a.bufstart + h.getNumberOfStoredQuantities * a.nspace + 1 + k)
              / buffer (a.bufstart + h.getNumberOfStoredQuantities * a.nspace) ^ 2 := by
  obtain ⟨a2, hok, hv, hder, -⟩ := transformFinalValueAndDerivatives_eq a h buffer
  obtain ⟨hfd, hwd⟩ := hder hd
  refine ⟨a2, hok, ?_⟩
  rw [hfd j k, hv j, hwd k, if_pos ⟨hj, hk⟩, if_pos hj, if_pos hk]
  field_simp
  ring

/-- C2 on the worked configuration: for the `x` component and the `x`
coordinate of the second atom the quotient rule gives `1/2`. -/
theorem quotient_rule_derivative_witness :
    ∃ a2, transformFinalValueAndDerivatives Sample.average Sample.host Sample.gathered
        = Except.ok a2
      ∧ a2.final_deriv 0 3 - a2.final_vals 0 * a2.weight_deriv 3 = 1 / 2 := by
  obtain ⟨a2, hok, hq⟩ :=
    quotient_rule_derivative Sample.average Sample.host Sample.gathered 0 3 rfl
      (by decide) (by decide)
      (by
        show Sample.gathered 30 ≠ 0
        rw [sample_gathered_weight]
        norm_num)
  refine ⟨a2, hok, ?_⟩
  rw [hq]
  show Sample.gathered 4 / Sample.gathered 30 - Sample.gathered 0 * Sample.gathered 34
    / Sample.gathered 30 ^ 2 = 1 / 2
  rw [sample_gathered_weight, sample_gathered_x, sample_gathered_dx, sample_gathered_dw]
  norm_num

/-- C3, the claim fails. On the empty buffer the accumulated total weight of the
worked configuration is zero, and `transformFinalValueAndDerivatives` raises no
error: it returns a module. -/
theorem zero_weight_not_reported :
    (fun _ : Nat => (0 : ℚ)) (Sample.average.bufstart
        + Sample.host.getNumberOfStoredQuantities * Sample.average.nspace) = 0
    ∧ (¬ ∃ e, transformFinalValueAndDerivatives Sample.average Sample.host (fun _ => 0)
        = Except.error e)
    ∧ ∃ a2, transformFinalValueAndDerivatives Sample.average Sample.host (fun _ => 0)
        = Except.ok a2 := by
  obtain ⟨a2, hok, -⟩ :=
    transformFinalValueAndDerivatives_eq Sample.average Sample.host (fun _ => 0)
  refine ⟨rfl, ?_, ⟨a2, hok⟩⟩
  rintro ⟨e, he⟩
  rw [hok] at he
  cases he

/-- C3, as amended. `transformFinalValueAndDerivatives` never looks at the size
of the accumulated total weight: for every buffer, one with zero total weight
included, it returns normally and raises no error. -/
theorem transformFinalValueAndDerivatives_never_fails (a : WeightedAtomAverage K) (h : Host K)
    (buffer : Nat → K) :
    (∃ a2, transformFinalValueAndDerivatives a h buffer = Except.ok a2)
      ∧ ∀ e, transformFinalValueAndDerivatives a h buffer ≠ Except.error e := by
  obtain ⟨a2, hok, -⟩ := transformFinalValueAndDerivatives_eq a h buffer
  refine ⟨⟨a2, hok⟩, ?_⟩
  intro e he
  rw [hok] at he
  cases he

/-- C6. For a tape whose active-index lists have no repeated index,
`gatherForVirtualAtom` changes the slot `p` of the buffer by exactly the
deposits addressed to `p`: the value of stash `myx + i` for every block
`i = 0..n` with `p = bufstart + i * nspace`, and with derivatives switched on
the derivative of stash `myx + i` with respect to `d` for every active index
`d` with `p = bufstart + i * nspace + 1 + d`. Hence a slot that no deposit
addresses keeps its value. The last block, `i = n`, is the weight: after
`setStashIndices` the stash index `myx + n` is `myw`. -/
theorem gatherForVirtualAtom_frame (a : WeightedAtomAverage K) (h : Host K)
    (myvals : MultiValue K) (buffer : Nat → K)
    (hnodup : ∀ i, i ≤ h.getNumberOfStoredQuantities → (myvals.active (a.myx + i)).Nodup) :
    (∀ p, gatherForVirtualAtom a h myvals buffer p
      = buffer p
        + (∑ i in Finset.range (h.getNumberOfStoredQuantities + 1),
            if p = a.bufstart + i * a.nspace then myvals.get (a.myx + i) else 0)
        + (if h.doNotCalculateDerivatives then 0
           else ∑ i in Finset.range (h.getNumberOfStoredQuantities + 1),
              ∑ d in (myvals.active (a.myx + i)).toFinset,
                if p = a.bufstart + i * a.nspace + 1 + d
                then myvals.getDerivative (a.myx + i) d else 0))
    ∧ (∀ p, (∀ i, i ≤ h.getNumberOfStoredQuantities → p ≠ a.bufstart + i * a.nspace) →
        (h.doNotCalculateDerivatives = false →
          ∀ i, i ≤ h.getNumberOfStoredQuantities → ∀ d ∈ myvals.active (a.myx + i),
            p ≠ a.bufstart + i * a.nspace + 1 + d) →
        gatherForVirtualAtom a h myvals buffer p = buffer p)
    ∧ (∀ nquants, (setStashIndices a h nquants).1.myx + h.getNumberOfStoredQuantities
        = (setStashIndices a h nquants).1.myw) := by
  have hsum : ∀ p, gatherForVirtualAtom a h myvals buffer p
      = buffer p
        + (∑ i in Finset.range (h.getNumberOfStoredQuantities + 1),
            if p = a.bufstart + i * a.nspace then myvals.get (a.myx + i) else 0)
        + (if h.doNotCalculateDerivatives then 0
           else ∑ i in Finset.range (h.getNumberOfStoredQuantities + 1),
              ∑ d in (myvals.active (a.myx + i)).toFinset,
                if p = a.bufstart + i * a.nspace + 1 + d
                then myvals.getDerivative (a.myx + i) d else 0) := by
    intro p
    rw [gatherForVirtualAtom_apply, sum_map_range, sum_map_range]
    congr 1
    cases h.doNotCalculateDerivatives
    · simp only [Bool.false_eq_true, if_false]
      apply Finset.sum_congr rfl
      intro i hi
      rw [Finset.mem_range] at hi
      rw [List.sum_toFinset _ (hnodup i (by omega))]
    · simp
  refine ⟨hsum, ?_, ?_⟩
  · intro p hv hdv
    rw [hsum p]
    have h1 : (∑ i in Finset.range (h.getNumberOfStoredQuantities + 1),
        if p = a.bufstart + i * a.nspace then myvals.get (a.myx + i) else 0) = 0 := by
      apply Finset.sum_eq_zero
      intro i hi
      rw [Finset.mem_range] at hi
      rw [if_neg (hv i (by omega))]
    have h2 : (if h.doNotCalculateDerivatives then (0 : K)
        else ∑ i in Finset.range (h.getNumberOfStoredQuantities + 1),
          ∑ d in (myvals.active (a.myx + i)).toFinset,
            if p = a.bufstart + i * a.nspace + 1 + d
            then myvals.getDerivative (a.myx + i) d else 0) = 0 := by
      cases hd : h.doNotCalculateDerivatives
      · simp only [Bool.false_eq_true, if_false]
        apply Finset.sum_eq_zero
        intro i hi
        rw [Finset.mem_range] at hi
        apply Finset.sum_eq_zero
        intro d hdm
        rw [List.mem_toFinset] at hdm
        rw [if_neg (hdv hd i (by omega) d hdm)]
      · simp
    rw [h1, h2, add_zero, add_zero]
  · intro nquants
    rfl

/-- The statement of C6 on the tape of the second atom of the worked
configuration and an empty buffer. -/
theorem gatherForVirtualAtom_frame_witness :
    (∀ p, gatherForVirtualAtom Sample.average Sample.host (Sample.tape 1 2 ⟨1, 0, 0⟩)
          (fun _ => 0) p
      = (fun _ : Nat => (0 : ℚ)) p
        + (∑ i in Finset.range (Sample.host.getNumberOfStoredQuantities + 1),
            if p = Sample.average.bufstart + i * Sample.average.nspace
            then (Sample.tape 1 2 ⟨1, 0, 0⟩).get (Sample.average.myx + i) else 0)
        + (if Sample.host.doNotCalculateDerivatives then 0
           else ∑ i in Finset.range (Sample.host.getNumberOfStoredQuantities + 1),
              ∑ d in ((Sample.tape 1 2 ⟨1, 0, 0⟩).active (Sample.average.myx + i)).toFinset,
                if p = Sample.average.bufstart + i * Sample.average.nspace + 1 + d
                then (Sample.tape 1 2 ⟨1, 0, 0⟩).getDerivative (Sample.average.myx + i) d
                else 0))
    ∧ (∀ p, (∀ i, i ≤ Sample.host.getNumberOfStoredQuantities →
          p ≠ Sample.average.bufstart + i * Sample.average.nspace) →
        (Sample.host.doNotCalculateDerivatives = false →
          ∀ i, i ≤ Sample.host.getNumberOfStoredQuantities →
            ∀ d ∈ (Sample.tape 1 2 ⟨1, 0, 0⟩).active (Sample.average.myx + i),
              p ≠ Sample.average.bufstart + i * Sample.average.nspace + 1 + d) →
        gatherForVirtualAtom Sample.average Sample.host (Sample.tape 1 2 ⟨1, 0, 0⟩)
          (fun _ => 0) p = (fun _ : Nat => (0 : ℚ)) p)
    ∧ (∀ nquants,
        (setStashIndices Sample.average Sample.host nquants).1.myx
            + Sample.host.getNumberOfStoredQuantities
          = (setStashIndices Sample.average Sample.host nquants).1.myw) :=
  gatherForVirtualAtom_frame Sample.average Sample.host (Sample.tape 1 2 ⟨1, 0, 0⟩)
    (fun _ => 0) (by decide)

/-- C7. Let every row `val_deriv[j]`, `j` below the length of the force vector
`fff`, exist and have the length of `val_forces` (the sizes `getSizeOfBuffer`
sets). Then `applyForcesToValue` keeps the length of `val_forces` and leaves in
`val_forces[k]` the sum over `j` of `fff[j] * val_deriv[j][k]`; the outcome is
the same whatever `val_forces` held before. -/
theorem applyForcesToValue_forces (a : WeightedAtomAverage K) (fff : List K)
    (hrows : ∀ j, j < fff.length →
      ∃ row, a.val_deriv[j]? = some row ∧ row.length = a.val_forces.length) :
    (applyForcesToValue a fff).val_forces.length = a.val_forces.length
    ∧ (∀ k, k < a.val_forces.length →
        (applyForcesToValue a fff).val_forces.getD k 0
          = ∑ j in Finset.range fff.length, fff.getD j 0 * (a.val_deriv.getD j []).getD k 0)
    ∧ (∀ old : List K, old.length = a.val_forces.length →
        (applyForcesToValue { a with val_forces := old } fff).val_forces
          = (applyForcesToValue a fff).val_forces) := by
  have hrow : ∀ j, j < fff.length →
      (a.val_deriv.getD j []).length = (List.replicate a.val_forces.length (0 : K)).length := by
    intro j hj
    obtain ⟨row, hr, hlen⟩ := hrows j hj
    rw [List.getD_eq_getElem?_getD, hr]
    simpa using hlen
  obtain ⟨hl, hq⟩ := list_addTo_rows
    (fun j k => fff.getD j 0 * (a.val_deriv.getD j []).getD k 0)
    (fun j => (a.val_deriv.getD j []).length) fff.length
    (List.replicate a.val_forces.length (0 : K)) hrow
  refine ⟨?_, ?_, ?_⟩
  · unfold applyForcesToValue
    simpa using hl
  · intro k hk
    unfold applyForcesToValue
    have := hq k (by simpa using hk)
    simp only [] at this ⊢
    rw [this]
    simp [List.getD_eq_getElem?_getD, hk]
  · intro old hold
    unfold applyForcesToValue
    simp only [hold]

/-- The statement of C7 on the chained module of the worked configuration with
the force `(1, 2, 3)`. -/
theorem applyForcesToValue_forces_witness :
    (applyForcesToValue Sample.chained [1, 2, 3]).val_forces.length
        = Sample.chained.val_forces.length
    ∧ (∀ k, k < Sample.chained.val_forces.length →
        (applyForcesToValue Sample.chained [1, 2, 3]).val_forces.getD k 0
          = ∑ j in Finset.range ([1, 2, 3] : List ℚ).length,
              ([1, 2, 3] : List ℚ).getD j 0 * (Sample.chained.val_deriv.getD j []).getD k 0)
    ∧ (∀ old : List ℚ, old.length = Sample.chained.val_forces.length →
        (applyForcesToValue { Sample.chained with val_forces := old } [1, 2, 3]).val_forces
          = (applyForcesToValue Sample.chained [1, 2, 3]).val_forces) :=
  applyForcesToValue_forces Sample.chained [1, 2, 3] (by
    intro j hj
    have hj3 : j < 3 := hj
    interval_cases j <;> simp [Sample.chained, Sample.average])

end WeightedAtomAverage

/-- C9. On the first `prepareForTasks` call of a mass-weighted average an error
is raised if and only if some contributing atom has a NaN mass, and the error
is the masses-not-known configuration error; when every mass is known the call
returns the module with nothing but `first` changed. -/
theorem WeightedAtomAverage.prepareForTasks_masses {K : Type}
    (a : WeightedAtomAverage K) (h : Host K)
    (hfirst : a.first = true) (hmass : a.weight_mass = true) :
    ((∃ e, prepareForTasks a h = Except.error e)
        ↔ ∃ i, i < h.getNumberOfAtoms ∧ h.isnanMass i = true)
    ∧ ((∃ i, i < h.getNumberOfAtoms ∧ h.isnanMass i = true) →
        prepareForTasks a h = Except.error Fault.massesNotKnown)
    ∧ ((∀ i, i < h.getNumberOfAtoms → h.isnanMass i = false) →
        prepareForTasks a h = Except.ok { a with first := false }) := by
  rw [prepareForTasks_first_mass a h hfirst hmass]
  have hany : (List.range h.getNumberOfAtoms).any h.isnanMass = true
      ↔ ∃ i, i < h.getNumberOfAtoms ∧ h.isnanMass i = true := by
    simp [List.any_eq_true]
  refine ⟨?_, ?_, ?_⟩
  · constructor
    · rintro ⟨e, he⟩
      by_cases hc : (List.range h.getNumberOfAtoms).any h.isnanMass = true
      · exact hany.mp hc
      · rw [if_neg hc] at he; cases he
    · intro hex
      exact ⟨Fault.massesNotKnown, by rw [if_pos (hany.mpr hex)]⟩
  · intro hex
    rw [if_pos (hany.mpr hex)]
  · intro hall
    have hc : ¬ (List.range h.getNumberOfAtoms).any h.isnanMass = true := by
      rw [hany]
      rintro ⟨i, hi, hn⟩
      rw [hall i hi] at hn
      cases hn
    rw [if_neg hc]

/-- The statement of C9 on the worked configuration. -/
theorem WeightedAtomAverage.prepareForTasks_masses_witness :
    ((∃ e, prepareForTasks Sample.average Sample.host = Except.error e)
        ↔ ∃ i, i < Sample.host.getNumberOfAtoms ∧ Sample.host.isnanMass i = true)
    ∧ ((∃ i, i < Sample.host.getNumberOfAtoms ∧ Sample.host.isnanMass i = true) →
        prepareForTasks Sample.average Sample.host = Except.error Fault.massesNotKnown)
    ∧ ((∀ i, i < Sample.host.getNumberOfAtoms → Sample.host.isnanMass i = false) →
        prepareForTasks Sample.average Sample.host
          = Except.ok { Sample.average with first := false }) :=
  prepareForTasks_masses Sample.average Sample.host rfl rfl

/-- C10. For a charge-weighted average and a host that has not supplied
charges, `prepareForTasks` raises the charges-not-known configuration error on
the first step, and `performTask` raises the charges-unset error for every
task, every tape and every per-task `compute`, on the first step or later. -/
theorem WeightedAtomAverage.charges_unset_fails {K : Type} [LinearOrderedField K]
    (a : WeightedAtomAverage K) (h : Host K)
    (hmass : a.weight_mass = false) (hcharge : a.weight_charge = true)
    (hunset : h.chargesWereSet = false) :
    (a.first = true → prepareForTasks a h = Except.error Fault.chargesNotKnown)
    ∧ ∀ (epsilon : K) (compute : Nat → K → Vector K → MultiValue K → MultiValue K)
        (task_index : Nat) (myvals : MultiValue K),
        performTask a h epsilon compute task_index myvals = Except.error Fault.chargesUnset := by
  refine ⟨?_, ?_⟩
  · intro hfirst
    unfold prepareForTasks
    simp [hfirst, hmass, hcharge, hunset, bind, Except.bind]
  · intro epsilon compute task_index myvals
    unfold performTask
    simp [hmass, hcharge, hunset, bind, Except.bind]

/-- The statement of C10 on the worked configuration weighted by charge. -/
theorem WeightedAtomAverage.charges_unset_fails_witness :
    (Sample.chargeAverage.first = true →
      WeightedAtomAverage.prepareForTasks Sample.chargeAverage Sample.host
        = Except.error Fault.chargesNotKnown)
    ∧ ∀ (epsilon : ℚ) (compute : Nat → ℚ → Vector ℚ → MultiValue ℚ → MultiValue ℚ)
        (task_index : Nat) (myvals : MultiValue ℚ),
        WeightedAtomAverage.performTask Sample.chargeAverage Sample.host epsilon compute
          task_index myvals = Except.error Fault.chargesUnset :=
  WeightedAtomAverage.charges_unset_fails Sample.chargeAverage Sample.host rfl rfl rfl

/-- C5, the claim fails. For the order `L = 0` the constructor raises the
unsupported-order error: the table of Legendre coefficients starts at order
one. -/
theorem SphericalHarmonic.order_zero_unsupported :
    (∀ sh, SphericalHarmonic.construct Real.sqrt Real.pi 0 ≠ Except.ok sh)
    ∧ SphericalHarmonic.construct Real.sqrt Real.pi 0 = Except.error Fault.unsupportedOrder := by
  have h : SphericalHarmonic.construct Real.sqrt Real.pi 0
      = Except.error Fault.unsupportedOrder := by
    simp [SphericalHarmonic.construct]
  refine ⟨?_, h⟩
  intro sh hsh
  rw [h] at hsh
  cases hsh

/-- C5, as amended. The constructor succeeds, with a table of `L + 1` Legendre
coefficients and `L + 1` normalization constants installed, for every order
`L` in `1..6`, and raises the unsupported-order error for `L = 0` and for
every `L` above six. -/
theorem SphericalHarmonic.construct_supported_orders {K : Type} [Field K]
    (sqrt : K → K) (pi : K) (L : Nat) :
    (1 ≤ L ∧ L ≤ 6 →
      ∃ sh, SphericalHarmonic.construct sqrt pi L = Except.ok sh ∧ sh.tmom = L
        ∧ sh.coeff_poly.length = L + 1 ∧ sh.normaliz.length = L + 1)
    ∧ (L = 0 ∨ 7 ≤ L →
      SphericalHarmonic.construct sqrt pi L = Except.error Fault.unsupportedOrder) := by
  constructor
  · rintro ⟨h1, h6⟩
    interval_cases L <;> simp [SphericalHarmonic.construct]
  · intro h
    have h1 : L ≠ 1 := by omega
    have h2 : L ≠ 2 := by omega
    have h3 : L ≠ 3 := by omega
    have h4 : L ≠ 4 := by omega
    have h5 : L ≠ 5 := by omega
    have h6 : L ≠ 6 := by omega
    simp [SphericalHarmonic.construct, h1, h2, h3, h4, h5, h6]

namespace SphericalHarmonic

variable {K : Type} [Field K]

/-- C4. For every module, so for every constructed order `L = tmom`, every `m`
with `1 ≤ m ≤ L`, every direction vector, every input weight and every tape:
what `compute` deposits at index `L - m` is `(-1)^m` times what it deposits at
index `L + m`, and what it deposits at index `3L + 1 - m` is `-(-1)^m` times
what it deposits at index `3L + 1 + m`; a deposit is the change of the
component, and the multiple is taken of the value, of each of the three
gradient components and of the weight derivative. -/
theorem conjugate_symmetry (sqrt : K → K) (sh : SphericalHarmonic K) (val : K)
    (distance : Vector K) (t0 : Nat → Quantity K) (m : Nat) (hm1 : 1 ≤ m)
    (hm2 : m ≤ sh.tmom) :
    ((compute SymmetryFunctionBase.accumulate sqrt sh val distance t0 (sh.tmom - m)).sub
        (t0 (sh.tmom - m))
      = Quantity.scale ((-1) ^ m)
          ((compute SymmetryFunctionBase.accumulate sqrt sh val distance t0 (sh.tmom + m)).sub
            (t0 (sh.tmom + m))))
    ∧ ((compute SymmetryFunctionBase.accumulate sqrt sh val distance t0
          (3 * sh.tmom + 1 - m)).sub (t0 (3 * sh.tmom + 1 - m))
      = Quantity.scale (-(-1) ^ m)
          ((compute SymmetryFunctionBase.accumulate sqrt sh val distance t0
            (3 * sh.tmom + 1 + m)).sub (t0 (3 * sh.tmom + 1 + m)))) := by
  rw [compute_real_minus sqrt sh val distance t0 m hm1 hm2,
    compute_real_plus sqrt sh val distance t0 m hm1 hm2,
    compute_imag_minus sqrt sh val distance t0 m hm1 hm2,
    compute_imag_plus sqrt sh val distance t0 m hm1 hm2]
  simp only [Quantity.add_sub_self, and_self]


/-- The statement of C4 on a module of order two over the rationals, for
`m = 1`, the direction `(1, 2, 2)` and the input weight `3`. -/
theorem conjugate_symmetry_witness :
    ((compute SymmetryFunctionBase.accumulate Sample.sqrt Sample.harmonic 3 ⟨1, 2, 2⟩
          (fun _ => 0) (Sample.harmonic.tmom - 1)).sub
        ((fun _ => 0 : Nat → Quantity ℚ) (Sample.harmonic.tmom - 1))
      = Quantity.scale ((-1) ^ 1)
          ((compute SymmetryFunctionBase.accumulate Sample.sqrt Sample.harmonic 3 ⟨1, 2, 2⟩
            (fun _ => 0) (Sample.harmonic.tmom + 1)).sub
            ((fun _ => 0 : Nat → Quantity ℚ) (Sample.harmonic.tmom + 1))))
    ∧ ((compute SymmetryFunctionBase.accumulate Sample.sqrt Sample.harmonic 3 ⟨1, 2, 2⟩
          (fun _ => 0) (3 * Sample.harmonic.tmom + 1 - 1)).sub
        ((fun _ => 0 : Nat → Quantity ℚ) (3 * Sample.harmonic.tmom + 1 - 1))
      = Quantity.scale (-(-1) ^ 1)
          ((compute SymmetryFunctionBase.accumulate Sample.sqrt Sample.harmonic 3 ⟨1, 2, 2⟩
            (fun _ => 0) (3 * Sample.harmonic.tmom + 1 + 1)).sub
            ((fun _ => 0 : Nat → Quantity ℚ) (3 * Sample.harmonic.tmom + 1 + 1)))) :=
  conjugate_symmetry Sample.sqrt Sample.harmonic 3 ⟨1, 2, 2⟩ (fun _ => 0) 1
    (by decide) (by decide)

/-- C8. For every order `L` that can be constructed (with the square root and
the `pi` of the reals) and every unit direction vector, the call of `compute`
with input weight one on a fresh tape leaves values whose total power, the sum
over `m = -L .. L` of the squared real part (index `L + m`) and the squared
imaginary part (index `3L + 1 + m`), is `(2L + 1) / (4 pi)`, whatever the
direction. -/
theorem total_power (L : Nat) (sh : SphericalHarmonic ℝ)
    (hsh : construct Real.sqrt Real.pi L = Except.ok sh) (d : Vector ℝ)
    (hd : d.modulo2 = 1) :
    ∑ k in Finset.range (2 * L + 1),
        ((compute SymmetryFunctionBase.accumulate Real.sqrt sh 1 d (fun _ => 0) k).value ^ 2
          + (compute SymmetryFunctionBase.accumulate Real.sqrt sh 1 d (fun _ => 0)
              (2 * L + 1 + k)).value ^ 2)
      = (2 * (L : ℝ) + 1) / (4 * Real.pi) := by
  obtain ⟨htm, h1, h6, -, c1, c2, c3, c4, c5, c6⟩ :=
    construct_fields Real.sqrt Real.pi L sh hsh
  subst htm
  have hno := fun m hm => construct_normaliz_sq sh.tmom sh hsh m hm
  have hcases : sh.tmom = 1 ∨ sh.tmom = 2 ∨ sh.tmom = 3 ∨ sh.tmom = 4 ∨ sh.tmom = 5
      ∨ sh.tmom = 6 := by omega
  rcases hcases with h | h | h | h | h | h
  · exact power_order_one sh d hd h (c1 h) hno
  · exact power_order_two sh d hd h (c2 h) hno
  · exact power_order_three sh d hd h (c3 h) hno
  · exact power_order_four sh d hd h (c4 h) hno
  · exact power_order_five sh d hd h (c5 h) hno
  · exact power_order_six sh d hd h (c6 h) hno

/-- The statement of C8 for the order one and the direction `(0, 0, 1)`. -/
theorem total_power_witness :
    ∃ sh, construct Real.sqrt Real.pi 1 = Except.ok sh
      ∧ ∑ k in Finset.range (2 * 1 + 1),
          ((compute SymmetryFunctionBase.accumulate Real.sqrt sh 1 ⟨0, 0, 1⟩
              (fun _ => 0) k).value ^ 2
            + (compute SymmetryFunctionBase.accumulate Real.sqrt sh 1 ⟨0, 0, 1⟩
                (fun _ => 0) (2 * 1 + 1 + k)).value ^ 2)
        = (2 * ((1 : Nat) : ℝ) + 1) / (4 * Real.pi) :=
  ⟨_, rfl, total_power 1 _ rfl ⟨0, 0, 1⟩ (by norm_num [Vector.modulo2])⟩

end SphericalHarmonic

namespace WeightedAtomAverage

variable {K : Type} [Field K]

/-- C16. Deposit order does not affect the result: for every buffer and every
two tapes, gathering the first and then the second gives the buffer that
gathering the second and then the first gives; hence two task lists that are
permutations of each other accumulate to the same buffer. -/
theorem gather_order_independent (a : WeightedAtomAverage K) (h : Host K) :
    (∀ (ta tb : MultiValue K) (buffer : Nat → K),
        gatherForVirtualAtom a h tb (gatherForVirtualAtom a h ta buffer)
          = gatherForVirtualAtom a h ta (gatherForVirtualAtom a h tb buffer))
    ∧ (∀ (l1 l2 : List (MultiValue K)) (buffer : Nat → K), l1.Perm l2 →
        l1.foldl (fun b t => gatherForVirtualAtom a h t b) buffer
          = l2.foldl (fun b t => gatherForVirtualAtom a h t b) buffer) := by
  have hcomm : ∀ (ta tb : MultiValue K) (buffer : Nat → K),
      gatherForVirtualAtom a h tb (gatherForVirtualAtom a h ta buffer)
        = gatherForVirtualAtom a h ta (gatherForVirtualAtom a h tb buffer) := by
    intro ta tb buffer
    funext p
    rw [gatherForVirtualAtom_apply, gatherForVirtualAtom_apply, gatherForVirtualAtom_apply,
      gatherForVirtualAtom_apply a h tb buffer]
    ring
  refine ⟨hcomm, ?_⟩
  intro l1 l2 buffer hp
  exact List.Perm.foldl_eq' hp (fun x _ y _ z => hcomm x y z) buffer

/-- C11, the claim fails. A step with derivatives followed by a step without:
on the second step the module of the worked configuration still reserves its
four blocks at width ten, forty slots, not four. -/
theorem stale_block_width :
    (getSizeOfBuffer (getSizeOfBuffer (initial : WeightedAtomAverage ℚ) Sample.host 0 0 id 0).1
        Sample.quietHost 0 3 id 0).2 = 0 + (3 + 1) * 10
    ∧ (getSizeOfBuffer (getSizeOfBuffer (initial : WeightedAtomAverage ℚ) Sample.host 0 0 id 0).1
        Sample.quietHost 0 3 id 0).2 ≠ 0 + (Sample.quietHost.getNumberOfStoredQuantities + 1) * (1 + 0) := by
  constructor
  · rfl
  · decide

/-- C11, as amended. `getSizeOfBuffer` records the incoming buffer size as the
start offset of the module and reserves `n + 1` blocks of width `nspace` before
the base class reserves its own; `nspace` is set to one plus the number of
derivatives when derivatives are enabled for the step and keeps the value of
the earlier steps when they are disabled, which is the one of the constructor
as long as derivatives never were enabled. -/
theorem getSizeOfBuffer_reserves (a : WeightedAtomAverage K) (h : Host K)
    (upstream final_vals_size : Nat) (base : Nat → Nat) (bufsize : Nat) :
    (getSizeOfBuffer a h upstream final_vals_size base bufsize).1.bufstart = bufsize
    ∧ (getSizeOfBuffer a h upstream final_vals_size base bufsize).1.nspace
        = (if h.doNotCalculateDerivatives then a.nspace else 1 + h.getNumberOfDerivatives)
    ∧ (getSizeOfBuffer a h upstream final_vals_size base bufsize).2
        = base (bufsize + (h.getNumberOfStoredQuantities + 1)
            * (getSizeOfBuffer a h upstream final_vals_size base bufsize).1.nspace)
    ∧ (initial : WeightedAtomAverage K).nspace = 1 := by
  unfold getSizeOfBuffer
  cases hd : h.doNotCalculateDerivatives <;> cases hv : a.val_weights <;>
    by_cases hs : final_vals_size = h.getNumberOfStoredQuantities <;>
    simp [hs, hv, initial]

end WeightedAtomAverage

namespace WeightedAtomAverage

/-- C15, the claim fails. In the scenario of three atoms at `(0,0,0)`, `(1,0,0)`,
`(0,1,0)` with masses `1`, `2`, `1` the finalized `x` component is `2/4`, not
`0.4`, and the `y` component is `1/4`, not `0.2`. -/
theorem center_of_mass_not_two_fifths :
    ∃ a2, transformFinalValueAndDerivatives Sample.average Sample.host Sample.performed
        = Except.ok a2
      ∧ a2.final_vals 0 = 1 / 2 ∧ a2.final_vals 0 ≠ 0.4
      ∧ a2.final_vals 1 = 1 / 4 ∧ a2.final_vals 1 ≠ 0.2 := by
  obtain ⟨a2, hok, hv, -⟩ :=
    transformFinalValueAndDerivatives_eq Sample.average Sample.host Sample.performed
  obtain ⟨h0, h10, -, h30, -, -⟩ := sample_performed_entries
  have hx : a2.final_vals 0 = 1 / 2 := by
    rw [hv 0, if_pos (by decide)]
    show Sample.performed 0 / Sample.performed 30 = 1 / 2
    rw [h0, h30]
    norm_num
  have hy : a2.final_vals 1 = 1 / 4 := by
    rw [hv 1, if_pos (by decide)]
    show Sample.performed 10 / Sample.performed 30 = 1 / 4
    rw [h10, h30]
  refine ⟨a2, hok, hx, ?_, hy, ?_⟩
  · rw [hx]; norm_num
  · rw [hy]; norm_num

/-- C15, as amended. For three atoms at `(0,0,0)`, `(1,0,0)`, `(0,1,0)` with
masses `1`, `2`, `1`: `performTask` leaves for every atom the tape with `m * x`
on the numerators and `m` on the weight, and the mass-weighted average
finalized from the gathered tapes is the centre of mass `(1/2, 1/4, 0)`; the
derivative of its `x` component with respect to the `x` coordinate of the
second atom, `final_deriv[0][3] - final_vals[0] * weight_deriv[3]`, is `1/2`. -/
theorem center_of_mass_scenario :
    (∀ i, performTask Sample.average Sample.host (1 / 1000)
        (centerCompute Sample.average) i MultiValue.empty = Except.ok (Sample.taskTape i))
    ∧ ∃ a2, transformFinalValueAndDerivatives Sample.average Sample.host
          ([Sample.taskTape 0, Sample.taskTape 1, Sample.taskTape 2].foldl
            (fun b t => gatherForVirtualAtom Sample.average Sample.host t b) (fun _ => 0))
        = Except.ok a2
      ∧ a2.final_vals 0 = 1 / 2 ∧ a2.final_vals 1 = 1 / 4 ∧ a2.final_vals 2 = 0
      ∧ a2.final_deriv 0 3 - a2.final_vals 0 * a2.weight_deriv 3 = 1 / 2 := by
  refine ⟨sample_performTask, ?_⟩
  obtain ⟨a2, hok, hv, hder, -⟩ :=
    transformFinalValueAndDerivatives_eq Sample.average Sample.host Sample.performed
  obtain ⟨hfd, hwd⟩ := hder rfl
  obtain ⟨h0, h10, h20, h30, h4, h34⟩ := sample_performed_entries
  have hx : a2.final_vals 0 = 1 / 2 := by
    rw [hv 0, if_pos (by decide)]
    show Sample.performed 0 / Sample.performed 30 = 1 / 2
    rw [h0, h30]
    norm_num
  refine ⟨a2, hok, hx, ?_, ?_, ?_⟩
  · rw [hv 1, if_pos (by decide)]
    show Sample.performed 10 / Sample.performed 30 = 1 / 4
    rw [h10, h30]
  · rw [hv 2, if_pos (by decide)]
    show Sample.performed 20 / Sample.performed 30 = 0
    rw [h20, h30]
    norm_num
  · rw [hx, hfd 0 3, hwd 3, if_pos (by decide), if_pos (by decide)]
    show Sample.performed 4 / Sample.performed 30
      - 1 / 2 * (Sample.performed 34 / Sample.performed 30) = 1 / 2
    rw [h4, h30, h34]
    norm_num

end WeightedAtomAverage

namespace SphericalHarmonic

/-- C17. For every module, so for every order `L = tmom` in `1..6`, every `m`
with `0 ≤ m ≤ L` and every real `x`: `deriv_poly(m, x, df)` returns
`normaliz[m]` times the sum for `i = m .. L` of
`coeff_poly[i] * (i! / (i-m)!) * x^(i-m)`, it sets `df` to `normaliz[m]` times
the sum for `i = m+1 .. L` of `coeff_poly[i] * (i! / (i-m)!) * (i-m) * x^(i-m-1)`,
and `df` is the derivative of the returned value with respect to `x`. -/
theorem deriv_poly_closed_form (sh : SphericalHarmonic ℝ) (m : Nat) (x : ℝ)
    (hm : m ≤ sh.tmom) :
    (sh.deriv_poly m x).1
      = sh.normaliz.getD m 0 * ∑ i in Finset.Ico m (sh.tmom + 1), sh.coeff_poly.getD i 0
          * ((i.factorial / (i - m).factorial : Nat) : ℝ) * x ^ (i - m)
    ∧ (sh.deriv_poly m x).2
      = sh.normaliz.getD m 0 * ∑ i in Finset.Ico (m + 1) (sh.tmom + 1), sh.coeff_poly.getD i 0
          * ((i.factorial / (i - m).factorial : Nat) : ℝ) * ((i - m : Nat) : ℝ)
          * x ^ (i - m - 1)
    ∧ HasDerivAt (fun y => (sh.deriv_poly m y).1) (sh.deriv_poly m x).2 x := by
  have hval : ∀ y, (sh.deriv_poly m y).1
      = sh.normaliz.getD m 0 * ∑ i in Finset.Ico m (sh.tmom + 1), sh.coeff_poly.getD i 0
          * ((i.factorial / (i - m).factorial : Nat) : ℝ) * y ^ (i - m) := by
    intro y
    unfold deriv_poly
    simp only []
    rw [(polyLoop_eq sh m y hm).1]
  have hdf : (sh.deriv_poly m x).2
      = sh.normaliz.getD m 0 * ∑ i in Finset.Ico (m + 1) (sh.tmom + 1), sh.coeff_poly.getD i 0
          * ((i.factorial / (i - m).factorial : Nat) : ℝ) * ((i - m : Nat) : ℝ)
          * x ^ (i - m - 1) := by
    unfold deriv_poly
    simp only []
    rw [(polyLoop_eq sh m x hm).2, mul_comm]
  refine ⟨hval x, hdf, ?_⟩
  rw [hdf, show (fun y => (sh.deriv_poly m y).1)
      = fun y => sh.normaliz.getD m 0 * ∑ i in Finset.Ico m (sh.tmom + 1),
          sh.coeff_poly.getD i 0 * ((i.factorial / (i - m).factorial : Nat) : ℝ) * y ^ (i - m)
      from funext hval]
  apply HasDerivAt.const_mul
  have hsum : HasDerivAt
      (fun y => ∑ i in Finset.Ico m (sh.tmom + 1),
        sh.coeff_poly.getD i 0 * ((i.factorial / (i - m).factorial : Nat) : ℝ) * y ^ (i - m))
      (∑ i in Finset.Ico m (sh.tmom + 1),
        sh.coeff_poly.getD i 0 * ((i.factorial / (i - m).factorial : Nat) : ℝ)
          * (((i - m : Nat) : ℝ) * x ^ (i - m - 1))) x :=
    HasDerivAt.sum (fun i _ => (hasDerivAt_pow (i - m) x).const_mul _)
  rw [Finset.sum_eq_sum_Ico_succ_bot (by omega : m < sh.tmom + 1)] at hsum
  simp only [Nat.sub_self, Nat.cast_zero, zero_mul, mul_zero, zero_add] at hsum
  convert hsum using 1
  apply Finset.sum_congr rfl
  intro i _
  ring


/-- C17 on a module of order two with normalization constants `1, -1, 1`, for
`m = 1` and `x = 2`: the value is `-(3 * 2)` and its derivative is `-3`. -/
theorem deriv_poly_closed_form_witness :
    ((⟨2, [-0.5, 0.0, 1.5], [1, -1, 1]⟩ : SphericalHarmonic ℝ).deriv_poly 1 2).1 = -6
    ∧ ((⟨2, [-0.5, 0.0, 1.5], [1, -1, 1]⟩ : SphericalHarmonic ℝ).deriv_poly 1 2).2 = -3
    ∧ HasDerivAt
        (fun y => ((⟨2, [-0.5, 0.0, 1.5], [1, -1, 1]⟩ : SphericalHarmonic ℝ).deriv_poly 1 y).1)
        (-3) 2 := by
  obtain ⟨h1, h2, h3⟩ :=
    deriv_poly_closed_form (⟨2, [-0.5, 0.0, 1.5], [1, -1, 1]⟩ : SphericalHarmonic ℝ) 1 2
      (by decide)
  have e2 : ((⟨2, [-0.5, 0.0, 1.5], [1, -1, 1]⟩ : SphericalHarmonic ℝ).deriv_poly 1 2).2
      = -3 := by
    rw [h2]
    norm_num [Finset.sum_Ico_eq_sum_range, Finset.sum_range_succ, Nat.factorial]
  refine ⟨?_, e2, ?_⟩
  · rw [h1]
    norm_num [Finset.sum_Ico_eq_sum_range, Finset.sum_range_succ, Nat.factorial]
  · rw [e2] at h3
    exact h3

end SphericalHarmonic

namespace SphericalHarmonic

/-- C20, the claim fails. For the module of order two the component `3L + 1 = 7`,
the imaginary part of `m = 0`, is one of the `2(2L+1) = 10` components, and a
call of `compute` makes no call of any accumulation routine on it. -/
theorem imaginary_zero_not_written :
    3 * Sample.harmonic.tmom + 1 < 2 * (2 * Sample.harmonic.tmom + 1)
    ∧ compute SymmetryFunctionBase.count Sample.sqrt Sample.harmonic 3 ⟨1, 2, 2⟩ (fun _ => 0)
        (3 * Sample.harmonic.tmom + 1) = (0, 0, 0) := by
  refine ⟨by decide, ?_⟩
  rw [compute_count_eq, if_neg (fun h => h.2 rfl)]

/-- C20, as amended. The constructor registers `2(2L+1)` output components. A
call of `compute` calls `addToValue`, `addVectorDerivatives` and
`addWeightDerivative` exactly once each on every component below `2(2L+1)`
other than `3L + 1`, the imaginary part of `m = 0`, and makes no call on the
component `3L + 1` nor on any index from `2(2L+1)` on. -/
theorem compute_component_writes {K : Type} [Field K] (sqrt : K → K)
    (sh : SphericalHarmonic K) (val : K) (distance : Vector K) :
    (componentNames sh.tmom).length = 2 * (2 * sh.tmom + 1)
    ∧ ∀ i, compute SymmetryFunctionBase.count sqrt sh val distance (fun _ => 0) i
        = if i < 2 * (2 * sh.tmom + 1) ∧ i ≠ 3 * sh.tmom + 1 then (1, 1, 1) else (0, 0, 0) := by
  refine ⟨?_, compute_count_eq sqrt sh val distance⟩
  simp [componentNames]
  omega

end SphericalHarmonic

namespace FlexibleBin

/-- C12: in diffusion mode, whatever `nowAddAHill` is, with `decay = 1/sigma`:
a call of `update` on a mean of `ncv` entries and a covariance of
`ncv*(ncv+1)/2` entries keeps these sizes and, with
`delta_i = difference(i, mean_i, current_i)`, turns the mean of argument `i`
into `bringBackInPbc(i, mean_i + decay*delta_i)` and the covariance entry `v`
at the row-major upper-triangular position of `(i, j)`, `i ≤ j`, into
`v + decay*(delta_i*delta_j - v)`. These are the sizes of every call after the
first: the first call, on the empty vectors the constructor leaves, sets them. -/
theorem update_diffusion {K : Type} [Field K] (fb : FlexibleBin K)
    (paction : ActionWithArguments K) (nowAddAHill : Bool)
    (htype : fb.type = AdaptiveHillsType.diffusion)
    (hav : fb.average.length = paction.getNumberOfArguments)
    (hvar : fb.variance.length
      = paction.getNumberOfArguments * (paction.getNumberOfArguments + 1) / 2) :
    (∃ fb2, fb.update paction nowAddAHill = Except.ok fb2 ∧
        fb2.type = AdaptiveHillsType.diffusion ∧
        fb2.average.length = paction.getNumberOfArguments ∧
        fb2.variance.length
          = paction.getNumberOfArguments * (paction.getNumberOfArguments + 1) / 2 ∧
        (∀ i, i < paction.getNumberOfArguments →
          fb2.average.getD i 0
            = paction.bringBackInPbc i (fb.average.getD i 0
                + 1 / fb.sigma
                  * paction.difference i (fb.average.getD i 0) (paction.getArgument i))) ∧
        (∀ i j, i ≤ j → j < paction.getNumberOfArguments →
          fb2.variance.getD (upperIndex paction.getNumberOfArguments i j) 0
            = fb.variance.getD (upperIndex paction.getNumberOfArguments i j) 0
              + 1 / fb.sigma
                * (paction.difference i (fb.average.getD i 0) (paction.getArgument i)
                    * paction.difference j (fb.average.getD j 0) (paction.getArgument j)
                  - fb.variance.getD (upperIndex paction.getNumberOfArguments i j) 0))) ∧
    (∃ fb1, update { fb with average := [], variance := [] } paction nowAddAHill
          = Except.ok fb1 ∧
        fb1.type = AdaptiveHillsType.diffusion ∧
        fb1.average.length = paction.getNumberOfArguments ∧
        fb1.variance.length
          = paction.getNumberOfArguments * (paction.getNumberOfArguments + 1) / 2) := by
  constructor
  · have hupd : fb.update paction nowAddAHill
        = Except.ok { fb with
            average := (diffusionAverage fb paction).1
            variance := diffusionVariance fb paction (diffusionAverage fb paction).2 } := by
      simp only [update, htype]
    obtain ⟨a1, a2⟩ := diffusionAverage_eq fb paction hav
    obtain ⟨v1, v2⟩ := diffusionVariance_eq fb paction (diffusionAverage fb paction).2 hvar
    refine ⟨_, hupd, htype, a1, v1, fun i hi => (a2 i hi).2, fun i j hij hj => ?_⟩
    have e := v2 i j hij hj
    rw [(a2 i (by omega)).1, (a2 j hj).1] at e
    exact e
  · have hupd : update { fb with average := [], variance := [] } paction nowAddAHill
        = Except.ok { fb with
            average := (diffusionAverage { fb with average := [], variance := [] } paction).1
            variance := diffusionVariance { fb with average := [], variance := [] } paction
              (diffusionAverage { fb with average := [], variance := [] } paction).2 } := by
      simp only [update, htype]
    refine ⟨_, hupd, htype, ?_, ?_⟩
    · simp only [diffusionAverage, List.length_nil, if_true]
      rw [foldl_set_length, resize_length]
    · simp only [diffusionVariance, List.length_nil, if_true]
      rw [resize_length]

/-- The second call of the worked metric: mean `(1, 1)`, arguments at `(3, 5)`,
decay `1/2`. -/
theorem update_diffusion_witness :
    Sample.metric.type = AdaptiveHillsType.diffusion ∧
    Sample.metric.average.length = Sample.action.getNumberOfArguments ∧
    Sample.metric.variance.length
      = Sample.action.getNumberOfArguments * (Sample.action.getNumberOfArguments + 1) / 2 ∧
    ∃ fb2, Sample.metric.update Sample.action true = Except.ok fb2 ∧
      fb2.average.getD 0 0
        = Sample.action.bringBackInPbc 0 (Sample.metric.average.getD 0 0
            + 1 / Sample.metric.sigma
              * Sample.action.difference 0 (Sample.metric.average.getD 0 0)
                  (Sample.action.getArgument 0)) ∧
      fb2.variance.getD (upperIndex Sample.action.getNumberOfArguments 0 1) 0
        = Sample.metric.variance.getD (upperIndex Sample.action.getNumberOfArguments 0 1) 0
          + 1 / Sample.metric.sigma
            * (Sample.action.difference 0 (Sample.metric.average.getD 0 0)
                  (Sample.action.getArgument 0)
                * Sample.action.difference 1 (Sample.metric.average.getD 1 0)
                  (Sample.action.getArgument 1)
              - Sample.metric.variance.getD
                  (upperIndex Sample.action.getNumberOfArguments 0 1) 0) :=
  ⟨rfl, rfl, rfl,
    (update_diffusion Sample.metric Sample.action true rfl rfl rfl).1.imp
      (fun _ h => ⟨h.1, h.2.2.2.2.1 0 (by decide), h.2.2.2.2.2 0 1 (by decide) (by decide)⟩)⟩

end FlexibleBin

namespace FlexibleBin

/-- C14: the maximum-bound clamping pass of `getInverseMatrix`, for a square
root with `sqrt (x^2) = |x|` and stored maximum bounds that are positive
wherever the limit is on (which is how the constructor leaves them, last part).
After the pass the squared projection `(eigenvals[j]*eigenvecs[j][i])^2` is at
most `s_i^2` for every dimension `i` with a maximum bound and every eigenvector
`j`; the pass keeps the sign of every eigenvalue and does not increase its
magnitude; wherever the guard of a replacement holds the divisor
`eigenvecs[j][i]` is not zero; and the pass of one dimension `i`, from any
state, keeps signs, does not increase magnitudes and so keeps every bound on a
squared projection that held before it. -/
theorem clampMaximum_bounds {K : Type} [LinearOrderedField K] (fb : FlexibleBin K)
    (sqrt : K → K) (ncv : Nat) (eigenvecs : Nat → Nat → K) (eigenvals : Nat → K)
    (hsqrt : ∀ x : K, sqrt (x ^ 2) = |x|)
    (hpos : ∀ i, i < ncv → fb.limitmax.getD i false = true → 0 < fb.sigmamax.getD i 0) :
    (∀ i, i < ncv → fb.limitmax.getD i false = true → ∀ j, j < ncv →
      (clampMaximum fb sqrt ncv eigenvecs eigenvals j * eigenvecs j i) ^ 2
        ≤ (fb.sigmamax.getD i 0) ^ 2) ∧
    (∀ j, (clampMaximum fb sqrt ncv eigenvecs eigenvals j < 0 ↔ eigenvals j < 0) ∧
      (0 < clampMaximum fb sqrt ncv eigenvecs eigenvals j ↔ 0 < eigenvals j) ∧
      |clampMaximum fb sqrt ncv eigenvecs eigenvals j| ≤ |eigenvals j|) ∧
    (∀ (ev : Nat → K) i j,
      (ev j * eigenvecs j i) ^ 2 > (fb.sigmamax.getD i 0) ^ 2 → eigenvecs j i ≠ 0) ∧
    (∀ (ev : Nat → K) i, i < ncv → ∀ j,
      (clampMaximumStep fb sqrt ncv eigenvecs ev i j < 0 ↔ ev j < 0) ∧
      (0 < clampMaximumStep fb sqrt ncv eigenvecs ev i j ↔ 0 < ev j) ∧
      |clampMaximumStep fb sqrt ncv eigenvecs ev i j| ≤ |ev j| ∧
      ∀ k (bound : K), (ev j * eigenvecs j k) ^ 2 ≤ bound →
        (clampMaximumStep fb sqrt ncv eigenvecs ev i j * eigenvecs j k) ^ 2 ≤ bound) ∧
    (∀ (type : AdaptiveHillsType) (d : K) (smin smax : List K) i, i < ncv →
      (construct type ncv d smin smax).limitmax.getD i false = true →
      0 < (construct type ncv d smin smax).sigmamax.getD i 0) := by
  obtain ⟨p1, p2⟩ := clampMaximum_prefix fb sqrt hsqrt ncv eigenvecs eigenvals ncv hpos
  refine ⟨p2, p1, ?_, ?_, ?_⟩
  · intro ev i j hg he
    rw [he, mul_zero] at hg
    nlinarith [sq_nonneg (fb.sigmamax.getD i 0)]
  · intro ev i hi j
    obtain ⟨s1, -⟩ := clampMaximumStep_spec fb sqrt hsqrt ncv eigenvecs ev i (hpos i hi)
    exact ⟨(s1 j).1, (s1 j).2.1, (s1 j).2.2,
      fun k bound hb => (projection_mono _ _ _ (s1 j).2.2).trans hb⟩
  · intro type d smin smax i hi hl
    exact construct_limitmax type ncv d smin smax i hi hl

/-- Two dimensions over the reals: a maximum bound stored as `1` on the first
dimension only, eigenvalues `3` and `-3` along the coordinate axes. -/
theorem clampMaximum_bounds_witness :
    (∀ x : ℝ, Real.sqrt (x ^ 2) = |x|) ∧
    (∀ i, i < 2 →
      (FlexibleBin.mk AdaptiveHillsType.diffusion (2 : ℝ) [0, 0] [1, 0] [false, false]
        [true, false] [] []).limitmax.getD i false = true →
      0 < (FlexibleBin.mk AdaptiveHillsType.diffusion (2 : ℝ) [0, 0] [1, 0] [false, false]
        [true, false] [] []).sigmamax.getD i 0) ∧
    (clampMaximum
        (FlexibleBin.mk AdaptiveHillsType.diffusion (2 : ℝ) [0, 0] [1, 0] [false, false]
          [true, false] [] [])
        Real.sqrt 2 (fun l i => if l = i then 1 else 0) (fun l => if l = 0 then 3 else -3) 0
      * (fun (l i : Nat) => if l = i then (1 : ℝ) else 0) 0 0) ^ 2
      ≤ ((FlexibleBin.mk AdaptiveHillsType.diffusion (2 : ℝ) [0, 0] [1, 0] [false, false]
        [true, false] [] []).sigmamax.getD 0 0) ^ 2 :=
  ⟨Real.sqrt_sq_eq_abs,
    fun i hi hl => by
      interval_cases i
      · norm_num
      · simp at hl,
    (clampMaximum_bounds
      (FlexibleBin.mk AdaptiveHillsType.diffusion (2 : ℝ) [0, 0] [1, 0] [false, false]
        [true, false] [] [])
      Real.sqrt 2 (fun l i => if l = i then 1 else 0) (fun l => if l = 0 then 3 else -3)
      Real.sqrt_sq_eq_abs
      (fun i hi hl => by
        interval_cases i
        · norm_num
        · simp at hl)).1 0 (by norm_num) rfl 0 (by norm_num)⟩

end FlexibleBin
namespace FlexibleBin

/-- C19: the minimum-bound search of `getInverseMatrix` for a dimension `i`
with a minimum bound (stored value `s_i`), for a square root with
`sqrt (x^2) = |x|`. The selected index `imax` is an eigenvector of largest
squared projection `(eigenvals[j]*eigenvecs[j][i])^2` and every eigenvector
before it has a strictly smaller one, which determines it; if that largest
squared projection is below `s_i^2` the eigenvalue `imax` is replaced by
`|s_i / eigenvecs[imax][i]|` carrying the sign of the old eigenvalue, otherwise
nothing is changed; no other eigenvalue is changed. -/
theorem clampMinimumStep_deterministic {K : Type} [LinearOrderedField K]
    (fb : FlexibleBin K) (sqrt : K → K) (ncv : Nat) (eigenvecs : Nat → Nat → K)
    (eigenvals : Nat → K) (i : Nat)
    (hsqrt : ∀ x : K, sqrt (x ^ 2) = |x|) (hi : i < ncv)
    (hl : fb.limitmin.getD i false = true) :
    (largestProjection ncv eigenvecs eigenvals i).1 < ncv ∧
    (∀ j, j < ncv → (eigenvals j * eigenvecs j i) ^ 2
      ≤ (eigenvals (largestProjection ncv eigenvecs eigenvals i).1
          * eigenvecs (largestProjection ncv eigenvecs eigenvals i).1 i) ^ 2) ∧
    (∀ j, j < (largestProjection ncv eigenvecs eigenvals i).1 →
      (eigenvals j * eigenvecs j i) ^ 2
        < (eigenvals (largestProjection ncv eigenvecs eigenvals i).1
            * eigenvecs (largestProjection ncv eigenvecs eigenvals i).1 i) ^ 2) ∧
    (∀ k, k < ncv →
      (∀ j, j < ncv → (eigenvals j * eigenvecs j i) ^ 2 ≤ (eigenvals k * eigenvecs k i) ^ 2) →
      (∀ j, j < k → (eigenvals j * eigenvecs j i) ^ 2 < (eigenvals k * eigenvecs k i) ^ 2) →
      k = (largestProjection ncv eigenvecs eigenvals i).1) ∧
    clampMinimumStep fb sqrt ncv eigenvecs eigenvals i
      = (if (eigenvals (largestProjection ncv eigenvecs eigenvals i).1
              * eigenvecs (largestProjection ncv eigenvecs eigenvals i).1 i) ^ 2
            < (fb.sigmamin.getD i 0) ^ 2 then
          Function.update eigenvals (largestProjection ncv eigenvecs eigenvals i).1
            (|fb.sigmamin.getD i 0
                / eigenvecs (largestProjection ncv eigenvecs eigenvals i).1 i|
              * (if eigenvals (largestProjection ncv eigenvecs eigenvals i).1 < 0 then -1
                  else 1))
        else eigenvals) ∧
    (∀ j, j ≠ (largestProjection ncv eigenvecs eigenvals i).1 →
      clampMinimumStep fb sqrt ncv eigenvecs eigenvals i j = eigenvals j) := by
  obtain ⟨a1, a2, a3, a4⟩ := (largestProjection_loop eigenvecs eigenvals i ncv).2 (by omega)
  have hstep : clampMinimumStep fb sqrt ncv eigenvecs eigenvals i
      = (if (eigenvals (largestProjection ncv eigenvecs eigenvals i).1
              * eigenvecs (largestProjection ncv eigenvecs eigenvals i).1 i) ^ 2
            < (fb.sigmamin.getD i 0) ^ 2 then
          Function.update eigenvals (largestProjection ncv eigenvecs eigenvals i).1
            (|fb.sigmamin.getD i 0
                / eigenvecs (largestProjection ncv eigenvecs eigenvals i).1 i|
              * (if eigenvals (largestProjection ncv eigenvecs eigenvals i).1 < 0 then -1
                  else 1))
        else eigenvals) := by
    unfold clampMinimumStep
    rw [if_pos hl]
    simp only [hsqrt, ← a2, copysign, abs_one]
  refine ⟨a1, fun j hj => a2 ▸ a3 j hj, fun j hj => a2 ▸ a4 j hj, ?_, hstep, ?_⟩
  · intro k hk h1 h2
    rcases Nat.lt_trichotomy k (largestProjection ncv eigenvecs eigenvals i).1 with h | h | h
    · have := a4 k h
      rw [a2] at this
      exact absurd (h1 _ a1) (not_le.mpr this)
    · exact h
    · have := h2 _ h
      have h3 := a3 k hk
      rw [a2] at h3
      exact absurd h3 (not_le.mpr this)
  · intro j hj
    rw [hstep]
    by_cases hc : (eigenvals (largestProjection ncv eigenvecs eigenvals i).1
        * eigenvecs (largestProjection ncv eigenvecs eigenvals i).1 i) ^ 2
          < (fb.sigmamin.getD i 0) ^ 2
    · rw [if_pos hc]
      exact Function.update_noteq hj _ _
    · rw [if_neg hc]

/-- Two dimensions over the reals with a minimum bound stored as `4` on the
first: both eigenvectors project equally on it, so the first one is selected. -/
theorem clampMinimumStep_deterministic_witness :
    (∀ x : ℝ, Real.sqrt (x ^ 2) = |x|) ∧ 0 < 2 ∧
    (FlexibleBin.mk AdaptiveHillsType.diffusion (2 : ℝ) [4, 0] [0, 0] [true, false]
      [false, false] [] []).limitmin.getD 0 false = true ∧
    (largestProjection 2 (fun _ _ => (1 : ℝ)) (fun _ => 1) 0).1 < 2 ∧
    (∀ j, j < (largestProjection 2 (fun _ _ => (1 : ℝ)) (fun _ => 1) 0).1 →
      ((fun _ => (1 : ℝ)) j * (fun _ _ => (1 : ℝ)) j 0) ^ 2
        < ((fun _ => (1 : ℝ)) (largestProjection 2 (fun _ _ => (1 : ℝ)) (fun _ => 1) 0).1
            * (fun _ _ => (1 : ℝ))
                (largestProjection 2 (fun _ _ => (1 : ℝ)) (fun _ => 1) 0).1 0) ^ 2) :=
  ⟨Real.sqrt_sq_eq_abs, by decide, rfl,
    (clampMinimumStep_deterministic
      (FlexibleBin.mk AdaptiveHillsType.diffusion (2 : ℝ) [4, 0] [0, 0] [true, false]
        [false, false] [] [])
      Real.sqrt 2 (fun _ _ => 1) (fun _ => 1) 0 Real.sqrt_sq_eq_abs (by decide) rfl).1,
    (clampMinimumStep_deterministic
      (FlexibleBin.mk AdaptiveHillsType.diffusion (2 : ℝ) [4, 0] [0, 0] [true, false]
        [false, false] [] [])
      Real.sqrt 2 (fun _ _ => 1) (fun _ => 1) 0 Real.sqrt_sq_eq_abs (by decide) rfl).2.2.1⟩

end FlexibleBin

namespace FlexibleBin

/-- C13: without minimum and maximum bounds, when `diagMat` succeeds on the
matrix rebuilt from the stored upper triangle and returns orthonormal
eigenvectors, stored as rows, with their non-zero eigenvalues. The rebuilt
matrix is symmetric, with the stored entry of position `(i, j)` at `(i, j)` and
`(j, i)`; `getInverseMatrix` returns `ncv*(ncv+1)/2` entries, the one at the
row-major upper-triangular position of `(i, j)` being the sum over `l` of
`eigenvecs[l][i]*eigenvecs[l][j]/eigenvals[l]`; and the matrix of these sums is
the inverse of the rebuilt matrix. -/
theorem getInverseMatrix_inverse {K : Type} [LinearOrderedField K] (fb : FlexibleBin K)
    (paction : ActionWithArguments K)
    (diagMat : Nat → (Nat → Nat → K) → Int × (Nat → K) × (Nat → Nat → K)) (sqrt : K → K)
    (hnomin : ∀ i, i < paction.getNumberOfArguments → fb.limitmin.getD i false = false)
    (hnomax : ∀ i, i < paction.getNumberOfArguments → fb.limitmax.getD i false = false)
    (hok : (diagMat paction.getNumberOfArguments
      (fullMatrix fb.variance paction.getNumberOfArguments)).1 = 0)
    (hortho : ∀ l l', l < paction.getNumberOfArguments → l' < paction.getNumberOfArguments →
      ∑ i in Finset.range paction.getNumberOfArguments,
        (diagMat paction.getNumberOfArguments
            (fullMatrix fb.variance paction.getNumberOfArguments)).2.2 l i
          * (diagMat paction.getNumberOfArguments
            (fullMatrix fb.variance paction.getNumberOfArguments)).2.2 l' i
        = if l = l' then 1 else 0)
    (heig : ∀ l i, l < paction.getNumberOfArguments → i < paction.getNumberOfArguments →
      ∑ j in Finset.range paction.getNumberOfArguments,
        fullMatrix fb.variance paction.getNumberOfArguments i j
          * (diagMat paction.getNumberOfArguments
            (fullMatrix fb.variance paction.getNumberOfArguments)).2.2 l j
        = (diagMat paction.getNumberOfArguments
            (fullMatrix fb.variance paction.getNumberOfArguments)).2.1 l
          * (diagMat paction.getNumberOfArguments
            (fullMatrix fb.variance paction.getNumberOfArguments)).2.2 l i)
    (hne : ∀ l, l < paction.getNumberOfArguments →
      (diagMat paction.getNumberOfArguments
        (fullMatrix fb.variance paction.getNumberOfArguments)).2.1 l ≠ 0) :
    (∀ i j, i ≤ j → j < paction.getNumberOfArguments →
      fullMatrix fb.variance paction.getNumberOfArguments i j
        = fb.variance.getD (upperIndex paction.getNumberOfArguments i j) 0 ∧
      fullMatrix fb.variance paction.getNumberOfArguments j i
        = fb.variance.getD (upperIndex paction.getNumberOfArguments i j) 0) ∧
    (∃ uppervec, getInverseMatrix fb paction diagMat sqrt = Except.ok uppervec ∧
      uppervec.length
        = paction.getNumberOfArguments * (paction.getNumberOfArguments + 1) / 2 ∧
      ∀ i j, i ≤ j → j < paction.getNumberOfArguments →
        uppervec.getD (upperIndex paction.getNumberOfArguments i j) 0
          = ∑ l in Finset.range paction.getNumberOfArguments,
              (diagMat paction.getNumberOfArguments
                  (fullMatrix fb.variance paction.getNumberOfArguments)).2.2 l i
                * (diagMat paction.getNumberOfArguments
                  (fullMatrix fb.variance paction.getNumberOfArguments)).2.2 l j
                / (diagMat paction.getNumberOfArguments
                  (fullMatrix fb.variance paction.getNumberOfArguments)).2.1 l) ∧
    (Matrix.of fun (a b : Fin paction.getNumberOfArguments) =>
        fullMatrix fb.variance paction.getNumberOfArguments a b)
      * (Matrix.of fun (a b : Fin paction.getNumberOfArguments) =>
        ∑ l in Finset.range paction.getNumberOfArguments,
          (diagMat paction.getNumberOfArguments
              (fullMatrix fb.variance paction.getNumberOfArguments)).2.2 l a
            * (diagMat paction.getNumberOfArguments
              (fullMatrix fb.variance paction.getNumberOfArguments)).2.2 l b
            / (diagMat paction.getNumberOfArguments
              (fullMatrix fb.variance paction.getNumberOfArguments)).2.1 l) = 1 := by
  refine ⟨fun i j hij hj => fullMatrix_entry fb.variance _ hij hj, ?_,
    eigen_inverse _ _ _ _ hortho heig hne⟩
  have hget : getInverseMatrix fb paction diagMat sqrt
      = Except.ok (inverseFromEigen paction.getNumberOfArguments
          (diagMat paction.getNumberOfArguments
            (fullMatrix fb.variance paction.getNumberOfArguments)).2.2
          (diagMat paction.getNumberOfArguments
            (fullMatrix fb.variance paction.getNumberOfArguments)).2.1) := by
    unfold getInverseMatrix
    simp only [hok, ne_eq, not_true_eq_false, if_false]
    rw [clamp_without_bounds fb sqrt _ _ _ hnomin hnomax]
  obtain ⟨h1, h2⟩ := inverseFromEigen_entry paction.getNumberOfArguments
    (diagMat paction.getNumberOfArguments
      (fullMatrix fb.variance paction.getNumberOfArguments)).2.2
    (diagMat paction.getNumberOfArguments
      (fullMatrix fb.variance paction.getNumberOfArguments)).2.1
  exact ⟨_, hget, h1, h2⟩

end FlexibleBin
namespace FlexibleBin

/-- The worked metric with eigenvalues 1 and 2 along `(3/5, 4/5)` and
`(-4/5, 3/5)`: the hypotheses hold and three entries are returned, the first
being `17/25`. -/
theorem getInverseMatrix_inverse_witness :
    (∀ i, i < 2 → Sample.tilted.limitmin.getD i false = false) ∧
    (∀ i, i < 2 → Sample.tilted.limitmax.getD i false = false) ∧
    (Sample.tiltedDiag 2 (fullMatrix Sample.tilted.variance 2)).1 = 0 ∧
    (∀ l l', l < 2 → l' < 2 →
      ∑ i in Finset.range 2,
        (Sample.tiltedDiag 2 (fullMatrix Sample.tilted.variance 2)).2.2 l i
          * (Sample.tiltedDiag 2 (fullMatrix Sample.tilted.variance 2)).2.2 l' i
        = if l = l' then 1 else 0) ∧
    (∀ l i, l < 2 → i < 2 →
      ∑ j in Finset.range 2,
        fullMatrix Sample.tilted.variance 2 i j
          * (Sample.tiltedDiag 2 (fullMatrix Sample.tilted.variance 2)).2.2 l j
        = (Sample.tiltedDiag 2 (fullMatrix Sample.tilted.variance 2)).2.1 l
          * (Sample.tiltedDiag 2 (fullMatrix Sample.tilted.variance 2)).2.2 l i) ∧
    (∀ l, l < 2 → (Sample.tiltedDiag 2 (fullMatrix Sample.tilted.variance 2)).2.1 l ≠ 0) ∧
    ∃ uppervec,
      getInverseMatrix Sample.tilted Sample.action Sample.tiltedDiag (fun x => x)
        = Except.ok uppervec ∧
      uppervec.length = 3 ∧ uppervec.getD 0 0 = 17 / 25 := by
  have hnomin : ∀ i, i < 2 → Sample.tilted.limitmin.getD i false = false := by
    intro i hi
    interval_cases i <;> rfl
  have hnomax : ∀ i, i < 2 → Sample.tilted.limitmax.getD i false = false := by
    intro i hi
    interval_cases i <;> rfl
  have hortho : ∀ l l', l < 2 → l' < 2 →
      ∑ i in Finset.range 2,
        (Sample.tiltedDiag 2 (fullMatrix Sample.tilted.variance 2)).2.2 l i
          * (Sample.tiltedDiag 2 (fullMatrix Sample.tilted.variance 2)).2.2 l' i
        = if l = l' then 1 else 0 := by
    intro l l' hl hl'
    interval_cases l <;> interval_cases l' <;>
      norm_num [Sample.tiltedDiag, Finset.sum_range_succ]
  have hm : ∀ i j, i < 2 → j < 2 → fullMatrix Sample.tilted.variance 2 i j
      = if i = j then (if i = 0 then 41 / 25 else 34 / 25) else -12 / 25 := by
    intro i j hi hj
    interval_cases i <;> interval_cases j
    · exact (fullMatrix_entry _ 2 (le_refl 0) (by decide)).1
    · exact (fullMatrix_entry _ 2 (show 0 ≤ 1 by decide) (by decide)).1
    · exact (fullMatrix_entry _ 2 (show 0 ≤ 1 by decide) (by decide)).2
    · exact (fullMatrix_entry _ 2 (le_refl 1) (by decide)).1
  have heig : ∀ l i, l < 2 → i < 2 →
      ∑ j in Finset.range 2,
        fullMatrix Sample.tilted.variance 2 i j
          * (Sample.tiltedDiag 2 (fullMatrix Sample.tilted.variance 2)).2.2 l j
        = (Sample.tiltedDiag 2 (fullMatrix Sample.tilted.variance 2)).2.1 l
          * (Sample.tiltedDiag 2 (fullMatrix Sample.tilted.variance 2)).2.2 l i := by
    intro l i hl hi
    rw [Finset.sum_range_succ, Finset.sum_range_succ, Finset.sum_range_zero,
      hm i 0 hi (by decide), hm i 1 hi (by decide)]
    interval_cases l <;> interval_cases i <;> norm_num [Sample.tiltedDiag]
  have hne : ∀ l, l < 2 →
      (Sample.tiltedDiag 2 (fullMatrix Sample.tilted.variance 2)).2.1 l ≠ 0 := by
    intro l hl
    interval_cases l <;> norm_num [Sample.tiltedDiag]
  refine ⟨hnomin, hnomax, rfl, hortho, heig, hne, ?_⟩
  obtain ⟨uppervec, h1, h2, h3⟩ :=
    (getInverseMatrix_inverse Sample.tilted Sample.action Sample.tiltedDiag (fun x => x)
      hnomin hnomax rfl hortho heig hne).2.1
  refine ⟨uppervec, h1, h2, ?_⟩
  have := h3 0 0 (le_refl 0) (by decide)
  rw [show upperIndex Sample.action.getNumberOfArguments 0 0 = 0 from rfl] at this
  rw [this, show Sample.action.getNumberOfArguments = 2 from rfl, Finset.sum_range_succ,
    Finset.sum_range_succ, Finset.sum_range_zero]
  norm_num [Sample.tiltedDiag]

end FlexibleBin

namespace WeightedAtomAverage

/-- C18 as stated fails for a weight of magnitude at most `epsilon`: the
upstream weight `2^-53` has the active derivative `5` with respect to the
upstream index `0`, derivatives are enabled, and `performTask` returns the tape
of the per-task compute, with nothing recorded on the denominator tape at the
global index `3*3 + 0`. -/
theorem small_weight_not_tagged :
    (Sample.upstreamTape (1 / 2 ^ 53)).getNumberActive 4 = 1 ∧
    (Sample.upstreamTape (1 / 2 ^ 53)).getActiveIndex 4 0 = 0 ∧
    (Sample.upstreamTape (1 / 2 ^ 53)).getDerivative 4 0 = 5 ∧
    Sample.chainHost.doNotCalculateDerivatives = false ∧
    ∃ mv, performTask Sample.chained Sample.chainHost Sample.epsilon
        (centerCompute Sample.chained) 0 (Sample.upstreamTape (1 / 2 ^ 53)) = Except.ok mv ∧
      mv.getDerivative Sample.chained.myw (3 * 3 + 0) = 0 ∧
      mv.getDerivative Sample.chained.myw (3 * 3 + 0)
        ≠ (Sample.upstreamTape (1 / 2 ^ 53)).getDerivative 4 0 := by
  have hrun : performTask Sample.chained Sample.chainHost Sample.epsilon
      (centerCompute Sample.chained) 0 (Sample.upstreamTape (1 / 2 ^ 53))
      = Except.ok (centerCompute Sample.chained 0 (1 / 2 ^ 53) (Sample.chainHost.getPosition 0)
          ((Sample.upstreamTape (1 / 2 ^ 53)).addValue Sample.chained.myw (1 / 2 ^ 53))) := by
    have habs : ¬ (Sample.epsilon < |(1 / 2 ^ 53 : ℚ)|) := by
      rw [abs_of_pos (by norm_num)]
      norm_num [Sample.epsilon]
    rw [one_div] at habs
    simp [performTask, Sample.chained, Sample.average, Sample.chainHost, Sample.host,
      Sample.upstreamTape, MultiValue.get, bind, Except.bind, pure, Except.pure]
    intro hlt
    exact absurd hlt habs
  have hzero : (centerCompute Sample.chained 0 (1 / 2 ^ 53) (Sample.chainHost.getPosition 0)
      ((Sample.upstreamTape (1 / 2 ^ 53)).addValue Sample.chained.myw
        (1 / 2 ^ 53))).getDerivative Sample.chained.myw (3 * 3 + 0) = 0 := by
    simp [centerCompute, addDerivative, MultiValue.addDerivative, MultiValue.updateIndex,
      MultiValue.addValue, MultiValue.getDerivative, Sample.upstreamTape, Sample.chained,
      Sample.average, Function.update_apply, addTo_apply, apply_ite]
  refine ⟨rfl, rfl, ?_, rfl, _, hrun, hzero, ?_⟩
  · simp [Sample.upstreamTape, MultiValue.getDerivative]
  · rw [hzero]
    simp [Sample.upstreamTape, MultiValue.getDerivative]

/-- C18, for a weight of magnitude above `epsilon`: a task whose weight `w`
comes from the upstream stream at stash `istrn` (read from the tape in a chain,
from the stored vector otherwise), with derivatives enabled and
`|w| > epsilon ≥ 0`, where `istrn` and the denominator stash `myw` lie outside
the numerator stashes `myx .. myx+n-1`, `istrn` differs from `myw` and the
active indices of `istrn` are distinct. With `mv0` the tape after the per-task
compute, `performTask` returns a tape that, for every active upstream index
`k` with derivative `der`, holds on the denominator tape at the global index
`3*natoms + k` the derivative of `mv0` plus `der`, and on every numerator tape
`j` that of `mv0` plus `der*value_j/w`; the index is active on these tapes; and
`der*value_j/w` is `x*der` whenever `value_j = w*x`. -/
theorem performTask_tags {K : Type} [LinearOrderedField K]
    (a : WeightedAtomAverage K) (h : Host K) (epsilon : K)
    (compute : Nat → K → Vector K → MultiValue K → MultiValue K)
    (task_index : Nat) (myvals : MultiValue K) (vw : WeightValue K) (w : K)
    (mv0 : MultiValue K)
    (hmass : a.weight_mass = false) (hcharge : a.weight_charge = false)
    (hvw : a.val_weights = some vw) (hder : h.doNotCalculateDerivatives = false)
    (hw : w = if h.actionInChain then myvals.get vw.getPositionInStream
      else vw.get task_index)
    (hmv0 : mv0 = compute task_index w (h.getPosition task_index) (myvals.addValue a.myw w))
    (heps0 : 0 ≤ epsilon) (heps : epsilon < |w|)
    (hsx : ¬ (a.myx ≤ vw.getPositionInStream ∧
      vw.getPositionInStream < a.myx + h.getNumberOfStoredQuantities))
    (hsw : vw.getPositionInStream ≠ a.myw)
    (hxw : ¬ (a.myx ≤ a.myw ∧ a.myw < a.myx + h.getNumberOfStoredQuantities))
    (hnd : (mv0.active vw.getPositionInStream).Nodup) :
    ∃ mv, performTask a h epsilon compute task_index myvals = Except.ok mv ∧
      mv.values = mv0.values ∧
      ∀ k, k ∈ mv0.active vw.getPositionInStream →
        mv.getDerivative a.myw (3 * h.getNumberOfAtoms + k)
          = mv0.getDerivative a.myw (3 * h.getNumberOfAtoms + k)
            + mv0.getDerivative vw.getPositionInStream k ∧
        3 * h.getNumberOfAtoms + k ∈ mv.active a.myw ∧
        ∀ j, j < h.getNumberOfStoredQuantities →
          mv.getDerivative (a.myx + j) (3 * h.getNumberOfAtoms + k)
            = mv0.getDerivative (a.myx + j) (3 * h.getNumberOfAtoms + k)
              + mv0.getDerivative vw.getPositionInStream k * mv0.get (a.myx + j) / w ∧
          3 * h.getNumberOfAtoms + k ∈ mv.active (a.myx + j) ∧
          ∀ x, mv0.get (a.myx + j) = w * x →
            mv0.getDerivative vw.getPositionInStream k * mv0.get (a.myx + j) / w
              = x * mv0.getDerivative vw.getPositionInStream k := by
  have hw0 : w ≠ 0 := by
    intro h0
    rw [h0, abs_zero] at heps
    exact absurd heps (not_lt.mpr heps0)
  obtain ⟨S, hS, s1, s2, s3, s4⟩ := tag_loop a h.getNumberOfStoredQuantities
    (3 * h.getNumberOfAtoms) vw.getPositionInStream (1 / w) mv0 hsx hsw
    (mv0.getNumberActive vw.getPositionInStream)
  have hrun : performTask a h epsilon compute task_index myvals = Except.ok S := by
    rw [← hS]
    subst hmv0
    unfold performTask
    cases hc : h.actionInChain
    · rw [hc] at hw
      simp only [Bool.false_eq_true, if_false] at hw
      subst hw
      simp only [hmass, hcharge, hvw, hder, hc, bind, Except.bind, pure, Except.pure, heps,
        Bool.false_eq_true, if_false, Bool.not_false, Bool.true_and, decide_True, if_true]
    · rw [hc] at hw
      simp only [if_true] at hw
      subst hw
      simp only [hmass, hcharge, hvw, hder, hc, bind, Except.bind, pure, Except.pure, heps,
        Bool.false_eq_true, if_false, Bool.not_false, Bool.true_and, decide_True, if_true]
  refine ⟨S, hrun, s1, fun k hk => ?_⟩
  obtain ⟨n, hn, hnk⟩ := List.getElem_of_mem hk
  have haidx : ∀ k', k' < mv0.getNumberActive vw.getPositionInStream →
      (mv0.getActiveIndex vw.getPositionInStream k' = k ↔ k' = n) := by
    intro k' hk'
    unfold MultiValue.getActiveIndex
    rw [List.getD_eq_getElem _ _ hk', ← hnk]
    exact hnd.getElem_inj_iff
  have hsum : ∀ t, S.derivatives t (3 * h.getNumberOfAtoms + k)
      = mv0.derivatives t (3 * h.getNumberOfAtoms + k)
        + ((if t = a.myw then mv0.getDerivative vw.getPositionInStream k else 0)
          + (if a.myx ≤ t ∧ t < a.myx + h.getNumberOfStoredQuantities then
              mv0.getDerivative vw.getPositionInStream k * (1 / w) * mv0.values t
            else 0)) := by
    intro t
    rw [s3 t, Finset.sum_eq_single n]
    · rw [if_pos (by rw [(haidx n hn).mpr rfl]), (haidx n hn).mpr rfl]
    · intro k' hk' hne
      rw [if_neg]
      intro he
      exact hne ((haidx k' (Finset.mem_range.mp hk')).mp (by omega))
    · intro hnot
      exact absurd (Finset.mem_range.mpr hn) hnot
  refine ⟨?_, s4 n hn a.myw (Or.inl rfl) |> fun e => by rwa [(haidx n hn).mpr rfl] at e,
    fun j hj => ⟨?_, ?_, fun x hx => ?_⟩⟩
  · unfold MultiValue.getDerivative
    rw [hsum a.myw, if_pos rfl, if_neg hxw, add_zero]
    rfl
  · unfold MultiValue.getDerivative MultiValue.get
    rw [hsum (a.myx + j), if_neg (fun e => hxw (by omega)), if_pos (by omega), zero_add]
    show _ + mv0.derivatives _ k * (1 / w) * _ = _ + mv0.derivatives _ k * _ / w
    ring
  · have e := s4 n hn (a.myx + j) (Or.inr (by omega))
    rwa [(haidx n hn).mpr rfl] at e
  · rw [hx]
    field_simp
    ring

end WeightedAtomAverage
namespace WeightedAtomAverage

/-- The task of atom `1` of the worked configuration in a chain, with the
upstream weight `2` at stash `4` and its derivative `5` with respect to the
upstream index `0`: the derivative is recorded on the denominator tape at the
global index `9`. -/
theorem performTask_tags_witness :
    Sample.chained.weight_mass = false ∧ Sample.chained.weight_charge = false ∧
    Sample.chained.val_weights = some ⟨4, fun _ => 1⟩ ∧
    Sample.chainHost.doNotCalculateDerivatives = false ∧
    (0 : ℚ) ≤ Sample.epsilon ∧ Sample.epsilon < |(2 : ℚ)| ∧
    ¬ (Sample.chained.myx ≤ 4 ∧ 4 < Sample.chained.myx
        + Sample.chainHost.getNumberOfStoredQuantities) ∧
    4 ≠ Sample.chained.myw ∧
    ¬ (Sample.chained.myx ≤ Sample.chained.myw ∧ Sample.chained.myw < Sample.chained.myx
        + Sample.chainHost.getNumberOfStoredQuantities) ∧
    ((centerCompute Sample.chained 1 2 (Sample.chainHost.getPosition 1)
        ((Sample.upstreamTape 2).addValue Sample.chained.myw 2)).active 4).Nodup ∧
    ∃ mv, performTask Sample.chained Sample.chainHost Sample.epsilon
        (centerCompute Sample.chained) 1 (Sample.upstreamTape 2) = Except.ok mv ∧
      mv.getDerivative Sample.chained.myw (3 * Sample.chainHost.getNumberOfAtoms + 0)
        = (centerCompute Sample.chained 1 2 (Sample.chainHost.getPosition 1)
            ((Sample.upstreamTape 2).addValue Sample.chained.myw 2)).getDerivative
              Sample.chained.myw (3 * Sample.chainHost.getNumberOfAtoms + 0)
          + (centerCompute Sample.chained 1 2 (Sample.chainHost.getPosition 1)
            ((Sample.upstreamTape 2).addValue Sample.chained.myw 2)).getDerivative 4 0 := by
  have hact : (centerCompute Sample.chained 1 2 (Sample.chainHost.getPosition 1)
      ((Sample.upstreamTape 2).addValue Sample.chained.myw 2)).active 4 = [0] := by
    simp [centerCompute, addDerivative, MultiValue.addDerivative, MultiValue.updateIndex,
      MultiValue.addValue, Sample.upstreamTape, Sample.chained, Sample.average,
      Function.update_apply, apply_ite]
  have heps0 : (0 : ℚ) ≤ Sample.epsilon := by norm_num [Sample.epsilon]
  have heps : Sample.epsilon < |(2 : ℚ)| := by
    rw [abs_of_pos (by norm_num)]
    norm_num [Sample.epsilon]
  have hnd : ((centerCompute Sample.chained 1 2 (Sample.chainHost.getPosition 1)
      ((Sample.upstreamTape 2).addValue Sample.chained.myw 2)).active 4).Nodup := by
    rw [hact]
    exact List.nodup_singleton 0
  refine ⟨rfl, rfl, rfl, rfl, heps0, heps, by decide, by decide, by decide, hnd, ?_⟩
  obtain ⟨mv, h1, -, h3⟩ := performTask_tags Sample.chained Sample.chainHost Sample.epsilon
    (centerCompute Sample.chained) 1 (Sample.upstreamTape 2) ⟨4, fun _ => 1⟩ 2
    (centerCompute Sample.chained 1 2 (Sample.chainHost.getPosition 1)
      ((Sample.upstreamTape 2).addValue Sample.chained.myw 2))
    rfl rfl rfl rfl rfl rfl heps0 heps (by decide) (by decide) (by decide) hnd
  exact ⟨mv, h1, (h3 0 (by rw [hact]; exact List.mem_singleton_self 0)).1⟩

end WeightedAtomAverage

namespace SphericalHarmonic

/-- C21: over the reals, for every module, so for every constructed order, every
non-zero direction vector `d`, every input weight and every tape: the
three-component gradient that `compute` deposits into a component, any
component, has zero dot product with `d`, and so has the gradient `dz` of
`z/r`; and what `compute` deposits into the value and into the weight
derivative of a component is the same for `d` and for every positive multiple
of `d`, so it depends on the direction of `d` only. A deposit is the change of
the component. -/
theorem gradient_orthogonal (sh : SphericalHarmonic ℝ) (val : ℝ) (d : Vector ℝ)
    (t0 : Nat → Quantity ℝ) (hd : d ≠ Vector.zero) :
    (∀ i, ((compute SymmetryFunctionBase.accumulate Real.sqrt sh val d t0 i).sub
        (t0 i)).deriv.dot d = 0)
    ∧ (gradZ Real.sqrt d).dot d = 0
    ∧ ∀ s : ℝ, 0 < s → ∀ i,
      ((compute SymmetryFunctionBase.accumulate Real.sqrt sh val (Vector.smul s d) t0 i).sub
          (t0 i)).value
        = ((compute SymmetryFunctionBase.accumulate Real.sqrt sh val d t0 i).sub (t0 i)).value
      ∧ ((compute SymmetryFunctionBase.accumulate Real.sqrt sh val (Vector.smul s d) t0 i).sub
          (t0 i)).wderiv
        = ((compute SymmetryFunctionBase.accumulate Real.sqrt sh val d t0 i).sub
          (t0 i)).wderiv := by
  have hpos : 0 < d.modulo2 := by
    have hnn : 0 ≤ d.modulo2 := by
      unfold Vector.modulo2
      nlinarith [mul_self_nonneg d.x, mul_self_nonneg d.y, mul_self_nonneg d.z]
    refine lt_of_le_of_ne hnn (fun h0 => hd ?_)
    have h1 : d.x * d.x + d.y * d.y + d.z * d.z = 0 := h0.symm
    apply Vector.ext
    · exact mul_self_eq_zero.mp (le_antisymm
        (by nlinarith [mul_self_nonneg d.y, mul_self_nonneg d.z]) (mul_self_nonneg _))
    · exact mul_self_eq_zero.mp (le_antisymm
        (by nlinarith [mul_self_nonneg d.x, mul_self_nonneg d.z]) (mul_self_nonneg _))
    · exact mul_self_eq_zero.mp (le_antisymm
        (by nlinarith [mul_self_nonneg d.x, mul_self_nonneg d.y]) (mul_self_nonneg _))
  have hs : Real.sqrt d.modulo2 ≠ 0 := (Real.sqrt_pos.mpr hpos).ne.symm
  exact ⟨fun i => compute_dot Real.sqrt d hpos.ne.symm hs sh val t0 i,
    gradZ_dot Real.sqrt d hpos.ne.symm hs,
    fun s hs0 i => compute_stretch sh val d s hs0 t0 i⟩

/-- The statement of C21 on a module of order two for the direction `(1, 2, 2)`
and the input weight `3`, at the component of the real part of `m = 1`. -/
theorem gradient_orthogonal_witness :
    (⟨1, 2, 2⟩ : Vector ℝ) ≠ Vector.zero ∧
    ((compute SymmetryFunctionBase.accumulate Real.sqrt
        (⟨2, [-0.5, 0.0, 1.5], [1, -1, 1]⟩ : SphericalHarmonic ℝ) 3 ⟨1, 2, 2⟩
        (fun _ => 0) 3).sub ((fun _ => 0 : Nat → Quantity ℝ) 3)).deriv.dot ⟨1, 2, 2⟩ = 0 :=
  ⟨fun h => by
      have := congrArg Vector.x h
      norm_num [Vector.zero] at this,
    (gradient_orthogonal ⟨2, [-0.5, 0.0, 1.5], [1, -1, 1]⟩ 3 ⟨1, 2, 2⟩ (fun _ => 0)
      (fun h => by
        have := congrArg Vector.x h
        norm_num [Vector.zero] at this)).1 3⟩

end SphericalHarmonic

end PLMD
